import Mathlib

/-!
# Array operations of the simulation runtime

A shallow embedding of `OMCompiler/SimulationRuntime/cpp/Core/Math/ArrayOperations.cpp`.

Arrays are values `BaseArray T`: a dimension list and a flat storage list.
Operations that write into a destination take the destination as an
argument and return the updated destination; a thrown
`ModelicaSimulationError` is the `Except.error` branch.

Sizes, counters and indices (`size_t`, `unsigned int`, `int`) are natural
numbers. The element type is a parameter; for the `int` instantiation the
theorems take the integers, on which the arithmetic of the source is exact as
long as it does not overflow.

The homotopy solver declared in `nonlinearSolverHomotopy.h` follows in the
namespace `NonlinearSolverHomotopy`.
-/

set_option autoImplicit false

namespace ArrayOperations

/-! ## Errors -/

/-- The `ModelicaSimulationError(MODEL_ARRAY_FUNCTION, msg)` exceptions thrown in
`ArrayOperations.cpp`, one constructor per message text. -/
inductive ArrayError where
  /-- Message "No input arrays". -/
  | noInputArrays
  /-- Message "Wrong dimension for input array". -/
  | wrongDimensionForInputArray
  /-- Message "Wrong size for input array". -/
  | wrongSizeForInputArray
  /-- Message "Error resizing concatenate array". -/
  | errorResizingConcatenateArray
  /-- Message "Error in diagonal, input must be vector". -/
  | diagonalInputMustBeVector
  /-- Message "Error in diagonal, output must be matrix". -/
  | diagonalOutputMustBeMatrix
  /-- Message "Wrong dimensions in transpose_array". -/
  | wrongDimensionsInTranspose
  /-- Message "Wrong sizes in multiply_array". -/
  | wrongSizesInMultiply
  /-- Message "Unsupported dimensions in multiply_array". -/
  | unsupportedDimensionsInMultiply
  /-- Message "Right and left array must have the same size for element wise multiplication". -/
  | sameSizeMultiplication
  /-- Message "Right and left array must have the same size for element wise division". -/
  | sameSizeDivision
  /-- Message "Right and left array must have the same size for element wise substraction". -/
  | sameSizeSubstraction
  /-- Message "Right and left array must have the same size for element wise addition". -/
  | sameSizeAddition
  /-- Message "error in dot array function. Wrong dimension". -/
  | dotWrongDimension
  /-- Message "min/max requires at least one element". -/
  | minMaxRequiresElement
  /-- Message "Wrong dimensions in convertArrayLayout". -/
  | wrongDimensionsInConvertArrayLayout
  deriving DecidableEq, Repr

/-- The outcome of a call is a thrown error. -/
def Failed {α : Type} (r : Except ArrayError α) : Prop :=
  ∃ e, r = Except.error e

/-! ## The array container -/

/-- Modelled from the spec: the container class `BaseArray<T>` (declared in
`Core/Math/Array.h`, which is not among the sources). The spec calls it a
typed n-dimensional container; the model is the dimension list `getDims()`
together with the flat storage `getData()`. -/
structure BaseArray (T : Type) where
  /-- the sizes of the dimensions, `getDims()` -/
  dims : List Nat
  /-- the flat storage behind `getData()` -/
  data : List T
  deriving DecidableEq, Repr

variable {T : Type}

/-- The storage of an array holds exactly one element per index tuple. -/
def BaseArray.WF (a : BaseArray T) : Prop :=
  a.data.length = a.dims.prod

instance (a : BaseArray T) : Decidable a.WF := by
  unfold BaseArray.WF
  infer_instance

/-- Method `getNumDims()`: the number of dimensions. -/
def BaseArray.getNumDims (a : BaseArray T) : Nat :=
  a.dims.length

/-- Method `getNumElems()`: the number of elements, the product of the dimension sizes. -/
def BaseArray.getNumElems (a : BaseArray T) : Nat :=
  a.dims.prod

/-- Method `getDim(dim)`: the size of dimension `dim`, counted from 1. -/
def BaseArray.getDim (a : BaseArray T) (dim : Nat) : Nat :=
  a.dims.getD (dim - 1) 0

/-- Read `p[i]` through a raw data pointer. A read outside the storage is
undefined in the source; the model yields `default` there. -/
def readAt [Inhabited T] (p : List T) (i : Nat) : T :=
  p.getD i default

/-- Write `p[i] = v` through a raw data pointer. -/
def writeAt (p : List T) (i : Nat) (v : T) : List T :=
  p.set i v

/-- Modelled from the spec: `setDims(dims)` of `Array.h`, which is not among the
sources. The destination is resized to the given shape; the elements it held
stay where the storage is kept and new cells hold `default`. -/
def BaseArray.setDims [Inhabited T] (a : BaseArray T) (ex : List Nat) : BaseArray T :=
  { dims := ex
    data := a.data.take ex.prod ++ List.replicate (ex.prod - a.data.length) default }

/-- Column-major storage offset of a 1-based index tuple: the first index runs
fastest, as the block copies of `cat_array` and the name `assignRowMajorData`
presuppose. -/
def offset : List Nat → List Nat → Nat
  | d :: ds, i :: is => (i - 1) + d * offset ds is
  | _, _ => 0

/-- Modelled from the spec: the element access `operator()(idx)` of `Array.h`,
which is not among the sources; read of the element at a 1-based index tuple. -/
def BaseArray.get [Inhabited T] (a : BaseArray T) (idx : List Nat) : T :=
  readAt a.data (offset a.dims idx)

/-- Modelled from the spec: the element access `operator()(idx)` of `Array.h`
used on the left of an assignment. -/
def BaseArray.put (a : BaseArray T) (idx : List Nat) (v : T) : BaseArray T :=
  { a with data := writeAt a.data (offset a.dims idx) v }

/-- An index tuple addresses an element of an array with the given dimensions. -/
def ValidIndex : List Nat → List Nat → Prop
  | [], [] => True
  | d :: ds, i :: is => 1 ≤ i ∧ i ≤ d ∧ ValidIndex ds is
  | _, _ => False

/-! ## Standard-library algorithms -/

/-- Algorithm `std::transform(first, first + n, out, op)`. -/
def std_transform [Inhabited T] (op : T → T) (src : List T) (n : Nat) (out : List T) : List T :=
  (List.range n).foldl (fun o i => writeAt o i (op (readAt src i))) out

/-- Algorithm `std::transform(first1, first1 + n, first2, out, op)`. -/
def std_transform2 [Inhabited T] (op : T → T → T) (src1 : List T) (n : Nat) (src2 : List T)
    (out : List T) : List T :=
  (List.range n).foldl (fun o i => writeAt o i (op (readAt src1 i) (readAt src2 i))) out

/-- Algorithm `std::copy(src + first, src + first + n, out + j)`. -/
def std_copy [Inhabited T] (src : List T) (first n : Nat) (out : List T) (j : Nat) : List T :=
  (List.range n).foldl (fun o t => writeAt o (j + t) (readAt src (first + t))) out

/-! ## Element-wise operations -/

/-- Function `multiply_array_elem_wise(leftArray, rightArray, resultArray)`. -/
def multiply_array_elem_wise [Inhabited T] [Mul T] (leftArray rightArray resultArray : BaseArray T) :
    Except ArrayError (BaseArray T) :=
  let dimLeft := leftArray.getNumElems
  let dimRight := rightArray.getNumElems
  if dimLeft ≠ dimRight then
    Except.error ArrayError.sameSizeMultiplication
  else
    let resultArray := resultArray.setDims leftArray.dims
    Except.ok { resultArray with
      data := std_transform2 (· * ·) leftArray.data leftArray.getNumElems rightArray.data
        resultArray.data }

/-- Function `divide_array_elem_wise(leftArray, rightArray, resultArray)`;
`std::divides<T>` is the division of the element type. -/
def divide_array_elem_wise [Inhabited T] [Div T] (leftArray rightArray resultArray : BaseArray T) :
    Except ArrayError (BaseArray T) :=
  let dimLeft := leftArray.getNumElems
  let dimRight := rightArray.getNumElems
  if dimLeft ≠ dimRight then
    Except.error ArrayError.sameSizeDivision
  else
    let resultArray := resultArray.setDims leftArray.dims
    Except.ok { resultArray with
      data := std_transform2 (· / ·) leftArray.data leftArray.getNumElems rightArray.data
        resultArray.data }

/-- Function `subtract_array(leftArray, rightArray, resultArray)`. -/
def subtract_array [Inhabited T] [Sub T] (leftArray rightArray resultArray : BaseArray T) :
    Except ArrayError (BaseArray T) :=
  let dimLeft := leftArray.getNumElems
  let dimRight := rightArray.getNumElems
  if dimLeft ≠ dimRight then
    Except.error ArrayError.sameSizeSubstraction
  else
    let resultArray := resultArray.setDims leftArray.dims
    Except.ok { resultArray with
      data := std_transform2 (· - ·) leftArray.data dimLeft rightArray.data resultArray.data }

/-- Function `add_array(leftArray, rightArray, resultArray)`. -/
def add_array [Inhabited T] [Add T] (leftArray rightArray resultArray : BaseArray T) :
    Except ArrayError (BaseArray T) :=
  let dimLeft := leftArray.getNumElems
  let dimRight := rightArray.getNumElems
  if dimLeft ≠ dimRight then
    Except.error ArrayError.sameSizeAddition
  else
    let resultArray := resultArray.setDims leftArray.dims
    Except.ok { resultArray with
      data := std_transform2 (· + ·) leftArray.data leftArray.getNumElems rightArray.data
        resultArray.data }

/-! ## Concatenation -/

/-- The checking loop of `cat_array` over the inputs `x[1]..x[n-1]`: every input
is compared with `x[0]` and the size of dimension `k` is accumulated. -/
def cat_array_check (k : Nat) (x0 : BaseArray T) :
    List (BaseArray T) → Nat → Except ArrayError Nat
  | [], new_k_dim_size => Except.ok new_k_dim_size
  | xi :: rest, new_k_dim_size =>
    if x0.getNumDims ≠ xi.getNumDims then
      Except.error ArrayError.wrongDimensionForInputArray
    else if (List.range' 1 (k - 1)).any (fun j => decide (x0.getDim j ≠ xi.getDim j)) then
      Except.error ArrayError.wrongSizeForInputArray
    else if (List.range' (k + 1) (x0.getNumDims - k)).any
        (fun j => decide (x0.getDim j ≠ xi.getDim j)) then
      Except.error ArrayError.wrongSizeForInputArray
    else
      cat_array_check k x0 rest (new_k_dim_size + xi.getDim k)

/-- The copy loop of `cat_array`: for every index `i` of the sub structure and
every input `c`, one block of `n_super * x[c]->getDim(k)` elements is copied
to the running position `j` of the destination. The state is the destination
storage together with `j`. -/
def cat_array_copy [Inhabited T] (k n_super n_sub : Nat) (x : List (BaseArray T))
    (a_data : List T) : List T × Nat :=
  (List.range n_sub).foldl
    (fun st i =>
      x.foldl
        (fun st xc =>
          let n_super_k := n_super * xc.getDim k
          (std_copy xc.data (i * n_super_k) n_super_k st.1 st.2, st.2 + n_super_k))
        st)
    (a_data, 0)

/-- Function `cat_array(k, x, a)`: concatenates the arrays `x` along the `k`-th dimension
into `a`. Sizes and counters are natural numbers; `k` is taken from 1. -/
def cat_array [Inhabited T] (k : Nat) (x : List (BaseArray T)) (a : BaseArray T) :
    Except ArrayError (BaseArray T) :=
  match x with
  | [] => Except.error ArrayError.noInputArrays
  | x0 :: rest =>
    if x0.getNumDims < k then
      Except.error ArrayError.wrongDimensionForInputArray
    else
      match cat_array_check k x0 rest (x0.getDim k) with
      | Except.error e => Except.error e
      | Except.ok new_k_dim_size =>
        let n_super := (List.range' 1 (k - 1)).foldl (fun acc i => acc * x0.getDim i) 1
        let n_sub := (List.range' (k + 1) (x0.getNumDims - k)).foldl
          (fun acc i => acc * x0.getDim i) 1
        let ex := x0.dims.set (k - 1) new_k_dim_size
        if ex.length < k then
          Except.error ArrayError.errorResizingConcatenateArray
        else
          let a := a.setDims ex
          Except.ok { a with data := (cat_array_copy k n_super n_sub (x0 :: rest) a.data).1 }

/-! ## Transposition -/

/-- Modelled from the spec: `Slice` of `Core/Math/ArraySlice.h`, which is not among
the sources. A default-constructed slice selects a whole dimension, `Slice(i)`
selects the single index `i` and reduces the dimension. -/
inductive Slice where
  /-- the whole dimension, `Slice()` -/
  | all
  /-- the single index `i`, `Slice(i)` -/
  | index (i : Nat)
  deriving DecidableEq, Repr

/-- The index tuples selected by a slice vector, enumerated in storage order of the
slice: the first free index runs fastest. -/
def sliceIndices : List Nat → List Slice → List (List Nat)
  | d :: ds, Slice.all :: ss =>
    (sliceIndices ds ss).flatMap (fun r => (List.range' 1 d).map (fun i => i :: r))
  | _ :: ds, Slice.index i :: ss => (sliceIndices ds ss).map (fun r => i :: r)
  | _, _ => [[]]

/-- Modelled from the spec: `ArraySlice<T>(a, sa).assign(ArraySliceConst<T>(x, sx))`
of `Core/Math/ArraySlice.h`, which is not among the sources: the elements of the
source slice are assigned to the elements of the destination slice, both taken
in the storage order of the slice. -/
def sliceAssign [Inhabited T] (a : BaseArray T) (sa : List Slice) (x : BaseArray T)
    (sx : List Slice) : BaseArray T :=
  ((sliceIndices a.dims sa).zip (sliceIndices x.dims sx)).foldl
    (fun a p => a.put p.1 (x.get p.2)) a

/-- Algorithm `std::swap(ex[0], ex[1])` on a dimension vector. -/
def swapFirstTwo : List Nat → List Nat
  | d1 :: d2 :: ds => d2 :: d1 :: ds
  | ds => ds

/-- Function `transpose_array(x, a)`: permutes the first two dimensions of `x` into `a`. -/
def transpose_array [Inhabited T] (x a : BaseArray T) : Except ArrayError (BaseArray T) :=
  let ndims := x.getNumDims
  if ndims < 2 ∨ ndims ≠ a.getNumDims then
    Except.error ArrayError.wrongDimensionsInTranspose
  else
    let ex := swapFirstTwo x.dims
    let a := a.setDims ex
    let sx : List Slice := List.replicate ndims Slice.all
    let sa : List Slice := List.replicate ndims Slice.all
    Except.ok
      ((List.range' 1 (x.getDim 1)).foldl
        (fun a i => sliceAssign a (sa.set 1 (Slice.index i)) x (sx.set 0 (Slice.index i))) a)

/-! ## Products -/

/-- Function `multiply_array(leftArray, rightArray, resultArray)`: vector-matrix,
matrix-vector and matrix-matrix product; `T()` is the zero of `T`. -/
def multiply_array [Inhabited T] [Zero T] [Add T] [Mul T]
    (leftArray rightArray resultArray : BaseArray T) : Except ArrayError (BaseArray T) :=
  let leftNumDims := leftArray.getNumDims
  let rightNumDims := rightArray.getNumDims
  let matchDim := rightArray.getDim 1
  if leftArray.getDim leftNumDims ≠ matchDim then
    Except.error ArrayError.wrongSizesInMultiply
  else if leftNumDims = 1 ∧ rightNumDims = 2 then
    let rightDim := rightArray.getDim 2
    let resultArray := resultArray.setDims [rightDim]
    Except.ok
      ((List.range' 1 rightDim).foldl
        (fun res j =>
          let val := (List.range' 1 matchDim).foldl
            (fun val k => val + leftArray.get [k] * rightArray.get [k, j]) 0
          res.put [j] val)
        resultArray)
  else if leftNumDims = 2 ∧ rightNumDims = 1 then
    let leftDim := leftArray.getDim 1
    let resultArray := resultArray.setDims [leftDim]
    Except.ok
      ((List.range' 1 leftDim).foldl
        (fun res i =>
          let val := (List.range' 1 matchDim).foldl
            (fun val k => val + leftArray.get [i, k] * rightArray.get [k]) 0
          res.put [i] val)
        resultArray)
  else if leftNumDims = 2 ∧ rightNumDims = 2 then
    let leftDim := leftArray.getDim 1
    let rightDim := rightArray.getDim 2
    let resultArray := resultArray.setDims [leftDim, rightDim]
    Except.ok
      ((List.range' 1 leftDim).foldl
        (fun res i =>
          (List.range' 1 rightDim).foldl
            (fun res j =>
              let val := (List.range' 1 matchDim).foldl
                (fun val k => val + leftArray.get [i, k] * rightArray.get [k, j]) 0
              res.put [i, j] val)
            res)
        resultArray)
  else
    Except.error ArrayError.unsupportedDimensionsInMultiply

/-- Algorithm `std::inner_product(first1, first1 + n, first2, init)`. -/
def std_inner_product [Inhabited T] [Add T] [Mul T] (src1 : List T) (n : Nat) (src2 : List T)
    (init : T) : T :=
  (List.range n).foldl (fun acc i => acc + readAt src1 i * readAt src2 i) init

/-- Function `dot_array(a, b)`: scalar product of two vectors. The source accumulates from
the literal `0.0` and converts the sum to `T`; the model accumulates in `T`
from zero. -/
def dot_array [Inhabited T] [Zero T] [Add T] [Mul T] (a b : BaseArray T) : Except ArrayError T :=
  if a.getNumDims ≠ 1 ∨ b.getNumDims ≠ 1 then
    Except.error ArrayError.dotWrongDimension
  else
    Except.ok (std_inner_product a.data a.getNumElems b.data 0)

/-! ## Layout conversion -/

/-- Function `convertArrayDim(dim, s, sidx, d, didx)`: the recursive helper of
`convertArrayLayout`. The index vectors and the destination are passed by
reference in the source and are returned here. The first argument bounds the
depth of the recursion, which is the number of dimensions still to visit;
`cast` is the assignment conversion from `S` to `T`. -/
def convertArrayDim {S : Type} [Inhabited S] (cast : S → T) :
    Nat → Nat → BaseArray S → List Nat → BaseArray T → List Nat →
      List Nat × BaseArray T × List Nat
  | 0, _, _, sidx, d, didx => (sidx, d, didx)
  | depth + 1, dim, s, sidx, d, didx =>
    let ndims := s.getNumDims
    let size := s.getDim dim
    (List.range' 1 size).foldl
      (fun st i =>
        let sidx := st.1.set (dim - 1) i
        let didx := st.2.2.set (ndims - dim) i
        if dim < sidx.length then
          convertArrayDim cast depth (dim + 1) s sidx st.2.1 didx
        else
          (sidx, st.2.1.put didx (cast (s.get sidx)), didx))
      (sidx, d, didx)

/-- Function `convertArrayLayout(s, d)`: permutes dims between row and column major storage
layout. -/
def convertArrayLayout {S : Type} [Inhabited S] [Inhabited T] (cast : S → T)
    (s : BaseArray S) (d : BaseArray T) : Except ArrayError (BaseArray T) :=
  let ndims := s.getNumDims
  if ndims ≠ d.getNumDims then
    Except.error ArrayError.wrongDimensionsInConvertArrayLayout
  else
    let sdims := s.dims
    let ddims := (List.range' 1 ndims).foldl
      (fun ddims dim => ddims.set (ndims - dim) (sdims.getD (dim - 1) 0))
      (List.replicate ndims 0)
    let d := d.setDims ddims
    Except.ok (convertArrayDim cast ndims 1 s sdims d ddims).2.1

/-! ## Constructors -/

/-- Algorithm `std::fill(first, first + n, value)`. -/
def std_fill (out : List T) (n : Nat) (value : T) : List T :=
  (List.range n).foldl (fun o i => writeAt o i value) out

/-- Function `fill_array(inputArray, b)`. -/
def fill_array (inputArray : BaseArray T) (b : T) : BaseArray T :=
  { inputArray with data := std_fill inputArray.data inputArray.getNumElems b }

/-- Function `identity_alloc(n, I)` on a two-dimensional integer array; `I.setDims(n, n)`
is the two-argument form of `setDims`. -/
def identity_alloc (n : Nat) (I : BaseArray Int) : BaseArray Int :=
  let I := I.setDims [n, n]
  let I := fill_array I 0
  (List.range' 1 n).foldl (fun I i => I.put [i, i] 1) I

/-- Function `diagonal_alloc(v, D)`; the fill value `0` is the zero of `T`. -/
def diagonal_alloc [Inhabited T] [Zero T] (v D : BaseArray T) :
    Except ArrayError (BaseArray T) :=
  if v.getNumDims ≠ 1 then
    Except.error ArrayError.diagonalInputMustBeVector
  else if D.getNumDims ≠ 2 then
    Except.error ArrayError.diagonalOutputMustBeMatrix
  else
    let dims := v.dims
    let n := dims.getD 0 0
    let dims := dims ++ [n]
    let D := D.setDims dims
    let D_data := std_fill D.data (n * n) 0
    Except.ok { D with
      data := (List.range n).foldl (fun o i => writeAt o (i * n + i) (readAt v.data i)) D_data }

/-- Modelled from the spec: `assign(data)` of `Array.h`, which is not among the sources:
the storage is overwritten with as many elements of the raw data as the array
holds. -/
def BaseArray.assign [Inhabited T] (a : BaseArray T) (data : List T) : BaseArray T :=
  { a with data := std_copy data 0 a.getNumElems a.data 0 }

/-- Function `promote_array(n, s, d)`: appends dimensions of size 1 to the right of `s`
up to dimension `n`. -/
def promote_array [Inhabited T] (n : Nat) (s d : BaseArray T) : BaseArray T :=
  let ex := (List.range' s.dims.length (n - s.dims.length)).foldl (fun ex _ => ex ++ [1]) s.dims
  let d := d.setDims ex
  d.assign s.data

/-! ## Operations with a scalar -/

/-- Function `multiply_array(inputArray, b, outputArray)`, the overload with a scalar
factor. -/
def multiply_array_scalar [Inhabited T] [Mul T] (inputArray : BaseArray T) (b : T)
    (outputArray : BaseArray T) : BaseArray T :=
  let dim := inputArray.getNumElems
  if dim > 0 then
    let outputArray := outputArray.setDims inputArray.dims
    { outputArray with
      data := std_transform (fun x => x * b) inputArray.data inputArray.getNumElems
        outputArray.data }
  else
    outputArray

/-- Function `divide_array(inputArray, b, outputArray)`, the overload that divides the
elements by a scalar; `std::divides<T>` is the division of the element type. -/
def divide_array [Inhabited T] [Div T] (inputArray : BaseArray T) (b : T)
    (outputArray : BaseArray T) : BaseArray T :=
  let nelems := inputArray.getNumElems
  let outputArray :=
    if outputArray.getNumElems ≠ nelems then outputArray.setDims inputArray.dims
    else outputArray
  { outputArray with
    data := std_transform (fun x => x / b) inputArray.data nelems outputArray.data }

/-- Function `divide_array(b, inputArray, outputArray)`, the overload that divides a
scalar by the elements. -/
def divide_scalar_array [Inhabited T] [Div T] (b : T) (inputArray : BaseArray T)
    (outputArray : BaseArray T) : BaseArray T :=
  let nelems := inputArray.getNumElems
  let outputArray :=
    if outputArray.getNumElems ≠ nelems then outputArray.setDims inputArray.dims
    else outputArray
  { outputArray with
    data := std_transform (fun x => b / x) inputArray.data nelems outputArray.data }

/-- The division `std::divides<int>` of the `int` instantiation: the quotient is
truncated toward zero. -/
def intDivides : Div Int := ⟨Int.tdiv⟩

/-- Function `subtract_array_scalar(inputArray, b, outputArray)`. -/
def subtract_array_scalar [Inhabited T] [Sub T] (inputArray : BaseArray T) (b : T)
    (outputArray : BaseArray T) : BaseArray T :=
  let dim := inputArray.getNumElems
  if dim > 0 then
    let outputArray := outputArray.setDims inputArray.dims
    { outputArray with
      data := std_transform (fun x => x - b) inputArray.data inputArray.getNumElems
        outputArray.data }
  else
    outputArray

/-- Function `add_array_scalar(inputArray, b, outputArray)`. -/
def add_array_scalar [Inhabited T] [Add T] (inputArray : BaseArray T) (b : T)
    (outputArray : BaseArray T) : BaseArray T :=
  let dim := inputArray.getNumElems
  if dim > 0 then
    let outputArray := outputArray.setDims inputArray.dims
    { outputArray with
      data := std_transform (fun x => x + b) inputArray.data inputArray.getNumElems
        outputArray.data }
  else
    outputArray

/-- Function `usub_array(a, b)`: the element-wise negation of `a` in `b`. -/
def usub_array [Inhabited T] [Neg T] (a b : BaseArray T) : BaseArray T :=
  let nelems := a.getNumElems
  if nelems > 0 then
    let b := b.setDims a.dims
    { b with
      data := (List.range nelems).foldl (fun result i => writeAt result i (-(readAt a.data i)))
        b.data }
  else
    b

/-! ## Minimum and maximum -/

/-- Algorithm `std::minmax_element(first, first + n)` for `n >= 1`: the positions of the
first smallest and of the last largest element. -/
def std_minmax_element [Inhabited T] [LT T] [DecidableRel (fun u v : T => u < v)]
    (src : List T) (n : Nat) : Nat × Nat :=
  (List.range' 1 (n - 1)).foldl
    (fun r i =>
      (if readAt src i < readAt src r.1 then i else r.1,
       if readAt src i < readAt src r.2 then r.2 else i))
    (0, 0)

/-- Function `min_max(x)`: finds the minimum and the maximum element of an array. -/
def min_max [Inhabited T] [LT T] [DecidableRel (fun u v : T => u < v)] (x : BaseArray T) :
    Except ArrayError (T × T) :=
  if x.getNumElems < 1 then
    Except.error ArrayError.minMaxRequiresElement
  else
    let ret := std_minmax_element x.data x.getNumElems
    Except.ok (readAt x.data ret.1, readAt x.data ret.2)

/-! ## Cross product -/

/-- Function `cross_array(a, b, res)`: the cross product of two vectors, assigned to the
elements 1 to 3 of `res`. -/
def cross_array [Inhabited T] [Mul T] [Sub T] (a b res : BaseArray T) : BaseArray T :=
  let res := res.put [1] ((a.get [2] * b.get [3]) - (a.get [3] * b.get [2]))
  let res := res.put [2] ((a.get [3] * b.get [1]) - (a.get [1] * b.get [3]))
  res.put [3] ((a.get [1] * b.get [2]) - (a.get [2] * b.get [1]))

/-! ## The block copies of the concatenation -/

/-- One block copy `std::copy(x_data, x_data + len, a_data + dst)` of `cat_array`, where
`x_data` is the data of an input advanced by `first`. -/
structure CopyBlock (T : Type) where
  /-- the data of the input that is read -/
  src : List T
  /-- the position in the input at which the block starts -/
  first : Nat
  /-- the number of elements of the block -/
  len : Nat
  /-- the position in the destination at which the block is written -/
  dst : Nat

/-- The block copies that the copy loop of `cat_array` performs, in the order of the
loop, together with the running position `j`; the loop is that of
`cat_array_copy` with every `std::copy` recorded instead of executed. -/
def cat_array_blocks (k n_super n_sub : Nat) (x : List (BaseArray T)) :
    List (CopyBlock T) × Nat :=
  (List.range n_sub).foldl
    (fun st i =>
      x.foldl
        (fun st xc =>
          let n_super_k := n_super * xc.getDim k
          (st.1 ++ [{ src := xc.data, first := i * n_super_k, len := n_super_k, dst := st.2 }],
            st.2 + n_super_k))
        st)
    ([], 0)

/-- The block copies of a call `cat_array(k, x, a)` that passed the checks, with the
sizes of the super and the sub structure computed as in `cat_array`. -/
def cat_array_trace (k : Nat) (x : List (BaseArray T)) : List (CopyBlock T) :=
  match x with
  | [] => []
  | x0 :: rest =>
    let n_super := (List.range' 1 (k - 1)).foldl (fun acc i => acc * x0.getDim i) 1
    let n_sub := (List.range' (k + 1) (x0.getNumDims - k)).foldl
      (fun acc i => acc * x0.getDim i) 1
    (cat_array_blocks k n_super n_sub (x0 :: rest)).1

/-- The execution of a sequence of block copies on a destination storage. -/
def runBlocks [Inhabited T] (blocks : List (CopyBlock T)) (out : List T) : List T :=
  blocks.foldl (fun o blk => std_copy blk.src blk.first blk.len o blk.dst) out

/-- The ranges `(start, length)` lie one after the other from `start` to `stop`: each
range begins where the one before it ended, the first at `start`, and the last
ends at `stop`. -/
def Tiles : List (Nat × Nat) → Nat → Nat → Prop
  | [], start, stop => start = stop
  | r :: rs, start, stop => r.1 = start ∧ Tiles rs (start + r.2) stop

/-! ## Assignment of row-major data -/

/-- Function `assignRowMajorDim(dim, data, array, idx)`: the recursive helper of
`assignRowMajorData`. The pointer `data` of the source is the list `data`
together with the position `start` to which the pointer has been advanced. The
array and the index vector are passed by reference in the source and are
returned here after the number of processed values. The first argument bounds
the depth of the recursion, which is the number of dimensions still to visit. -/
def assignRowMajorDim [Inhabited T] :
    Nat → Nat → List T → Nat → BaseArray T → List Nat → Nat × BaseArray T × List Nat
  | 0, _, _, _, array, idx => (0, array, idx)
  | depth + 1, dim, data, start, array, idx =>
    let size := array.getDim dim
    (List.range' 1 size).foldl
      (fun st i =>
        let idx := st.2.2.set (dim - 1) i
        if dim < idx.length then
          let sub := assignRowMajorDim depth (dim + 1) data (start + st.1) st.2.1 idx
          (st.1 + sub.1, sub.2.1, sub.2.2)
        else
          (st.1 + 1, st.2.1.put idx (readAt data (start + st.1)), idx))
      (0, array, idx)

/-- Function `assignRowMajorData(data, array)`: assigns data with row major order to the
array; the result is the number of values that the helper processed together
with the array. -/
def assignRowMajorData [Inhabited T] (data : List T) (array : BaseArray T) :
    Nat × BaseArray T :=
  let idx := List.replicate array.getNumDims 0
  let r := assignRowMajorDim array.getNumDims 1 data 0 array idx
  (r.1, r.2.1)

/-! ## Auxiliary definitions -/

/-- A sequence of writes `p[i] = v` applied to a buffer in order. -/
def scatter (o : List T) (W : List (Nat × T)) : List T :=
  W.foldl (fun o w => writeAt o w.1 w.2) o

/-- The array that the element-wise operations build from operands of equal
element count. -/
def elemWise [Inhabited T] (op : T → T → T) (l r : BaseArray T) : BaseArray T :=
  { dims := l.dims
    data := (List.range l.getNumElems).map (fun i => op (readAt l.data i) (readAt r.data i)) }

/-- A 2x3 integer matrix. -/
def exA23 : BaseArray Int := ⟨[2, 3], [1, 2, 3, 4, 5, 6]⟩

/-- A 3x2 integer matrix. -/
def exA32 : BaseArray Int := ⟨[3, 2], [10, 20, 30, 40, 50, 60]⟩

/-- A vector of six integers. -/
def exV6 : BaseArray Int := ⟨[6], [10, 20, 30, 40, 50, 60]⟩

/-- An empty destination. -/
def exDest : BaseArray Int := ⟨[0], []⟩

/-- A 2x1 integer matrix. -/
def exA21 : BaseArray Int := ⟨[2, 1], [7, 8]⟩

/-- A vector of three integers. -/
def exV3 : BaseArray Int := ⟨[3], [1, 2, 3]⟩

/-- Another vector of three integers. -/
def exW3 : BaseArray Int := ⟨[3], [4, -5, 6]⟩

/-- A vector of two integers. -/
def exV2 : BaseArray Int := ⟨[2], [1, 2]⟩

/-- A 2x3x4 integer array holding 0..23 in storage order. -/
def exA234 : BaseArray Int := ⟨[2, 3, 4], (List.range 24).map Int.ofNat⟩

/-- An empty destination with two dimensions. -/
def exDest2 : BaseArray Int := ⟨[0, 0], []⟩

/-- An empty destination with three dimensions. -/
def exDest3 : BaseArray Int := ⟨[0, 0, 0], []⟩

/-- An input of `cat_array` has the same number of dimensions as the first input and
agrees with it in the size of every dimension other than `k`. -/
def CatCompatible (k : Nat) (x0 xi : BaseArray T) : Prop :=
  xi.getNumDims = x0.getNumDims ∧
    ∀ j, 1 ≤ j → j ≤ x0.getNumDims → j ≠ k → xi.getDim j = x0.getDim j

/-- The state of the index vectors of `convertArrayDim` when the first `m` source
indices are fixed to `pre`: both vectors have `n` entries, the source vector
starts with `pre` and the destination vector ends with `pre` reversed. -/
def IdxInv (n m : Nat) (pre sidx didx : List Nat) : Prop :=
  sidx.length = n ∧ didx.length = n ∧ sidx.take m = pre ∧ didx.drop (n - m) = pre.reverse ∧
    pre.length = m

/-- The array that the operations with a scalar build from a non-empty input. -/
def mapElems [Inhabited T] (op : T → T) (x : BaseArray T) : BaseArray T :=
  { dims := x.dims
    data := (List.range x.getNumElems).map (fun i => op (readAt x.data i)) }

/-- The `n x n` matrix whose elements all are `z`. -/
def constMatrix (n : Nat) (z : T) : BaseArray T :=
  ⟨[n, n], List.replicate (n * n) z⟩

/-- The blocks recorded for a list of copies with sources `src`, read positions `first`
and lengths `len`, written one after the other from position `j`. -/
def blocksFrom {ι : Type} (src : ι → List T) (first len : ι → Nat) :
    List ι → Nat → List (CopyBlock T)
  | [], _ => []
  | t :: L, j =>
    { src := src t, first := first t, len := len t, dst := j }
      :: blocksFrom src first len L (j + len t)

/-- A 1x3 integer matrix. -/
def exA13 : BaseArray Int := ⟨[1, 3], [7, 8, 9]⟩

/-- The row-major offset continued from the offset `acc` of the leading indices:
every further dimension multiplies by its size and adds its index less one. -/
def rowMajorOffsetFrom : Nat → List Nat → List Nat → Nat
  | acc, d :: ds, i :: idx => rowMajorOffsetFrom (acc * d + (i - 1)) ds idx
  | acc, _, _ => acc

/-- The row-major offset `(((i_1-1)*d_2 + (i_2-1))*d_3 + ...) + (i_n-1)` of the index tuple
`(i_1,..,i_n)` in an array with the dimensions `(d_1,..,d_n)`. -/
def rowMajorOffset (dims idx : List Nat) : Nat :=
  rowMajorOffsetFrom 0 dims idx

/-- A sequence of six values. -/
def exData6 : List Int := [11, 12, 13, 21, 22, 23]

end ArrayOperations

/-!
# The homotopy solver

The header `OMCompiler/SimulationRuntime/c/simulation/solver/nonlinearSolverHomotopy.h`
declares `allocateHomotopyData`, `freeHomotopyData` and `solveHomotopy`; their
bodies are not among the sources. The definitions below follow the design of
the continuation driver and the damped Newton corrector in the specification.
Iterates are values of a type `X`, Jacobians values of a type `J`, and the
continuation parameter and its step are rational numbers.
-/

namespace NonlinearSolverHomotopy

end NonlinearSolverHomotopy

namespace ArrayOperations

variable {T : Type}

/-! ## Scattered writes -/

theorem scatter_cons (o : List T) (w : Nat × T) (W : List (Nat × T)) :
    scatter o (w :: W) = scatter (writeAt o w.1 w.2) W := rfl

theorem scatter_append (o : List T) (W V : List (Nat × T)) :
    scatter o (W ++ V) = scatter (scatter o W) V := by
  simp [scatter, List.foldl_append]

theorem scatter_length (o : List T) (W : List (Nat × T)) :
    (scatter o W).length = o.length := by
  induction W generalizing o with
  | nil => rfl
  | cons w W ih => rw [scatter_cons, ih]; simp [writeAt]

theorem foldl_scatter {ι : Type} (l : List ι) (W : ι → List (Nat × T)) (o : List T) :
    l.foldl (fun o i => scatter o (W i)) o = scatter o (l.flatMap W) := by
  induction l generalizing o with
  | nil => rfl
  | cons i l ih => simp only [List.foldl_cons, List.flatMap_cons, scatter_append, ih]

theorem scatter_getElem?_of_not_mem (o : List T) (W : List (Nat × T)) (p : Nat)
    (h : ∀ w ∈ W, w.1 ≠ p) : (scatter o W)[p]? = o[p]? := by
  induction W generalizing o with
  | nil => rfl
  | cons w W ih =>
    rw [scatter_cons, ih _ (fun w' hw' => h w' (List.mem_cons_of_mem _ hw'))]
    exact List.getElem?_set_ne (h w (List.mem_cons_self _ _))

theorem scatter_getElem?_of_mem (o : List T) (W : List (Nat × T)) (p : Nat) (v : T)
    (hp : p < o.length) (hmem : (p, v) ∈ W) (huniq : ∀ w ∈ W, w.1 = p → w.2 = v) :
    (scatter o W)[p]? = some v := by
  induction W generalizing o with
  | nil => cases hmem
  | cons w W ih =>
    rw [scatter_cons]
    by_cases hex : ∃ w' ∈ W, w'.1 = p
    · obtain ⟨w', hw', hw'p⟩ := hex
      have hv : w'.2 = v := huniq w' (List.mem_cons_of_mem _ hw') hw'p
      have hw'eq : (p, v) = w' := by rw [← hw'p, ← hv]
      apply ih
      · simpa [writeAt] using hp
      · rw [hw'eq]; exact hw'
      · exact fun w'' hw'' => huniq w'' (List.mem_cons_of_mem _ hw'')
    · have hnot : ∀ w' ∈ W, w'.1 ≠ p := fun w' hw' hc => hex ⟨w', hw', hc⟩
      rw [scatter_getElem?_of_not_mem _ _ _ hnot]
      have hw : w = (p, v) := by
        rcases List.mem_cons.1 hmem with h | h
        · exact h.symm
        · exact absurd rfl (hnot _ h)
      subst hw
      simp [writeAt, hp]

/-- A loop `for i in 0..n: out[i] = g i` over a buffer of `n` cells leaves the
values `g 0 .. g (n-1)`. -/
theorem foldl_writeAt_range (g : Nat → T) (n : Nat) (out : List T) (h : out.length = n) :
    (List.range n).foldl (fun o i => writeAt o i (g i)) out = (List.range n).map g := by
  have e : (List.range n).foldl (fun o i => writeAt o i (g i)) out
      = scatter out ((List.range n).flatMap (fun i => [(i, g i)])) := by
    rw [← foldl_scatter]; rfl
  rw [e]
  apply List.ext_getElem?
  intro p
  by_cases hp : p < n
  · rw [scatter_getElem?_of_mem _ _ p (g p) (by omega)]
    · simp [List.getElem?_range hp]
    · simp only [List.mem_flatMap, List.mem_range, List.mem_singleton]; exact ⟨p, hp, rfl⟩
    · intro w hw hwp
      simp only [List.mem_flatMap, List.mem_range, List.mem_singleton] at hw
      obtain ⟨a, _, rfl⟩ := hw
      simp only at hwp; subst hwp; rfl
  · have h1 : ((List.range n).map g)[p]? = none := by
      simp; omega
    have h2 : (scatter out ((List.range n).flatMap (fun i => [(i, g i)])))[p]? = none := by
      rw [List.getElem?_eq_none_iff, scatter_length]; omega
    rw [h1, h2]

theorem setDims_dims [Inhabited T] (a : BaseArray T) (ex : List Nat) :
    (a.setDims ex).dims = ex := rfl

theorem setDims_data_length [Inhabited T] (a : BaseArray T) (ex : List Nat) :
    (a.setDims ex).data.length = ex.prod := by
  simp only [BaseArray.setDims, List.length_append, List.length_take, List.length_replicate]
  omega

theorem setDims_WF [Inhabited T] (a : BaseArray T) (ex : List Nat) : (a.setDims ex).WF :=
  setDims_data_length a ex

theorem readAt_map_range [Inhabited T] (g : Nat → T) (n i : Nat) (h : i < n) :
    readAt ((List.range n).map g) i = g i := by
  simp [readAt, List.getD_eq_getElem?_getD, List.getElem?_range h]

/-- The storage written by the binary `std::transform` into a destination that was
resized to `n` cells. -/
theorem std_transform2_eq [Inhabited T] (op : T → T → T) (src1 src2 out : List T) (n : Nat)
    (h : out.length = n) :
    std_transform2 op src1 n src2 out
      = (List.range n).map (fun i => op (readAt src1 i) (readAt src2 i)) :=
  foldl_writeAt_range _ n out h

theorem add_array_eq [Inhabited T] [Add T] (l r d : BaseArray T) :
    add_array l r d = if l.getNumElems ≠ r.getNumElems then
      Except.error ArrayError.sameSizeAddition else Except.ok (elemWise (· + ·) l r) := by
  unfold add_array
  simp only []
  split
  · rfl
  · rw [std_transform2_eq _ _ _ _ l.getNumElems (setDims_data_length _ _)]; rfl

theorem subtract_array_eq [Inhabited T] [Sub T] (l r d : BaseArray T) :
    subtract_array l r d = if l.getNumElems ≠ r.getNumElems then
      Except.error ArrayError.sameSizeSubstraction else Except.ok (elemWise (· - ·) l r) := by
  unfold subtract_array
  simp only []
  split
  · rfl
  · rw [std_transform2_eq _ _ _ _ l.getNumElems (setDims_data_length _ _)]; rfl

theorem multiply_array_elem_wise_eq [Inhabited T] [Mul T] (l r d : BaseArray T) :
    multiply_array_elem_wise l r d = if l.getNumElems ≠ r.getNumElems then
      Except.error ArrayError.sameSizeMultiplication else Except.ok (elemWise (· * ·) l r) := by
  unfold multiply_array_elem_wise
  simp only []
  split
  · rfl
  · rw [std_transform2_eq _ _ _ _ l.getNumElems (setDims_data_length _ _)]; rfl

theorem divide_array_elem_wise_eq [Inhabited T] [Div T] (l r d : BaseArray T) :
    divide_array_elem_wise l r d = if l.getNumElems ≠ r.getNumElems then
      Except.error ArrayError.sameSizeDivision else Except.ok (elemWise (· / ·) l r) := by
  unfold divide_array_elem_wise
  simp only []
  split
  · rfl
  · rw [std_transform2_eq _ _ _ _ l.getNumElems (setDims_data_length _ _)]; rfl

theorem ValidIndex.length_eq : ∀ {ds idx : List Nat}, ValidIndex ds idx → idx.length = ds.length
  | [], [], _ => rfl
  | [], _ :: _, h => absurd h (by simp [ValidIndex])
  | _ :: _, [], h => absurd h (by simp [ValidIndex])
  | _ :: ds, _ :: is, h => by
    simp only [ValidIndex] at h
    simp [ValidIndex.length_eq h.2.2]

theorem offset_lt : ∀ {ds idx : List Nat}, ValidIndex ds idx → offset ds idx < ds.prod
  | [], [], _ => by simp [offset]
  | [], _ :: _, h => absurd h (by simp [ValidIndex])
  | _ :: _, [], h => absurd h (by simp [ValidIndex])
  | d :: ds, i :: is, h => by
    simp only [ValidIndex] at h
    have ih := offset_lt h.2.2
    simp only [offset, List.prod_cons]
    calc i - 1 + d * offset ds is < d + d * offset ds is := by omega
      _ = d * (offset ds is + 1) := by ring
      _ ≤ d * ds.prod := Nat.mul_le_mul_left d ih

theorem elemWise_dims [Inhabited T] (op : T → T → T) (l r : BaseArray T) :
    (elemWise op l r).dims = l.dims := rfl

theorem elemWise_WF [Inhabited T] (op : T → T → T) (l r : BaseArray T) :
    (elemWise op l r).WF := by
  simp [BaseArray.WF, elemWise, BaseArray.getNumElems]

theorem elemWise_readAt [Inhabited T] (op : T → T → T) (l r : BaseArray T) (i : Nat)
    (h : i < l.getNumElems) :
    readAt (elemWise op l r).data i = op (readAt l.data i) (readAt r.data i) :=
  readAt_map_range _ _ _ h

theorem elemWise_get [Inhabited T] (op : T → T → T) (l r : BaseArray T) (hs : l.dims = r.dims)
    (idx : List Nat) (h : ValidIndex l.dims idx) :
    (elemWise op l r).get idx = op (l.get idx) (r.get idx) := by
  unfold BaseArray.get
  rw [elemWise_dims, ← hs]
  exact elemWise_readAt op l r _ (offset_lt h)

theorem elemWise_comm [Inhabited T] (op : T → T → T) (hop : ∀ u v, op u v = op v u)
    (l r : BaseArray T) (hs : l.dims = r.dims) : elemWise op l r = elemWise op r l := by
  simp only [elemWise, BaseArray.getNumElems, hs, hop]

theorem elemWise_assoc [Inhabited T] (op : T → T → T)
    (hop : ∀ u v w, op (op u v) w = op u (op v w))
    (a b c : BaseArray T) (hab : a.dims = b.dims) :
    elemWise op (elemWise op a b) c = elemWise op a (elemWise op b c) := by
  have e : ∀ i ∈ List.range a.getNumElems,
      op (readAt (elemWise op a b).data i) (readAt c.data i)
        = op (readAt a.data i) (readAt (elemWise op b c).data i) := by
    intro i hi
    have hi' : i < a.getNumElems := List.mem_range.1 hi
    have hb : i < b.getNumElems := by
      unfold BaseArray.getNumElems at *; rw [← hab]; exact hi'
    rw [elemWise_readAt op a b i hi', elemWise_readAt op b c i hb, hop]
  show BaseArray.mk _ _ = BaseArray.mk _ _
  congr 1
  exact List.map_congr_left e

/-! ## Index tuples and element assignment -/

theorem offset_inj : ∀ {ds idx jdx : List Nat}, ValidIndex ds idx → ValidIndex ds jdx →
    offset ds idx = offset ds jdx → idx = jdx
  | [], [], [], _, _, _ => rfl
  | [], _ :: _, _, h, _, _ => absurd h (by simp [ValidIndex])
  | [], [], _ :: _, _, h, _ => absurd h (by simp [ValidIndex])
  | _ :: _, [], _, h, _, _ => absurd h (by simp [ValidIndex])
  | _ :: _, _ :: _, [], _, h, _ => absurd h (by simp [ValidIndex])
  | d :: ds, i :: is, j :: js, hi, hj, he => by
    simp only [ValidIndex] at hi hj
    simp only [offset] at he
    have hd : 0 < d := by omega
    have h1 : (i - 1 + d * offset ds is) % d = i - 1 := by
      rw [Nat.add_mul_mod_self_left]; exact Nat.mod_eq_of_lt (by omega)
    have h2 : (j - 1 + d * offset ds js) % d = j - 1 := by
      rw [Nat.add_mul_mod_self_left]; exact Nat.mod_eq_of_lt (by omega)
    have hij : i - 1 = j - 1 := by rw [← h1, ← h2, he]
    have ho : offset ds is = offset ds js := by
      have : d * offset ds is = d * offset ds js := by omega
      exact Nat.eq_of_mul_eq_mul_left hd this
    have := offset_inj hi.2.2 hj.2.2 ho
    have hij' : i = j := by omega
    rw [hij', this]

theorem offset_surj : ∀ (ds : List Nat) (p : Nat), p < ds.prod →
    ∃ idx, ValidIndex ds idx ∧ offset ds idx = p
  | [], p, h => ⟨[], trivial, by simp at h; simp [offset, h]⟩
  | d :: ds, p, h => by
    rw [List.prod_cons] at h
    have hd : 0 < d := by
      rcases Nat.eq_zero_or_pos d with h0 | h0
      · rw [h0] at h; simp at h
      · exact h0
    have hq : p / d < ds.prod := by
      rw [Nat.div_lt_iff_lt_mul hd, Nat.mul_comm]; exact h
    obtain ⟨is, hv, ho⟩ := offset_surj ds (p / d) hq
    refine ⟨(p % d + 1) :: is, ⟨by omega, ?_, hv⟩, ?_⟩
    · have := Nat.mod_lt p hd; omega
    · simp only [offset, ho, Nat.add_sub_cancel]
      rw [Nat.add_comm]; exact Nat.div_add_mod p d

theorem put_dims (a : BaseArray T) (idx : List Nat) (v : T) : (a.put idx v).dims = a.dims := rfl

/-- A sequence of element assignments is a sequence of writes to the storage. -/
theorem foldl_put_eq {ι : Type} (L : List ι) (idx : ι → List Nat) (val : ι → T)
    (a : BaseArray T) :
    L.foldl (fun a t => a.put (idx t) (val t)) a
      = { dims := a.dims
          data := scatter a.data (L.map (fun t => (offset a.dims (idx t), val t))) } := by
  induction L generalizing a with
  | nil => rfl
  | cons t L ih => rw [List.foldl_cons, ih]; rfl

theorem foldl_put_dims {ι : Type} (L : List ι) (idx : ι → List Nat) (val : ι → T)
    (a : BaseArray T) : (L.foldl (fun a t => a.put (idx t) (val t)) a).dims = a.dims := by
  rw [foldl_put_eq]

theorem foldl_put_WF {ι : Type} (L : List ι) (idx : ι → List Nat) (val : ι → T)
    (a : BaseArray T) (ha : a.WF) : (L.foldl (fun a t => a.put (idx t) (val t)) a).WF := by
  rw [foldl_put_eq]
  simpa [BaseArray.WF, scatter_length] using ha

/-- After a sequence of element assignments at valid index tuples, an element that
was assigned holds the assigned value, provided that all assignments to that
index tuple agree. -/
theorem foldl_put_get [Inhabited T] {ι : Type} (L : List ι) (idx : ι → List Nat) (val : ι → T)
    (a : BaseArray T) (ha : a.WF) (hvalid : ∀ t ∈ L, ValidIndex a.dims (idx t))
    (t0 : ι) (ht0 : t0 ∈ L) (hun : ∀ t ∈ L, idx t = idx t0 → val t = val t0) :
    (L.foldl (fun a t => a.put (idx t) (val t)) a).get (idx t0) = val t0 := by
  rw [foldl_put_eq]
  unfold BaseArray.get readAt
  rw [List.getD_eq_getElem?_getD]
  rw [scatter_getElem?_of_mem _ _ _ (val t0)]
  · rfl
  · rw [ha]; exact offset_lt (hvalid t0 ht0)
  · exact List.mem_map.2 ⟨t0, ht0, rfl⟩
  · intro w hw hwp
    obtain ⟨t, ht, rfl⟩ := List.mem_map.1 hw
    simp only at hwp ⊢
    exact hun t ht (offset_inj (hvalid t ht) (hvalid t0 ht0) hwp)

/-- Two arrays of the same shape that agree at every valid index tuple are equal. -/
theorem BaseArray.ext_get [Inhabited T] (a b : BaseArray T) (ha : a.WF) (hb : b.WF)
    (hd : a.dims = b.dims) (h : ∀ idx, ValidIndex a.dims idx → a.get idx = b.get idx) :
    a = b := by
  cases a with
  | mk ad adata =>
    cases b with
    | mk bd bdata =>
      simp only at hd
      subst hd
      simp only [BaseArray.WF] at ha hb
      congr 1
      apply List.ext_getElem (by rw [ha, hb])
      intro p h1 h2
      obtain ⟨idx, hv, ho⟩ := offset_surj ad p (by rw [← ha]; exact h1)
      have := h idx hv
      simp only [BaseArray.get, readAt, ho, List.getD_eq_getElem?_getD,
        List.getElem?_eq_getElem h1, List.getElem?_eq_getElem h2, Option.getD_some] at this
      exact this

/-- Two nested loops visit the pairs of an outer and an inner index in order. -/
theorem foldl_nested_pairs {α β σ : Type} (l1 : List α) (l2 : List β) (f : σ → α → β → σ)
    (s : σ) :
    l1.foldl (fun s i => l2.foldl (fun s j => f s i j) s) s
      = (l1.flatMap (fun i => l2.map (fun j => (i, j)))).foldl (fun s t => f s t.1 t.2) s := by
  induction l1 generalizing s with
  | nil => rfl
  | cons i l1 ih =>
    simp only [List.foldl_cons, List.flatMap_cons, List.foldl_append, List.foldl_map, ih]

/-- The accumulation loop `val = 0; for k in 1..p: val += f k` computes the sum of
`f` over `1..p`. -/
theorem foldl_add_range_one (f : Nat → Int) (p : Nat) :
    (List.range' 1 p).foldl (fun val k => val + f k) 0 = ∑ k ∈ Finset.Icc 1 p, f k := by
  induction p with
  | zero => simp
  | succ p ih =>
    rw [List.range'_1_concat, List.foldl_append, ih, Finset.sum_Icc_succ_top (by omega)]
    simp [Nat.add_comm]

/-! ## Dimension lists -/

theorem offset_append : ∀ (pre ipre : List Nat), ipre.length = pre.length →
    ∀ (ds idx : List Nat),
      offset (pre ++ ds) (ipre ++ idx) = offset pre ipre + pre.prod * offset ds idx
  | [], [], _, ds, idx => by simp [offset]
  | [], _ :: _, h, _, _ => by simp at h
  | _ :: _, [], h, _, _ => by simp at h
  | d :: pre, i :: ipre, h, ds, idx => by
    have ih := offset_append pre ipre (by simpa using h) ds idx
    simp only [List.cons_append, offset, List.append_eq, ih, List.prod_cons]
    ring

theorem ValidIndex.append : ∀ {pre ipre : List Nat}, ValidIndex pre ipre →
    ∀ {ds idx : List Nat}, ValidIndex ds idx → ValidIndex (pre ++ ds) (ipre ++ idx)
  | [], [], _, _, _, h => by simpa using h
  | [], _ :: _, h, _, _, _ => absurd h (by simp [ValidIndex])
  | _ :: _, [], h, _, _, _ => absurd h (by simp [ValidIndex])
  | d :: pre, i :: ipre, h, ds, idx, h2 => by
    simp only [ValidIndex] at h
    simp only [List.cons_append, ValidIndex]
    exact ⟨h.1, h.2.1, ValidIndex.append h.2.2 h2⟩

/-- The product loop over the leading dimensions `1..m`. -/
theorem foldl_mul_leading (ds : List Nat) :
    ∀ m, m ≤ ds.length →
      (List.range' 1 m).foldl (fun acc i => acc * ds.getD (i - 1) 0) 1 = (ds.take m).prod
  | 0, _ => by simp
  | m + 1, h => by
    rw [List.range'_1_concat, List.foldl_append, foldl_mul_leading ds m (by omega),
      List.prod_take_succ ds m (by omega)]
    simp only [List.foldl_cons, List.foldl_nil, Nat.add_sub_cancel_left]
    rw [List.getD_eq_getElem ds 0 (by omega)]

/-- The product loop over the trailing dimensions `k+1..k+m`. -/
theorem foldl_mul_trailing (ds : List Nat) (k : Nat) :
    ∀ m, k + m ≤ ds.length →
      (List.range' (k + 1) m).foldl (fun acc i => acc * ds.getD (i - 1) 0) 1
        = ((ds.drop k).take m).prod
  | 0, _ => by simp
  | m + 1, h => by
    have hm : m < (ds.drop k).length := by rw [List.length_drop]; omega
    rw [List.range'_1_concat, List.foldl_append, foldl_mul_trailing ds k m (by omega),
      List.prod_take_succ (ds.drop k) m hm]
    simp only [List.foldl_cons, List.foldl_nil]
    rw [List.getD_eq_getElem ds 0 (by omega), List.getElem_drop]
    congr 2
    omega

/-- A dimension list splits around its `k`-th entry. -/
theorem dims_split (ds : List Nat) (k : Nat) (hk1 : 1 ≤ k) (hk : k ≤ ds.length) :
    ds = ds.take (k - 1) ++ [ds.getD (k - 1) 0] ++ ds.drop k := by
  have h1 : k - 1 < ds.length := by omega
  rw [List.getD_eq_getElem ds 0 h1]
  have e2 : ds.drop (k - 1) = ds[k - 1] :: ds.drop (k - 1 + 1) := List.drop_eq_getElem_cons h1
  have e3 : k - 1 + 1 = k := by omega
  rw [e3] at e2
  calc ds = ds.take (k - 1) ++ ds.drop (k - 1) := (List.take_append_drop (k - 1) ds).symm
    _ = ds.take (k - 1) ++ [ds[k - 1]] ++ ds.drop k := by rw [e2, List.append_assoc]; rfl

theorem set_split (ds : List Nat) (k v : Nat) (hk1 : 1 ≤ k) (hk : k ≤ ds.length) :
    ds.set (k - 1) v = ds.take (k - 1) ++ [v] ++ ds.drop k := by
  rw [List.set_eq_take_cons_drop v (show k - 1 < ds.length by omega)]
  have : k - 1 + 1 = k := by omega
  rw [this]
  simp

theorem getDim_succ (a : BaseArray T) (q : Nat) (h : q < a.dims.length) :
    a.getDim (q + 1) = a.dims[q] := by
  unfold BaseArray.getDim
  rw [Nat.add_sub_cancel, List.getD_eq_getElem a.dims 0 h]

/-- An input that is compatible with the first input has the leading and the trailing
dimensions of the first input around its own `k`-th dimension. -/
theorem CatCompatible.dims_eq {k : Nat} {x0 xi : BaseArray T} (h : CatCompatible k x0 xi)
    (hk1 : 1 ≤ k) (hk : k ≤ x0.getNumDims) :
    xi.dims = x0.dims.take (k - 1) ++ [xi.getDim k] ++ x0.dims.drop k := by
  obtain ⟨hn, hd⟩ := h
  unfold BaseArray.getNumDims at hn hk hd
  have hpre : xi.dims.take (k - 1) = x0.dims.take (k - 1) := by
    apply List.ext_getElem
    · simp only [List.length_take, hn]
    · intro q h1 h2
      simp only [List.length_take] at h1 h2
      rw [List.getElem_take, List.getElem_take, ← getDim_succ xi q (by omega),
        ← getDim_succ x0 q (by omega)]
      exact hd (q + 1) (by omega) (by omega) (by omega)
  have hpost : xi.dims.drop k = x0.dims.drop k := by
    apply List.ext_getElem
    · simp only [List.length_drop, hn]
    · intro q h1 h2
      simp only [List.length_drop] at h1 h2
      rw [List.getElem_drop, List.getElem_drop, ← getDim_succ xi (k + q) (by omega),
        ← getDim_succ x0 (k + q) (by omega)]
      exact hd (k + q + 1) (by omega) (by omega) (by omega)
  have := dims_split xi.dims k hk1 (by omega)
  rw [hpre, hpost] at this
  exact this

theorem CatCompatible.refl (k : Nat) (x0 : BaseArray T) : CatCompatible k x0 x0 :=
  ⟨rfl, fun _ _ _ _ => rfl⟩

/-! ## Indexing into concatenated blocks -/

/-- The element at position `t` of block `c` of a concatenation lies `t` places after
the blocks that precede it. -/
theorem flatMap_getElem?_block {α β : Type} (f : α → List β) :
    ∀ (l : List α) (c : Nat) (hc : c < l.length) (t : Nat), t < (f l[c]).length →
      (l.flatMap f)[((l.take c).map (fun a => (f a).length)).sum + t]? = (f l[c])[t]?
  | [], _, hc, _, _ => by simp at hc
  | a :: l, 0, _, t, ht => by
    simp only [List.getElem_cons_zero] at ht
    simp only [List.flatMap_cons, List.take_zero, List.map_nil, List.sum_nil, Nat.zero_add,
      List.getElem_cons_zero]
    exact List.getElem?_append_left ht
  | a :: l, c + 1, hc, t, ht => by
    simp only [List.getElem_cons_succ] at ht
    simp only [List.flatMap_cons, List.take_succ_cons, List.map_cons, List.sum_cons,
      List.getElem_cons_succ]
    rw [List.getElem?_append_right (by omega)]
    have : (f a).length + ((l.take c).map (fun a => (f a).length)).sum + t - (f a).length
        = ((l.take c).map (fun a => (f a).length)).sum + t := by omega
    rw [this]
    exact flatMap_getElem?_block f l c (by simpa using hc) t ht

/-- Indexing into a concatenation of blocks of one common length. -/
theorem flatMap_getElem?_uniform {α β : Type} (f : α → List β) (l : List α) (len : Nat)
    (hlen : ∀ a ∈ l, (f a).length = len) (i : Nat) (hi : i < l.length) (q : Nat)
    (hq : q < len) : (l.flatMap f)[i * len + q]? = (f l[i])[q]? := by
  have hsum : ((l.take i).map (fun a => (f a).length)).sum = i * len := by
    have : (l.take i).map (fun a => (f a).length) = List.replicate i len := by
      apply List.eq_replicate_iff.2
      refine ⟨by simp [List.length_take]; omega, ?_⟩
      intro b hb
      obtain ⟨a, ha, rfl⟩ := List.mem_map.1 hb
      exact hlen a (List.mem_of_mem_take ha)
    rw [this, List.sum_replicate]
    simp
  rw [← hsum]
  exact flatMap_getElem?_block f l i hi q (by rw [hlen _ (List.getElem_mem _)]; exact hq)

theorem failed_error {α : Type} (e : ArrayError) : Failed (Except.error e : Except ArrayError α) :=
  ⟨e, rfl⟩

theorem not_failed_ok {α : Type} (v : α) : ¬ Failed (Except.ok v : Except ArrayError α) := by
  rintro ⟨e, h⟩; cases h

/-- C1 (as stated, refuted): a 2x3 and a 3x2 matrix, and a 6-vector and a 2x3 matrix, have
different shapes, yet all four element-wise operations return a result instead
of failing. -/
theorem elem_wise_accepts_different_shapes :
    exA23.dims ≠ exA32.dims ∧ exV6.dims ≠ exA23.dims ∧
    add_array exA23 exA32 exDest = Except.ok ⟨[2, 3], [11, 22, 33, 44, 55, 66]⟩ ∧
    subtract_array exA32 exA23 exDest = Except.ok ⟨[3, 2], [9, 18, 27, 36, 45, 54]⟩ ∧
    multiply_array_elem_wise exA23 exA32 exDest
      = Except.ok ⟨[2, 3], [10, 40, 90, 160, 250, 360]⟩ ∧
    divide_array_elem_wise exA32 exA23 exDest = Except.ok ⟨[3, 2], [10, 10, 10, 10, 10, 10]⟩ ∧
    add_array exV6 exA23 exDest = Except.ok ⟨[6], [11, 22, 33, 44, 55, 66]⟩ := by
  refine ⟨by decide, by decide, rfl, rfl, rfl, rfl, rfl⟩

/-- C1 (amended): each of the four element-wise operations fails with an error exactly
when the element counts of the operands differ; when it does not fail, the
result has the shape of the left operand, whatever the shape of the right
operand and of the destination. -/
theorem elem_wise_fails_iff_elem_count_differs [Inhabited T] [Add T] [Sub T] [Mul T] [Div T]
    (a b d : BaseArray T) :
    (Failed (add_array a b d) ↔ a.getNumElems ≠ b.getNumElems) ∧
    (Failed (subtract_array a b d) ↔ a.getNumElems ≠ b.getNumElems) ∧
    (Failed (multiply_array_elem_wise a b d) ↔ a.getNumElems ≠ b.getNumElems) ∧
    (Failed (divide_array_elem_wise a b d) ↔ a.getNumElems ≠ b.getNumElems) ∧
    (∀ r, add_array a b d = Except.ok r → r.dims = a.dims) ∧
    (∀ r, subtract_array a b d = Except.ok r → r.dims = a.dims) ∧
    (∀ r, multiply_array_elem_wise a b d = Except.ok r → r.dims = a.dims) ∧
    (∀ r, divide_array_elem_wise a b d = Except.ok r → r.dims = a.dims) := by
  rw [add_array_eq, subtract_array_eq, multiply_array_elem_wise_eq, divide_array_elem_wise_eq]
  by_cases h : a.getNumElems = b.getNumElems
  · simp only [h, ne_eq, not_true_eq_false, if_false, iff_false, Except.ok.injEq]
    refine ⟨not_failed_ok _, not_failed_ok _, not_failed_ok _, not_failed_ok _, ?_, ?_, ?_, ?_⟩ <;>
      · rintro r rfl; rfl
  · simp only [ne_eq, h, not_false_eq_true, if_true, iff_true]
    refine ⟨failed_error _, failed_error _, failed_error _, failed_error _, ?_, ?_, ?_, ?_⟩ <;>
      · intro r hr; cases hr

/-- C2: for integer arrays of identical shape, `add_array`, `subtract_array` and
`multiply_array_elem_wise` succeed, the result has that shape and holds one
element per index, and at every index the result element is the sum, the
difference and the product of the operands' elements there. -/
theorem elem_wise_same_shape_result (a b d : BaseArray Int) (hs : a.dims = b.dims) :
    ∃ s t m : BaseArray Int,
      add_array a b d = Except.ok s ∧ subtract_array a b d = Except.ok t ∧
      multiply_array_elem_wise a b d = Except.ok m ∧
      s.dims = a.dims ∧ t.dims = a.dims ∧ m.dims = a.dims ∧ s.WF ∧ t.WF ∧ m.WF ∧
      (∀ i, i < a.getNumElems →
        readAt s.data i = readAt a.data i + readAt b.data i ∧
        readAt t.data i = readAt a.data i - readAt b.data i ∧
        readAt m.data i = readAt a.data i * readAt b.data i) ∧
      (∀ idx, ValidIndex a.dims idx →
        s.get idx = a.get idx + b.get idx ∧ t.get idx = a.get idx - b.get idx ∧
        m.get idx = a.get idx * b.get idx) := by
  have hn : a.getNumElems = b.getNumElems := by unfold BaseArray.getNumElems; rw [hs]
  refine ⟨elemWise (· + ·) a b, elemWise (· - ·) a b, elemWise (· * ·) a b, ?_, ?_, ?_,
    rfl, rfl, rfl, elemWise_WF _ _ _, elemWise_WF _ _ _, elemWise_WF _ _ _, ?_, ?_⟩
  · rw [add_array_eq]; simp [hn]
  · rw [subtract_array_eq]; simp [hn]
  · rw [multiply_array_elem_wise_eq]; simp [hn]
  · intro i hi
    exact ⟨elemWise_readAt _ a b i hi, elemWise_readAt _ a b i hi, elemWise_readAt _ a b i hi⟩
  · intro idx hidx
    exact ⟨elemWise_get _ a b hs idx hidx, elemWise_get _ a b hs idx hidx,
      elemWise_get _ a b hs idx hidx⟩

theorem elem_wise_same_shape_result_witness :
    exA23.dims = exA23.dims ∧ ∃ s t m : BaseArray Int,
      add_array exA23 exA23 exDest = Except.ok s ∧ subtract_array exA23 exA23 exDest = Except.ok t ∧
      multiply_array_elem_wise exA23 exA23 exDest = Except.ok m ∧
      s.dims = exA23.dims ∧ t.dims = exA23.dims ∧ m.dims = exA23.dims ∧ s.WF ∧ t.WF ∧ m.WF ∧
      (∀ i, i < exA23.getNumElems →
        readAt s.data i = readAt exA23.data i + readAt exA23.data i ∧
        readAt t.data i = readAt exA23.data i - readAt exA23.data i ∧
        readAt m.data i = readAt exA23.data i * readAt exA23.data i) ∧
      (∀ idx, ValidIndex exA23.dims idx →
        s.get idx = exA23.get idx + exA23.get idx ∧ t.get idx = exA23.get idx - exA23.get idx ∧
        m.get idx = exA23.get idx * exA23.get idx) :=
  ⟨rfl, elem_wise_same_shape_result exA23 exA23 exDest rfl⟩

/-- C3: on integer arrays of identical shape `add_array` and
`multiply_array_elem_wise` are commutative and associative as whole results:
both orders, and both bracketings, succeed with the same array (shape and
data), whatever destinations are passed. -/
theorem add_mul_elem_wise_comm_assoc (a b c d1 d2 d3 d4 : BaseArray Int)
    (hab : a.dims = b.dims) (hbc : b.dims = c.dims) :
    (∃ r, add_array a b d1 = Except.ok r ∧ add_array b a d2 = Except.ok r) ∧
    (∃ r, multiply_array_elem_wise a b d1 = Except.ok r ∧
      multiply_array_elem_wise b a d2 = Except.ok r) ∧
    (∃ ab bc r, add_array a b d1 = Except.ok ab ∧ add_array b c d2 = Except.ok bc ∧
      add_array ab c d3 = Except.ok r ∧ add_array a bc d4 = Except.ok r) ∧
    (∃ ab bc r, multiply_array_elem_wise a b d1 = Except.ok ab ∧
      multiply_array_elem_wise b c d2 = Except.ok bc ∧
      multiply_array_elem_wise ab c d3 = Except.ok r ∧
      multiply_array_elem_wise a bc d4 = Except.ok r) := by
  have hn : a.getNumElems = b.getNumElems := by unfold BaseArray.getNumElems; rw [hab]
  have hm : b.getNumElems = c.getNumElems := by unfold BaseArray.getNumElems; rw [hbc]
  have h1 : ∀ op : Int → Int → Int, (elemWise op a b).getNumElems = c.getNumElems := by
    intro op; rw [← hm, ← hn]; rfl
  have h2 : ∀ op : Int → Int → Int, a.getNumElems = (elemWise op b c).getNumElems := by
    intro op; rw [hn]; rfl
  refine ⟨⟨elemWise (· + ·) a b, ?_, ?_⟩, ⟨elemWise (· * ·) a b, ?_, ?_⟩,
    ⟨elemWise (· + ·) a b, elemWise (· + ·) b c, elemWise (· + ·) (elemWise (· + ·) a b) c,
      ?_, ?_, ?_, ?_⟩,
    ⟨elemWise (· * ·) a b, elemWise (· * ·) b c, elemWise (· * ·) (elemWise (· * ·) a b) c,
      ?_, ?_, ?_, ?_⟩⟩
  · rw [add_array_eq]; simp [hn]
  · rw [add_array_eq, elemWise_comm _ (fun u v => Int.add_comm u v) a b hab]; simp [hn]
  · rw [multiply_array_elem_wise_eq]; simp [hn]
  · rw [multiply_array_elem_wise_eq, elemWise_comm _ (fun u v => Int.mul_comm u v) a b hab]
    simp [hn]
  · rw [add_array_eq]; simp [hn]
  · rw [add_array_eq]; simp [hm]
  · rw [add_array_eq]; simp [h1]
  · rw [add_array_eq, elemWise_assoc _ (fun u v w => Int.add_assoc u v w) a b c hab]
    rw [if_neg (not_not.2 (h2 _))]
  · rw [multiply_array_elem_wise_eq]; simp [hn]
  · rw [multiply_array_elem_wise_eq]; simp [hm]
  · rw [multiply_array_elem_wise_eq]; simp [h1]
  · rw [multiply_array_elem_wise_eq,
      elemWise_assoc _ (fun u v w => Int.mul_assoc u v w) a b c hab]
    rw [if_neg (not_not.2 (h2 _))]

theorem add_mul_elem_wise_comm_assoc_witness :
    exA23.dims = exA23.dims ∧
    (∃ r, add_array exA23 exA23 exDest = Except.ok r ∧ add_array exA23 exA23 exA32 = Except.ok r) ∧
    (∃ r, multiply_array_elem_wise exA23 exA23 exDest = Except.ok r ∧
      multiply_array_elem_wise exA23 exA23 exA32 = Except.ok r) ∧
    (∃ ab bc r, add_array exA23 exA23 exDest = Except.ok ab ∧
      add_array exA23 exA23 exA32 = Except.ok bc ∧
      add_array ab exA23 exV6 = Except.ok r ∧ add_array exA23 bc exDest = Except.ok r) ∧
    (∃ ab bc r, multiply_array_elem_wise exA23 exA23 exDest = Except.ok ab ∧
      multiply_array_elem_wise exA23 exA23 exA32 = Except.ok bc ∧
      multiply_array_elem_wise ab exA23 exV6 = Except.ok r ∧
      multiply_array_elem_wise exA23 bc exDest = Except.ok r) :=
  ⟨rfl, add_mul_elem_wise_comm_assoc exA23 exA23 exA23 exDest exA32 exV6 exDest rfl rfl⟩

/-! ## Operations with a scalar -/

/-- The storage written by the unary `std::transform` into a destination of `n`
cells. -/
theorem std_transform_eq [Inhabited T] (op : T → T) (src out : List T) (n : Nat)
    (h : out.length = n) :
    std_transform op src n out = (List.range n).map (fun i => op (readAt src i)) :=
  foldl_writeAt_range _ n out h

/-- C12 (as stated, refuted): a 3x2 destination that receives the quotient of a 2x3 input
keeps its shape 3x2, because its element count already equals that of the
input. -/
theorem divide_array_keeps_destination_shape :
    (@divide_array Int _ intDivides exA23 2 exA32).dims = [3, 2] ∧ exA23.dims = [2, 3] ∧
    @divide_array Int _ intDivides exA23 2 exA32 = ⟨[3, 2], [0, 1, 1, 2, 2, 3]⟩ := by
  refine ⟨rfl, rfl, rfl⟩

/-- C12 (amended): after `divide_array(input, b, output)` with a non-zero integer `b` the
destination holds one element per index, as many as the input, and the element
at every storage position is the truncated quotient of the input element at
that position and `b`; the destination has the shape of the input when its
previous element count differed from that of the input, and keeps its previous
shape when the element counts agreed. -/
theorem divide_array_result (input output : BaseArray Int) (b : Int) (_hb : b ≠ 0)
    (hw : output.WF) :
    (@divide_array Int _ intDivides input b output).WF ∧
    (@divide_array Int _ intDivides input b output).getNumElems = input.getNumElems ∧
    (∀ i, i < input.getNumElems →
      readAt (@divide_array Int _ intDivides input b output).data i
        = Int.tdiv (readAt input.data i) b) ∧
    (output.getNumElems ≠ input.getNumElems →
      (@divide_array Int _ intDivides input b output).dims = input.dims) ∧
    (output.getNumElems = input.getNumElems →
      (@divide_array Int _ intDivides input b output).dims = output.dims) := by
  by_cases h : output.getNumElems = input.getNumElems
  · have e : @divide_array Int _ intDivides input b output
        = ⟨output.dims, (List.range input.getNumElems).map
            (fun i => Int.tdiv (readAt input.data i) b)⟩ := by
      unfold divide_array
      simp only [ne_eq, h, not_true_eq_false, if_false]
      rw [std_transform_eq _ _ _ _ (by rw [hw]; exact h)]
      rfl
    rw [e]
    refine ⟨?_, h, ?_, fun hne => absurd h hne, fun _ => rfl⟩
    · simp only [BaseArray.WF, List.length_map, List.length_range]
      exact h.symm
    · intro i hi
      exact readAt_map_range _ _ _ hi
  · have e : @divide_array Int _ intDivides input b output
        = ⟨input.dims, (List.range input.getNumElems).map
            (fun i => Int.tdiv (readAt input.data i) b)⟩ := by
      unfold divide_array
      simp only [ne_eq, h, not_false_eq_true, if_true]
      rw [std_transform_eq _ _ _ input.getNumElems (setDims_data_length _ _)]
      rfl
    rw [e]
    refine ⟨?_, rfl, ?_, fun _ => rfl, fun heq => absurd heq h⟩
    · simp [BaseArray.WF, BaseArray.getNumElems]
    · intro i hi
      exact readAt_map_range _ _ _ hi

theorem divide_array_result_witness :
    (2 : Int) ≠ 0 ∧ exDest.WF ∧
    (@divide_array Int _ intDivides exA23 2 exDest).WF ∧
    (@divide_array Int _ intDivides exA23 2 exDest).getNumElems = exA23.getNumElems ∧
    (∀ i, i < exA23.getNumElems →
      readAt (@divide_array Int _ intDivides exA23 2 exDest).data i
        = Int.tdiv (readAt exA23.data i) 2) ∧
    (exDest.getNumElems ≠ exA23.getNumElems →
      (@divide_array Int _ intDivides exA23 2 exDest).dims = exA23.dims) ∧
    (exDest.getNumElems = exA23.getNumElems →
      (@divide_array Int _ intDivides exA23 2 exDest).dims = exDest.dims) :=
  ⟨by decide, by decide, divide_array_result exA23 exDest 2 (by decide) (by decide)⟩

theorem multiply_array_scalar_eq [Inhabited T] [Mul T] (x : BaseArray T) (b : T)
    (d : BaseArray T) :
    multiply_array_scalar x b d
      = if x.getNumElems > 0 then mapElems (fun u => u * b) x else d := by
  unfold multiply_array_scalar
  simp only []
  split
  · rw [std_transform_eq _ _ _ x.getNumElems (setDims_data_length _ _)]; rfl
  · rfl

theorem add_array_scalar_eq [Inhabited T] [Add T] (x : BaseArray T) (b : T)
    (d : BaseArray T) :
    add_array_scalar x b d
      = if x.getNumElems > 0 then mapElems (fun u => u + b) x else d := by
  unfold add_array_scalar
  simp only []
  split
  · rw [std_transform_eq _ _ _ x.getNumElems (setDims_data_length _ _)]; rfl
  · rfl

theorem subtract_array_scalar_eq [Inhabited T] [Sub T] (x : BaseArray T) (b : T)
    (d : BaseArray T) :
    subtract_array_scalar x b d
      = if x.getNumElems > 0 then mapElems (fun u => u - b) x else d := by
  unfold subtract_array_scalar
  simp only []
  split
  · rw [std_transform_eq _ _ _ x.getNumElems (setDims_data_length _ _)]; rfl
  · rfl

theorem usub_array_eq [Inhabited T] [Neg T] (x d : BaseArray T) :
    usub_array x d = if x.getNumElems > 0 then mapElems (fun u => -u) x else d := by
  unfold usub_array
  simp only []
  split
  · rw [foldl_writeAt_range (fun i => -(readAt x.data i)) x.getNumElems _
      (setDims_data_length _ _)]
    rfl
  · rfl

theorem mapElems_WF [Inhabited T] (op : T → T) (x : BaseArray T) : (mapElems op x).WF := by
  simp [BaseArray.WF, mapElems, BaseArray.getNumElems]

theorem mapElems_readAt [Inhabited T] (op : T → T) (x : BaseArray T) (i : Nat)
    (h : i < x.getNumElems) : readAt (mapElems op x).data i = op (readAt x.data i) :=
  readAt_map_range _ _ _ h

/-- C13 (as stated, refuted): with an input of zero elements the four operations leave a
destination of three elements as it was, so the destination is neither empty
nor of the input's shape. -/
theorem scalar_ops_skip_empty_input :
    exDest.getNumElems = 0 ∧ exDest.dims ≠ exV3.dims ∧
    multiply_array_scalar exDest 2 exV3 = exV3 ∧ add_array_scalar exDest 2 exV3 = exV3 ∧
    subtract_array_scalar exDest 2 exV3 = exV3 ∧ usub_array exDest exV3 = exV3 := by
  refine ⟨rfl, by decide, rfl, rfl, rfl, rfl⟩

/-- C13 (amended): for an input with at least one element, after
`multiply_array(input, scalar, output)`, `add_array_scalar`,
`subtract_array_scalar` or `usub_array` the destination has the shape of the
input, holds one element per index, and each element is the scalar operation
applied to the input element at the same storage position, whatever the
destination was before; for an input with zero elements the destination is
left as it was. -/
theorem scalar_ops_result [Inhabited T] [Mul T] [Add T] [Sub T] [Neg T] (x d : BaseArray T)
    (b : T) :
    (0 < x.getNumElems →
      (multiply_array_scalar x b d).dims = x.dims ∧ (multiply_array_scalar x b d).WF ∧
      (add_array_scalar x b d).dims = x.dims ∧ (add_array_scalar x b d).WF ∧
      (subtract_array_scalar x b d).dims = x.dims ∧ (subtract_array_scalar x b d).WF ∧
      (usub_array x d).dims = x.dims ∧ (usub_array x d).WF ∧
      ∀ i, i < x.getNumElems →
        readAt (multiply_array_scalar x b d).data i = readAt x.data i * b ∧
        readAt (add_array_scalar x b d).data i = readAt x.data i + b ∧
        readAt (subtract_array_scalar x b d).data i = readAt x.data i - b ∧
        readAt (usub_array x d).data i = -(readAt x.data i)) ∧
    (x.getNumElems = 0 →
      multiply_array_scalar x b d = d ∧ add_array_scalar x b d = d ∧
      subtract_array_scalar x b d = d ∧ usub_array x d = d) := by
  rw [multiply_array_scalar_eq, add_array_scalar_eq, subtract_array_scalar_eq, usub_array_eq]
  constructor
  · intro h
    simp only [gt_iff_lt, h, if_true]
    refine ⟨rfl, mapElems_WF _ _, rfl, mapElems_WF _ _, rfl, mapElems_WF _ _, rfl,
      mapElems_WF _ _, ?_⟩
    intro i hi
    exact ⟨mapElems_readAt _ x i hi, mapElems_readAt _ x i hi, mapElems_readAt _ x i hi,
      mapElems_readAt _ x i hi⟩
  · intro h
    simp [h]

theorem scalar_ops_result_witness :
    0 < exA23.getNumElems ∧
    (multiply_array_scalar exA23 2 exDest).dims = exA23.dims ∧
    (multiply_array_scalar exA23 2 exDest).WF ∧
    (add_array_scalar exA23 2 exDest).dims = exA23.dims ∧
    (add_array_scalar exA23 2 exDest).WF ∧
    (subtract_array_scalar exA23 2 exDest).dims = exA23.dims ∧
    (subtract_array_scalar exA23 2 exDest).WF ∧
    (usub_array exA23 exDest).dims = exA23.dims ∧ (usub_array exA23 exDest).WF ∧
    ∀ i, i < exA23.getNumElems →
      readAt (multiply_array_scalar exA23 2 exDest).data i = readAt exA23.data i * 2 ∧
      readAt (add_array_scalar exA23 2 exDest).data i = readAt exA23.data i + 2 ∧
      readAt (subtract_array_scalar exA23 2 exDest).data i = readAt exA23.data i - 2 ∧
      readAt (usub_array exA23 exDest).data i = -(readAt exA23.data i) :=
  ⟨by decide, (scalar_ops_result exA23 exDest 2).1 (by decide)⟩

/-! ## Matrix products -/

/-- C9: `multiply_array` fails with an error exactly when the size of the last
dimension of the left operand differs from the size of the first dimension of
the right operand, or the ranks of the operands are not one of (1,2), (2,1),
(2,2); in particular vector times vector fails, and so does every call with an
operand of rank 3 or more. -/
theorem multiply_array_fails_iff [Inhabited T] [Zero T] [Add T] [Mul T]
    (l r d : BaseArray T) :
    (Failed (multiply_array l r d) ↔
      (l.getDim l.getNumDims ≠ r.getDim 1 ∨
        ¬ ((l.getNumDims = 1 ∧ r.getNumDims = 2) ∨ (l.getNumDims = 2 ∧ r.getNumDims = 1) ∨
            (l.getNumDims = 2 ∧ r.getNumDims = 2)))) ∧
    ((l.getNumDims = 1 ∧ r.getNumDims = 1) → Failed (multiply_array l r d)) ∧
    ((3 ≤ l.getNumDims ∨ 3 ≤ r.getNumDims) → Failed (multiply_array l r d)) := by
  have key : Failed (multiply_array l r d) ↔
      (l.getDim l.getNumDims ≠ r.getDim 1 ∨
        ¬ ((l.getNumDims = 1 ∧ r.getNumDims = 2) ∨ (l.getNumDims = 2 ∧ r.getNumDims = 1) ∨
            (l.getNumDims = 2 ∧ r.getNumDims = 2))) := by
    unfold multiply_array
    simp only []
    split_ifs with h1 h2 h3 h4
    · exact ⟨fun _ => Or.inl h1, fun _ => failed_error _⟩
    · constructor
      · intro h; exact absurd h (not_failed_ok _)
      · rintro (h | h)
        · exact absurd h h1
        · exact absurd (Or.inl h2) h
    · constructor
      · intro h; exact absurd h (not_failed_ok _)
      · rintro (h | h)
        · exact absurd h h1
        · exact absurd (Or.inr (Or.inl h3)) h
    · constructor
      · intro h; exact absurd h (not_failed_ok _)
      · rintro (h | h)
        · exact absurd h h1
        · exact absurd (Or.inr (Or.inr h4)) h
    · refine ⟨fun _ => Or.inr ?_, fun _ => failed_error _⟩
      rintro (h | h | h)
      · exact h2 h
      · exact h3 h
      · exact h4 h
  refine ⟨key, fun h => key.2 (Or.inr ?_), fun h => key.2 (Or.inr ?_)⟩
  · omega
  · omega

theorem multiply_array_matrix_matrix (l r d : BaseArray Int) (m p n : Nat)
    (hl : l.dims = [m, p]) (hr : r.dims = [p, n]) :
    ∃ res, multiply_array l r d = Except.ok res ∧ res.dims = [m, n] ∧ res.WF ∧
      ∀ i j, 1 ≤ i → i ≤ m → 1 ≤ j → j ≤ n →
        res.get [i, j] = ∑ k ∈ Finset.Icc 1 p, l.get [i, k] * r.get [k, j] := by
  have e : multiply_array l r d = Except.ok
      (((List.range' 1 m).flatMap (fun i => (List.range' 1 n).map (fun j => (i, j)))).foldl
        (fun res t => res.put [t.1, t.2]
          (∑ k ∈ Finset.Icc 1 p, l.get [t.1, k] * r.get [k, t.2]))
        (d.setDims [m, n])) := by
    unfold multiply_array
    simp only [BaseArray.getNumDims, BaseArray.getDim, hl, hr, foldl_add_range_one,
      foldl_nested_pairs]
    simp
  refine ⟨_, e, ?_, ?_, ?_⟩
  · rw [foldl_put_dims]; rfl
  · exact foldl_put_WF _ _ _ _ (setDims_WF _ _)
  · intro i j hi1 hi2 hj1 hj2
    have hmem : (i, j) ∈ (List.range' 1 m).flatMap
        (fun i => (List.range' 1 n).map (fun j => (i, j))) := by
      simp only [List.mem_flatMap, List.mem_map, List.mem_range'_1, Prod.mk.injEq]
      exact ⟨i, ⟨hi1, by omega⟩, j, ⟨hj1, by omega⟩, rfl, rfl⟩
    refine foldl_put_get _ (fun t : Nat × Nat => [t.1, t.2])
      (fun t => ∑ k ∈ Finset.Icc 1 p, l.get [t.1, k] * r.get [k, t.2]) _ (setDims_WF _ _)
      ?_ (i, j) hmem ?_
    · intro t ht
      simp only [List.mem_flatMap, List.mem_map, List.mem_range'_1] at ht
      obtain ⟨a, ha, b, hb, rfl⟩ := ht
      show ValidIndex [m, n] [a, b]
      exact ⟨ha.1, by omega, hb.1, by omega, trivial⟩
    · intro t _ ht
      simp only [List.cons.injEq, and_true] at ht
      obtain ⟨a, b⟩ := t
      simp only at ht
      rw [ht.1, ht.2]

theorem multiply_array_matrix_vector (l r d : BaseArray Int) (m p : Nat)
    (hl : l.dims = [m, p]) (hr : r.dims = [p]) :
    ∃ res, multiply_array l r d = Except.ok res ∧ res.dims = [m] ∧ res.WF ∧
      ∀ i, 1 ≤ i → i ≤ m →
        res.get [i] = ∑ k ∈ Finset.Icc 1 p, l.get [i, k] * r.get [k] := by
  have e : multiply_array l r d = Except.ok
      ((List.range' 1 m).foldl
        (fun res i => res.put [i] (∑ k ∈ Finset.Icc 1 p, l.get [i, k] * r.get [k]))
        (d.setDims [m])) := by
    unfold multiply_array
    simp only [BaseArray.getNumDims, BaseArray.getDim, hl, hr, foldl_add_range_one]
    simp
  refine ⟨_, e, ?_, ?_, ?_⟩
  · rw [foldl_put_dims]; rfl
  · exact foldl_put_WF _ _ _ _ (setDims_WF _ _)
  · intro i hi1 hi2
    refine foldl_put_get _ (fun i : Nat => [i])
      (fun i => ∑ k ∈ Finset.Icc 1 p, l.get [i, k] * r.get [k]) _ (setDims_WF _ _)
      ?_ i (List.mem_range'_1.2 ⟨hi1, by omega⟩) ?_
    · intro t ht
      have := List.mem_range'_1.1 ht
      show ValidIndex [m] [t]
      exact ⟨this.1, by omega, trivial⟩
    · intro t _ ht
      simp only [List.cons.injEq, and_true] at ht
      rw [ht]

theorem multiply_array_vector_matrix (l r d : BaseArray Int) (p n : Nat)
    (hl : l.dims = [p]) (hr : r.dims = [p, n]) :
    ∃ res, multiply_array l r d = Except.ok res ∧ res.dims = [n] ∧ res.WF ∧
      ∀ j, 1 ≤ j → j ≤ n →
        res.get [j] = ∑ k ∈ Finset.Icc 1 p, l.get [k] * r.get [k, j] := by
  have e : multiply_array l r d = Except.ok
      ((List.range' 1 n).foldl
        (fun res j => res.put [j] (∑ k ∈ Finset.Icc 1 p, l.get [k] * r.get [k, j]))
        (d.setDims [n])) := by
    unfold multiply_array
    simp only [BaseArray.getNumDims, BaseArray.getDim, hl, hr, foldl_add_range_one]
    simp
  refine ⟨_, e, ?_, ?_, ?_⟩
  · rw [foldl_put_dims]; rfl
  · exact foldl_put_WF _ _ _ _ (setDims_WF _ _)
  · intro j hj1 hj2
    refine foldl_put_get _ (fun j : Nat => [j])
      (fun j => ∑ k ∈ Finset.Icc 1 p, l.get [k] * r.get [k, j]) _ (setDims_WF _ _)
      ?_ j (List.mem_range'_1.2 ⟨hj1, by omega⟩) ?_
    · intro t ht
      have := List.mem_range'_1.1 ht
      show ValidIndex [n] [t]
      exact ⟨this.1, by omega, trivial⟩
    · intro t _ ht
      simp only [List.cons.injEq, and_true] at ht
      rw [ht]

/-- C8: on integer operands whose inner dimensions match, `multiply_array` returns,
for an m x p matrix times a p x n matrix, the m x n matrix with entry
(i,j) = sum over k of left(i,k)*right(k,j); for an m x p matrix times a
p-vector, the m-vector with entry i = sum over k of left(i,k)*right(k); for a
p-vector times a p x n matrix, the n-vector with entry
j = sum over k of left(k)*right(k,j). -/
theorem multiply_array_result (l r d : BaseArray Int) (m p n : Nat) :
    (l.dims = [m, p] → r.dims = [p, n] →
      ∃ res, multiply_array l r d = Except.ok res ∧ res.dims = [m, n] ∧ res.WF ∧
        ∀ i j, 1 ≤ i → i ≤ m → 1 ≤ j → j ≤ n →
          res.get [i, j] = ∑ k ∈ Finset.Icc 1 p, l.get [i, k] * r.get [k, j]) ∧
    (l.dims = [m, p] → r.dims = [p] →
      ∃ res, multiply_array l r d = Except.ok res ∧ res.dims = [m] ∧ res.WF ∧
        ∀ i, 1 ≤ i → i ≤ m →
          res.get [i] = ∑ k ∈ Finset.Icc 1 p, l.get [i, k] * r.get [k]) ∧
    (l.dims = [p] → r.dims = [p, n] →
      ∃ res, multiply_array l r d = Except.ok res ∧ res.dims = [n] ∧ res.WF ∧
        ∀ j, 1 ≤ j → j ≤ n →
          res.get [j] = ∑ k ∈ Finset.Icc 1 p, l.get [k] * r.get [k, j]) :=
  ⟨multiply_array_matrix_matrix l r d m p n, multiply_array_matrix_vector l r d m p,
    multiply_array_vector_matrix l r d p n⟩

theorem multiply_array_result_witness :
    (∃ res, multiply_array exA23 exA32 exDest = Except.ok res ∧ res.dims = [2, 2] ∧ res.WF ∧
      ∀ i j, 1 ≤ i → i ≤ 2 → 1 ≤ j → j ≤ 2 →
        res.get [i, j] = ∑ k ∈ Finset.Icc 1 3, exA23.get [i, k] * exA32.get [k, j]) ∧
    (∃ res, multiply_array exA23 exV3 exDest = Except.ok res ∧ res.dims = [2] ∧ res.WF ∧
      ∀ i, 1 ≤ i → i ≤ 2 →
        res.get [i] = ∑ k ∈ Finset.Icc 1 3, exA23.get [i, k] * exV3.get [k]) ∧
    (∃ res, multiply_array exV3 exA32 exDest = Except.ok res ∧ res.dims = [2] ∧ res.WF ∧
      ∀ j, 1 ≤ j → j ≤ 2 →
        res.get [j] = ∑ k ∈ Finset.Icc 1 3, exV3.get [k] * exA32.get [k, j]) :=
  ⟨(multiply_array_result exA23 exA32 exDest 2 3 2).1 rfl rfl,
    (multiply_array_result exA23 exV3 exDest 2 3 2).2.1 rfl rfl,
    (multiply_array_result exV3 exA32 exDest 2 3 2).2.2 rfl rfl⟩

theorem multiply_array_fails_iff_witness :
    Failed (multiply_array exV3 exV3 exDest) ∧ Failed (multiply_array exA23 exA234 exDest) :=
  ⟨(multiply_array_fails_iff exV3 exV3 exDest).2.1 ⟨rfl, rfl⟩,
    (multiply_array_fails_iff exA23 exA234 exDest).2.2 (Or.inr (by decide))⟩

/-! ## Scalar product -/

/-- C10 (the code at the failing input): two vectors of lengths 2 and 3 pass the only
check of `dot_array`, which looks at the number of dimensions, and the call
returns the product over the first two elements instead of failing. -/
theorem dot_array_accepts_different_lengths :
    exV2.getNumDims = 1 ∧ exV3.getNumDims = 1 ∧ exV2.getNumElems ≠ exV3.getNumElems ∧
    dot_array exV2 exV3 = Except.ok 5 := by
  refine ⟨rfl, rfl, by decide, rfl⟩

/-- The accumulation loop of `std::inner_product` over the positions `0..m-1`, as a
sum over the indices `1..m`. -/
theorem foldl_add_range_zero (g : Nat → Int) (m : Nat) :
    (List.range m).foldl (fun acc i => acc + g i) 0 = ∑ i ∈ Finset.Icc 1 m, g (i - 1) := by
  induction m with
  | zero => simp
  | succ m ih =>
    rw [List.range_succ, List.foldl_append, ih, Finset.sum_Icc_succ_top (by omega)]
    simp

/-- C11: `dot_array(a, b)` fails with an error whenever `a` or `b` is not
one-dimensional, and for two one-dimensional integer arrays of equal length `n`
it returns the sum over `i` in `1..n` of `a(i) * b(i)`, which is 0 for
`n = 0`. -/
theorem dot_array_result (a b : BaseArray Int) :
    ((a.getNumDims ≠ 1 ∨ b.getNumDims ≠ 1) → Failed (dot_array a b)) ∧
    (∀ n, a.dims = [n] → b.dims = [n] →
      dot_array a b = Except.ok (∑ i ∈ Finset.Icc 1 n, a.get [i] * b.get [i])) ∧
    (a.dims = [0] → b.dims = [0] → dot_array a b = Except.ok 0) := by
  have hsum : ∀ n, a.dims = [n] → b.dims = [n] →
      dot_array a b = Except.ok (∑ i ∈ Finset.Icc 1 n, a.get [i] * b.get [i]) := by
    intro n ha hb
    unfold dot_array
    rw [if_neg (by simp [BaseArray.getNumDims, ha, hb])]
    unfold std_inner_product
    rw [foldl_add_range_zero (fun i => readAt a.data i * readAt b.data i)]
    simp [BaseArray.get, BaseArray.getNumElems, ha, hb, offset]
  refine ⟨?_, hsum, ?_⟩
  · intro h
    unfold dot_array
    rw [if_pos h]
    exact failed_error _
  · intro ha hb
    rw [hsum 0 ha hb]
    simp

theorem dot_array_result_witness :
    Failed (dot_array exA23 exV3) ∧
    dot_array exV3 exV3 = Except.ok (∑ i ∈ Finset.Icc 1 3, exV3.get [i] * exV3.get [i]) ∧
    dot_array exDest exDest = Except.ok 0 :=
  ⟨(dot_array_result exA23 exV3).1 (Or.inl (by decide)),
    (dot_array_result exV3 exV3).2.1 3 rfl rfl,
    (dot_array_result exDest exDest).2.2 rfl rfl⟩

/-- C23: matrix multiplication by `multiply_array` is associative on integer matrices: for
an `m x p` matrix `A`, a `p x q` matrix `B` and a `q x n` matrix `C` both
bracketings succeed with the same `m x n` array, shape and entries, whatever
destinations are passed. -/
theorem multiply_array_assoc (A B C d1 d2 d3 d4 : BaseArray Int) (m p q n : Nat)
    (hA : A.dims = [m, p]) (hB : B.dims = [p, q]) (hC : C.dims = [q, n]) :
    ∃ AB BC R, multiply_array A B d1 = Except.ok AB ∧ multiply_array B C d2 = Except.ok BC ∧
      multiply_array AB C d3 = Except.ok R ∧ multiply_array A BC d4 = Except.ok R ∧
      R.dims = [m, n] := by
  obtain ⟨AB, eAB, dAB, _, gAB⟩ := multiply_array_matrix_matrix A B d1 m p q hA hB
  obtain ⟨BC, eBC, dBC, _, gBC⟩ := multiply_array_matrix_matrix B C d2 p q n hB hC
  obtain ⟨R1, e1, dR1, w1, g1⟩ := multiply_array_matrix_matrix AB C d3 m q n dAB hC
  obtain ⟨R2, e2, dR2, w2, g2⟩ := multiply_array_matrix_matrix A BC d4 m p n hA dBC
  refine ⟨AB, BC, R1, eAB, eBC, e1, ?_, dR1⟩
  rw [e2]
  congr 1
  apply BaseArray.ext_get R2 R1 w2 w1 (by rw [dR1, dR2])
  intro idx hidx
  rw [dR2] at hidx
  match idx, hidx with
  | [i, j], hv =>
    simp only [ValidIndex] at hv
    obtain ⟨hi1, hi2, hj1, hj2, _⟩ := hv
    rw [g1 i j hi1 hi2 hj1 hj2, g2 i j hi1 hi2 hj1 hj2]
    have hl : ∀ l ∈ Finset.Icc 1 p,
        A.get [i, l] * BC.get [l, j]
          = ∑ k ∈ Finset.Icc 1 q, A.get [i, l] * B.get [l, k] * C.get [k, j] := by
      intro l hl
      have hl2 := Finset.mem_Icc.1 hl
      rw [gBC l j hl2.1 hl2.2 hj1 hj2, Finset.mul_sum]
      exact Finset.sum_congr rfl (fun k _ => (mul_assoc _ _ _).symm)
    have hk : ∀ k ∈ Finset.Icc 1 q,
        AB.get [i, k] * C.get [k, j]
          = ∑ l ∈ Finset.Icc 1 p, A.get [i, l] * B.get [l, k] * C.get [k, j] := by
      intro k hk
      have hk2 := Finset.mem_Icc.1 hk
      rw [gAB i k hi1 hi2 hk2.1 hk2.2, Finset.sum_mul]
    rw [Finset.sum_congr rfl hl, Finset.sum_congr rfl hk, Finset.sum_comm]

theorem multiply_array_assoc_witness :
    exA23.dims = [2, 3] ∧ exA32.dims = [3, 2] ∧
    ∃ AB BC R, multiply_array exA23 exA32 exDest = Except.ok AB ∧
      multiply_array exA32 exA23 exDest2 = Except.ok BC ∧
      multiply_array AB exA23 exDest = Except.ok R ∧
      multiply_array exA23 BC exDest2 = Except.ok R ∧ R.dims = [2, 3] :=
  ⟨rfl, rfl, multiply_array_assoc exA23 exA32 exA23 exDest exDest2 exDest exDest2 2 3 2 3
    rfl rfl rfl⟩

/-! ## Diagonal and identity matrices -/

theorem std_fill_eq (out : List T) (n : Nat) (value : T) (h : out.length = n) :
    std_fill out n value = List.replicate n value := by
  unfold std_fill
  rw [foldl_writeAt_range (fun _ => value) n out h, List.map_const', List.length_range]

/-- An element that no assignment of the sequence addresses keeps its value. -/
theorem foldl_put_get_other [Inhabited T] {ι : Type} (L : List ι) (idx : ι → List Nat)
    (val : ι → T) (a : BaseArray T) (p : Nat)
    (hp : ∀ t ∈ L, offset a.dims (idx t) ≠ p) :
    readAt (L.foldl (fun a t => a.put (idx t) (val t)) a).data p = readAt a.data p := by
  rw [foldl_put_eq]
  unfold readAt
  rw [List.getD_eq_getElem?_getD, List.getD_eq_getElem?_getD, scatter_getElem?_of_not_mem]
  intro w hw
  obtain ⟨t, ht, rfl⟩ := List.mem_map.1 hw
  exact hp t ht

/-- The matrix left by assignments to diagonal elements of an `n x n` matrix filled
with `z`. -/
theorem diag_puts_get [Inhabited T] (n : Nat) (z : T) (val : Nat → T) :
    ((List.range' 1 n).foldl (fun a t => a.put [t, t] (val t)) (constMatrix n z)).dims
      = [n, n] ∧
    ((List.range' 1 n).foldl (fun a t => a.put [t, t] (val t)) (constMatrix n z)).WF ∧
    ∀ i j, 1 ≤ i → i ≤ n → 1 ≤ j → j ≤ n →
      ((List.range' 1 n).foldl (fun a t => a.put [t, t] (val t)) (constMatrix n z)).get [i, j]
        = if i = j then val i else z := by
  have hwf : (constMatrix n z).WF := by
    simp [BaseArray.WF, constMatrix]
  have hvalid : ∀ t ∈ List.range' 1 n, ValidIndex (constMatrix n z).dims [t, t] := by
    intro t ht
    have := List.mem_range'_1.1 ht
    exact ⟨this.1, by omega, this.1, by omega, trivial⟩
  refine ⟨foldl_put_dims _ _ _ _, foldl_put_WF _ _ _ _ hwf, ?_⟩
  intro i j hi1 hi2 hj1 hj2
  by_cases hij : i = j
  · subst hij
    rw [if_pos rfl]
    refine foldl_put_get (List.range' 1 n) (fun t => [t, t]) val _ hwf hvalid i
      (List.mem_range'_1.2 ⟨hi1, by omega⟩) ?_
    intro t _ ht
    simp only [List.cons.injEq, and_true, and_self] at ht
    rw [ht]
  · rw [if_neg hij]
    have hv : ValidIndex [n, n] [i, j] := ⟨hi1, hi2, hj1, hj2, trivial⟩
    unfold BaseArray.get
    rw [foldl_put_dims, foldl_put_get_other]
    · show readAt (List.replicate (n * n) z) (offset [n, n] [i, j]) = z
      have hlt := offset_lt hv
      simp only [List.prod_cons, List.prod_nil, Nat.mul_one] at hlt
      simp [readAt, List.getD_eq_getElem?_getD, List.getElem?_replicate, hlt]
    · intro t ht he
      have := offset_inj (hvalid t ht) hv he
      simp only [List.cons.injEq, and_true] at this
      exact hij (this.1.symm.trans this.2)

/-- The result of `identity_alloc`: the `n x n` matrix with 1 on the diagonal and 0
elsewhere. -/
theorem identity_alloc_get (n : Nat) (I : BaseArray Int) :
    (identity_alloc n I).dims = [n, n] ∧ (identity_alloc n I).WF ∧
    ∀ i j, 1 ≤ i → i ≤ n → 1 ≤ j → j ≤ n →
      (identity_alloc n I).get [i, j] = if i = j then 1 else 0 := by
  have e : identity_alloc n I
      = (List.range' 1 n).foldl (fun a t => a.put [t, t] ((fun _ => (1 : Int)) t))
          (constMatrix n 0) := by
    unfold identity_alloc fill_array
    simp only []
    have hlen : (I.setDims [n, n]).data.length = (I.setDims [n, n]).getNumElems :=
      setDims_data_length I [n, n]
    rw [std_fill_eq _ _ _ hlen]
    simp [BaseArray.getNumElems, BaseArray.setDims, constMatrix]
  rw [e]
  exact diag_puts_get n 0 (fun _ => 1)

/-- C16: `identity_alloc(n)` constructs the `n x n` integer matrix with 1 where `i = j` and 0
elsewhere, and for every integer `m x n` matrix `A` the products
`multiply_array(A, identity_alloc(n))` and `multiply_array(identity_alloc(m), A)`
both are `A`. -/
theorem identity_alloc_is_unit (A d I : BaseArray Int) (m n : Nat) (hA : A.WF)
    (hd : A.dims = [m, n]) :
    ((identity_alloc n I).dims = [n, n] ∧ (identity_alloc n I).WF ∧
      ∀ i j, 1 ≤ i → i ≤ n → 1 ≤ j → j ≤ n →
        (identity_alloc n I).get [i, j] = if i = j then 1 else 0) ∧
    multiply_array A (identity_alloc n I) d = Except.ok A ∧
    multiply_array (identity_alloc m I) A d = Except.ok A := by
  refine ⟨identity_alloc_get n I, ?_, ?_⟩
  · obtain ⟨res, he, hdims, hwf, hget⟩ :=
      multiply_array_matrix_matrix A (identity_alloc n I) d m n n hd (identity_alloc_get n I).1
    rw [he]
    congr 1
    apply BaseArray.ext_get res A hwf hA (by rw [hdims, hd])
    intro idx hidx
    rw [hdims] at hidx
    match idx, hidx with
    | [i, j], hv =>
      simp only [ValidIndex] at hv
      rw [hget i j hv.1 hv.2.1 hv.2.2.1 hv.2.2.2.1]
      have hterm : ∀ k ∈ Finset.Icc 1 n,
          A.get [i, k] * (identity_alloc n I).get [k, j]
            = if k = j then A.get [i, k] else 0 := by
        intro k hk
        have hk2 := Finset.mem_Icc.1 hk
        rw [(identity_alloc_get n I).2.2 k j hk2.1 hk2.2 hv.2.2.1 hv.2.2.2.1]
        split <;> simp
      rw [Finset.sum_congr rfl hterm, Finset.sum_ite_eq' (Finset.Icc 1 n) j,
        if_pos (Finset.mem_Icc.2 ⟨hv.2.2.1, hv.2.2.2.1⟩)]
  · obtain ⟨res, he, hdims, hwf, hget⟩ :=
      multiply_array_matrix_matrix (identity_alloc m I) A d m m n (identity_alloc_get m I).1 hd
    rw [he]
    congr 1
    apply BaseArray.ext_get res A hwf hA (by rw [hdims, hd])
    intro idx hidx
    rw [hdims] at hidx
    match idx, hidx with
    | [i, j], hv =>
      simp only [ValidIndex] at hv
      rw [hget i j hv.1 hv.2.1 hv.2.2.1 hv.2.2.2.1]
      have hterm : ∀ k ∈ Finset.Icc 1 m,
          (identity_alloc m I).get [i, k] * A.get [k, j]
            = if k = i then A.get [k, j] else 0 := by
        intro k hk
        have hk2 := Finset.mem_Icc.1 hk
        rw [(identity_alloc_get m I).2.2 i k hv.1 hv.2.1 hk2.1 hk2.2]
        by_cases hik : i = k
        · subst hik; simp
        · have hki : ¬ k = i := fun e => hik e.symm
          simp [hik, hki]
      rw [Finset.sum_congr rfl hterm, Finset.sum_ite_eq' (Finset.Icc 1 m) i,
        if_pos (Finset.mem_Icc.2 ⟨hv.1, hv.2.1⟩)]

theorem identity_alloc_is_unit_witness :
    exA23.WF ∧ exA23.dims = [2, 3] ∧
    ((identity_alloc 3 exDest2).dims = [3, 3] ∧ (identity_alloc 3 exDest2).WF ∧
      ∀ i j, 1 ≤ i → i ≤ 3 → 1 ≤ j → j ≤ 3 →
        (identity_alloc 3 exDest2).get [i, j] = if i = j then 1 else 0) ∧
    multiply_array exA23 (identity_alloc 3 exDest2) exDest = Except.ok exA23 ∧
    multiply_array (identity_alloc 2 exDest2) exA23 exDest = Except.ok exA23 :=
  ⟨by decide, rfl, identity_alloc_is_unit exA23 exDest exDest2 2 3 (by decide) rfl⟩

/-- The result of `diagonal_alloc` on a vector of length `n` and a two-dimensional
destination, as a sequence of assignments to the diagonal of the zero matrix. -/
theorem diagonal_alloc_eq [Inhabited T] [Zero T] (v D : BaseArray T) (n : Nat)
    (hv : v.dims = [n]) (hD : D.getNumDims = 2) :
    diagonal_alloc v D = Except.ok
      ((List.range' 1 n).foldl (fun a t => a.put [t, t] (readAt v.data (t - 1)))
        (constMatrix n 0)) := by
  unfold diagonal_alloc
  rw [if_neg (by simp [BaseArray.getNumDims, hv]), if_neg (by simp [hD])]
  simp only [hv, List.getD_cons_zero, List.singleton_append]
  have hlen : (D.setDims [n, n]).data.length = n * n := by
    rw [setDims_data_length]; simp
  rw [std_fill_eq _ _ _ hlen, foldl_put_eq]
  congr 2
  have e1 : ∀ (o : List T),
      (List.range n).foldl (fun o i => writeAt o (i * n + i) (readAt v.data i)) o
        = scatter o ((List.range n).map (fun i => (i * n + i, readAt v.data i))) := by
    intro o
    unfold scatter
    rw [List.foldl_map]
  rw [e1, List.range'_eq_map_range, List.map_map]
  congr 1
  apply List.map_congr_left
  intro i _
  simp only [Function.comp, constMatrix, offset, Nat.add_sub_cancel_left, Nat.mul_zero,
    Nat.add_zero, Prod.mk.injEq, and_true]
  ring

/-- C15: `diagonal_alloc(v, D)` fails with an error if `v` is not one-dimensional or `D` is
not two-dimensional; otherwise, for `v` of length `n`, `D` becomes the `n x n`
matrix with `D(i,i) = v(i)` for every `i` and `D(i,j) = 0` for every
`i != j`. -/
theorem diagonal_alloc_spec [Inhabited T] [Zero T] (v D : BaseArray T) :
    ((v.getNumDims ≠ 1 ∨ D.getNumDims ≠ 2) → Failed (diagonal_alloc v D)) ∧
    (∀ n, v.dims = [n] → D.getNumDims = 2 →
      ∃ res, diagonal_alloc v D = Except.ok res ∧ res.dims = [n, n] ∧ res.WF ∧
        ∀ i j, 1 ≤ i → i ≤ n → 1 ≤ j → j ≤ n →
          res.get [i, j] = if i = j then v.get [i] else 0) := by
  constructor
  · intro h
    unfold diagonal_alloc
    by_cases h1 : v.getNumDims ≠ 1
    · rw [if_pos h1]; exact failed_error _
    · rw [if_neg h1]
      have h2 : D.getNumDims ≠ 2 := h.resolve_left h1
      rw [if_pos h2]; exact failed_error _
  · intro n hv hD
    obtain ⟨h1, h2, h3⟩ := diag_puts_get n (0 : T) (fun t => readAt v.data (t - 1))
    refine ⟨_, diagonal_alloc_eq v D n hv hD, h1, h2, ?_⟩
    intro i j hi1 hi2 hj1 hj2
    rw [h3 i j hi1 hi2 hj1 hj2]
    simp [BaseArray.get, hv, offset]

theorem diagonal_alloc_spec_witness :
    Failed (diagonal_alloc exA23 exDest2) ∧ Failed (diagonal_alloc exV3 exDest) ∧
    ∃ res, diagonal_alloc exV3 exDest2 = Except.ok res ∧ res.dims = [3, 3] ∧ res.WF ∧
      ∀ i j, 1 ≤ i → i ≤ 3 → 1 ≤ j → j ≤ 3 →
        res.get [i, j] = if i = j then exV3.get [i] else 0 :=
  ⟨(diagonal_alloc_spec exA23 exDest2).1 (Or.inl (by decide)),
    (diagonal_alloc_spec exV3 exDest).1 (Or.inr (by decide)),
    (diagonal_alloc_spec exV3 exDest2).2 3 rfl rfl⟩

/-! ## Minimum and maximum -/

/-- The positions found by the scan of `std::minmax_element` over the first `m + 1`
elements lie among them and address a smallest and a largest element. -/
theorem minmax_scan_spec [Inhabited T] [LinearOrder T] (src : List T) :
    ∀ m : Nat,
      ((List.range' 1 m).foldl
          (fun r i =>
            (if readAt src i < readAt src r.1 then i else r.1,
             if readAt src i < readAt src r.2 then r.2 else i))
          ((0, 0) : Nat × Nat)).1 < m + 1 ∧
      ((List.range' 1 m).foldl
          (fun r i =>
            (if readAt src i < readAt src r.1 then i else r.1,
             if readAt src i < readAt src r.2 then r.2 else i))
          ((0, 0) : Nat × Nat)).2 < m + 1 ∧
      ∀ k, k < m + 1 →
        readAt src ((List.range' 1 m).foldl
          (fun r i =>
            (if readAt src i < readAt src r.1 then i else r.1,
             if readAt src i < readAt src r.2 then r.2 else i))
          ((0, 0) : Nat × Nat)).1 ≤ readAt src k ∧
        readAt src k ≤ readAt src ((List.range' 1 m).foldl
          (fun r i =>
            (if readAt src i < readAt src r.1 then i else r.1,
             if readAt src i < readAt src r.2 then r.2 else i))
          ((0, 0) : Nat × Nat)).2 := by
  intro m
  induction m with
  | zero =>
    refine ⟨by simp, by simp, ?_⟩
    intro k hk
    have : k = 0 := by omega
    subst this
    simp
  | succ m ih =>
    rw [List.range'_1_concat, List.foldl_append]
    generalize (List.range' 1 m).foldl
      (fun r i =>
        (if readAt src i < readAt src r.1 then i else r.1,
         if readAt src i < readAt src r.2 then r.2 else i))
      ((0, 0) : Nat × Nat) = r at ih ⊢
    obtain ⟨h1, h2, h3⟩ := ih
    simp only [List.foldl_cons, List.foldl_nil]
    refine ⟨?_, ?_, ?_⟩
    · split <;> omega
    · split <;> omega
    · intro k hk
      by_cases hkm : k < m + 1
      · obtain ⟨hlo, hhi⟩ := h3 k hkm
        constructor
        · split
          · next hlt => exact le_trans (le_of_lt hlt) hlo
          · exact hlo
        · split
          · exact hhi
          · next hnlt => exact le_trans hhi (not_lt.1 hnlt)
      · have hk2 : k = 1 + m := by omega
        subst hk2
        constructor
        · split
          · exact le_refl _
          · next hnlt => exact not_lt.1 hnlt
        · split
          · next hlt => exact le_of_lt hlt
          · exact le_refl _

theorem readAt_mem [Inhabited T] (l : List T) (i : Nat) (h : i < l.length) :
    readAt l i ∈ l := by
  unfold readAt
  rw [List.getD_eq_getElem l default h]
  exact List.getElem_mem _

/-- C18: for an array that holds one element per index, `min_max(x)` fails with an error
exactly when `x` has no elements; otherwise it returns a pair `(lo, hi)` of
elements of `x` with `lo <= e <= hi` for every element `e` of `x`. -/
theorem min_max_spec [Inhabited T] [LinearOrder T] (x : BaseArray T) (hx : x.WF) :
    (Failed (min_max x) ↔ x.getNumElems = 0) ∧
    (0 < x.getNumElems →
      ∃ lo hi, min_max x = Except.ok (lo, hi) ∧ lo ∈ x.data ∧ hi ∈ x.data ∧
        ∀ e ∈ x.data, lo ≤ e ∧ e ≤ hi) := by
  constructor
  · unfold min_max
    split_ifs with h
    · exact ⟨fun _ => by omega, fun _ => failed_error _⟩
    · exact ⟨fun hf => absurd hf (not_failed_ok _), fun h0 => by omega⟩
  · intro hpos
    obtain ⟨m, hm⟩ : ∃ m, x.getNumElems = m + 1 := ⟨x.getNumElems - 1, by omega⟩
    obtain ⟨h1, h2, h3⟩ := minmax_scan_spec x.data m
    have hlen : x.data.length = m + 1 := by rw [hx]; exact hm
    refine ⟨_, _, ?_, readAt_mem x.data _ (by rw [hlen]; exact h1),
      readAt_mem x.data _ (by rw [hlen]; exact h2), ?_⟩
    · unfold min_max std_minmax_element
      rw [if_neg (by omega), hm, Nat.add_sub_cancel]
    · intro e he
      obtain ⟨k, hk, rfl⟩ := List.getElem_of_mem he
      have := h3 k (by rw [← hlen]; exact hk)
      unfold readAt at this ⊢
      rw [List.getD_eq_getElem x.data default hk] at this
      exact this

theorem min_max_spec_witness :
    exA23.WF ∧ 0 < exA23.getNumElems ∧
    ∃ lo hi, min_max exA23 = Except.ok (lo, hi) ∧ lo ∈ exA23.data ∧ hi ∈ exA23.data ∧
      ∀ e ∈ exA23.data, lo ≤ e ∧ e ≤ hi :=
  ⟨by decide, by decide, (min_max_spec exA23 (by decide)).2 (by decide)⟩

/-! ## Cross product -/

/-- The storage of a well-formed vector of three elements. -/
theorem data_of_dims_three (r : BaseArray T) (hr : r.dims = [3]) (hw : r.WF) :
    ∃ u v w, r = ⟨[3], [u, v, w]⟩ := by
  cases r with
  | mk rd rdata =>
    simp only at hr
    subst hr
    simp only [BaseArray.WF, List.prod_cons, List.prod_nil, Nat.mul_one] at hw
    match rdata, hw with
    | [u, v, w], _ => exact ⟨u, v, w, rfl⟩

/-- The result of `cross_array` on vectors of three elements. -/
theorem cross_array_eq (a b r : BaseArray Int) (ha : a.dims = [3]) (hb : b.dims = [3])
    (hr : r.dims = [3]) (hw : r.WF) :
    cross_array a b r = ⟨[3],
      [readAt a.data 1 * readAt b.data 2 - readAt a.data 2 * readAt b.data 1,
       readAt a.data 2 * readAt b.data 0 - readAt a.data 0 * readAt b.data 2,
       readAt a.data 0 * readAt b.data 1 - readAt a.data 1 * readAt b.data 0]⟩ := by
  obtain ⟨u, v, w, rfl⟩ := data_of_dims_three r hr hw
  simp [cross_array, BaseArray.put, BaseArray.get, offset, writeAt, ha, hb]

/-- C25: for integer vectors `a` and `b` of three elements and destinations of three
elements, the result of `cross_array(a, b)` is orthogonal to both operands,
`dot_array(a, cross_array(a, b)) = 0` and `dot_array(b, cross_array(a, b)) = 0`,
and it is anticommutative:
`cross_array(a, b) = usub_array(cross_array(b, a))`. -/
theorem cross_array_orthogonal_anticommutative (a b r1 r2 d : BaseArray Int)
    (ha : a.dims = [3]) (hb : b.dims = [3]) (hr1 : r1.dims = [3]) (hw1 : r1.WF)
    (hr2 : r2.dims = [3]) (hw2 : r2.WF) :
    dot_array a (cross_array a b r1) = Except.ok 0 ∧
    dot_array b (cross_array a b r1) = Except.ok 0 ∧
    cross_array a b r1 = usub_array (cross_array b a r2) d := by
  rw [cross_array_eq a b r1 ha hb hr1 hw1, cross_array_eq b a r2 hb ha hr2 hw2]
  refine ⟨?_, ?_, ?_⟩
  · simp only [dot_array, BaseArray.getNumDims, ha, List.length_singleton, ne_eq,
      not_true_eq_false, or_self, if_false, std_inner_product, BaseArray.getNumElems,
      List.prod_cons, List.prod_nil, Nat.mul_one]
    congr 1
    simp [List.range_succ, readAt]
    ring
  · simp only [dot_array, BaseArray.getNumDims, hb, List.length_singleton, ne_eq,
      not_true_eq_false, or_self, if_false, std_inner_product, BaseArray.getNumElems,
      List.prod_cons, List.prod_nil, Nat.mul_one]
    congr 1
    simp [List.range_succ, readAt]
    ring
  · rw [usub_array_eq]
    simp [mapElems, BaseArray.getNumElems, List.range_succ, readAt]
    refine ⟨?_, ?_, ?_⟩ <;> ring

theorem cross_array_orthogonal_anticommutative_witness :
    exV3.dims = [3] ∧ exW3.dims = [3] ∧ exW3.WF ∧
    dot_array exV3 (cross_array exV3 exW3 exW3) = Except.ok 0 ∧
    dot_array exW3 (cross_array exV3 exW3 exW3) = Except.ok 0 ∧
    cross_array exV3 exW3 exW3 = usub_array (cross_array exW3 exV3 exV3) exDest :=
  ⟨rfl, rfl, by decide,
    cross_array_orthogonal_anticommutative exV3 exW3 exW3 exV3 exDest rfl rfl rfl (by decide)
      rfl (by decide)⟩

/-! ## Concatenation: the checks -/

theorem cat_array_check_ok (k : Nat) (x0 : BaseArray T) (hk : k ≤ x0.getNumDims) :
    ∀ (rest : List (BaseArray T)) (acc : Nat), (∀ xi ∈ rest, CatCompatible k x0 xi) →
      cat_array_check k x0 rest acc = Except.ok (acc + (rest.map (fun xi => xi.getDim k)).sum)
  | [], acc, _ => by simp [cat_array_check]
  | xi :: rest, acc, h => by
    have hc := h xi (List.mem_cons_self _ _)
    have h1 : ¬ x0.getNumDims ≠ xi.getNumDims := by rw [hc.1]; simp
    have h2 : ¬ (List.range' 1 (k - 1)).any (fun j => decide (x0.getDim j ≠ xi.getDim j))
        = true := by
      rw [List.any_eq_true]
      rintro ⟨j, hj, hne⟩
      have hj' := List.mem_range'_1.1 hj
      have := hc.2 j hj'.1 (by omega) (by omega)
      simp [this] at hne
    have h3 : ¬ (List.range' (k + 1) (x0.getNumDims - k)).any
        (fun j => decide (x0.getDim j ≠ xi.getDim j)) = true := by
      rw [List.any_eq_true]
      rintro ⟨j, hj, hne⟩
      have hj' := List.mem_range'_1.1 hj
      have := hc.2 j (by omega) (by omega) (by omega)
      simp [this] at hne
    rw [cat_array_check, if_neg h1, if_neg h2, if_neg h3,
      cat_array_check_ok k x0 hk rest _ (fun y hy => h y (List.mem_cons_of_mem _ hy))]
    simp [Nat.add_assoc]

theorem cat_array_check_failed (k : Nat) (hk1 : 1 ≤ k) (x0 : BaseArray T)
    (hk : k ≤ x0.getNumDims) :
    ∀ (rest : List (BaseArray T)) (acc : Nat), (∃ xi ∈ rest, ¬ CatCompatible k x0 xi) →
      Failed (cat_array_check k x0 rest acc)
  | [], _, h => by obtain ⟨_, h, _⟩ := h; cases h
  | xi :: rest, acc, h => by
    rw [cat_array_check]
    split_ifs with h1 h2 h3
    · exact failed_error _
    · exact failed_error _
    · exact failed_error _
    · apply cat_array_check_failed k hk1 x0 hk rest
      obtain ⟨y, hy, hbad⟩ := h
      rcases List.mem_cons.1 hy with rfl | hy
      · exfalso
        apply hbad
        refine ⟨(not_not.1 h1).symm, ?_⟩
        intro j hj1 hj2 hjk
        by_contra hne
        rcases Nat.lt_or_gt_of_ne hjk with hlt | hgt
        · apply h2
          rw [List.any_eq_true]
          exact ⟨j, List.mem_range'_1.2 ⟨hj1, by omega⟩, by simpa using fun e => hne e.symm⟩
        · apply h3
          rw [List.any_eq_true]
          exact ⟨j, List.mem_range'_1.2 ⟨by omega, by omega⟩,
            by simpa using fun e => hne e.symm⟩
      · exact ⟨y, hy, hbad⟩

/-- The result of `cat_array` on inputs that pass its checks. -/
theorem cat_array_ok_eq [Inhabited T] (k : Nat) (x0 : BaseArray T) (rest : List (BaseArray T))
    (a : BaseArray T) (hk2 : k ≤ x0.getNumDims) (hall : ∀ xi ∈ rest, CatCompatible k x0 xi) :
    cat_array k (x0 :: rest) a = Except.ok
      { dims := x0.dims.set (k - 1) (x0.getDim k + (rest.map (fun xi => xi.getDim k)).sum)
        data := (cat_array_copy k
          ((List.range' 1 (k - 1)).foldl (fun acc i => acc * x0.getDim i) 1)
          ((List.range' (k + 1) (x0.getNumDims - k)).foldl (fun acc i => acc * x0.getDim i) 1)
          (x0 :: rest)
          (a.setDims (x0.dims.set (k - 1)
            (x0.getDim k + (rest.map (fun xi => xi.getDim k)).sum))).data).1 } := by
  have hlen : ¬ (x0.dims.set (k - 1)
      (x0.getDim k + (rest.map (fun xi => xi.getDim k)).sum)).length < k := by
    rw [List.length_set]; exact not_lt.2 hk2
  rw [cat_array]
  simp only [if_neg (not_lt.2 hk2), cat_array_check_ok k x0 hk2 rest _ hall]
  rw [if_neg hlen]
  rfl

/-- C7: for `k >= 1`, `cat_array(k, x, a)` fails with an error exactly when the input
list is empty, or the first input has fewer than `k` dimensions, or some input
has another number of dimensions than the first or differs from it in the size
of a dimension other than `k`; a difference in the size of dimension `k` alone
never makes it fail. -/
theorem cat_array_fails_iff [Inhabited T] (k : Nat) (hk : 1 ≤ k) (x : List (BaseArray T))
    (a : BaseArray T) :
    Failed (cat_array k x a) ↔
      (x = [] ∨ ∃ x0 rest, x = x0 :: rest ∧
        (x0.getNumDims < k ∨ ∃ xi ∈ rest, ¬ CatCompatible k x0 xi)) := by
  cases x with
  | nil => simp only [cat_array, true_or, iff_true]; exact failed_error _
  | cons x0 rest =>
    simp only [List.cons_ne_nil, false_or, List.cons.injEq, exists_and_left]
    constructor
    · intro hf
      refine ⟨x0, rest, ⟨rfl, rfl⟩, ?_⟩
      by_contra hcon
      simp only [not_or, not_lt, not_exists, not_and, not_not] at hcon
      obtain ⟨hk2, hall⟩ := hcon
      rw [cat_array_ok_eq k x0 rest a hk2 hall] at hf
      exact not_failed_ok _ hf
    · rintro ⟨y0, rest', ⟨rfl, rfl⟩, h⟩
      rw [cat_array]
      by_cases hk2 : x0.getNumDims < k
      · rw [if_pos hk2]; exact failed_error _
      · rw [if_neg hk2]
        have hbad : ∃ xi ∈ rest, ¬ CatCompatible k x0 xi := by
          rcases h with h | h
          · exact absurd h hk2
          · exact h
        obtain ⟨e, he⟩ := cat_array_check_failed k hk x0 (not_lt.1 hk2) rest (x0.getDim k) hbad
        rw [he]
        exact failed_error _

theorem cat_array_fails_iff_witness :
    1 ≤ 1 ∧
    (Failed (cat_array 1 [exA23, exA32] exDest) ↔
      ([exA23, exA32] = [] ∨ ∃ x0 rest, [exA23, exA32] = x0 :: rest ∧
        (x0.getNumDims < 1 ∨ ∃ xi ∈ rest, ¬ CatCompatible 1 x0 xi))) :=
  ⟨by decide, cat_array_fails_iff 1 (by decide) [exA23, exA32] exDest⟩

/-! ## Concatenation: the block copies -/

/-- The block of `n` elements that `std::copy` reads from `src + first`. -/
theorem std_copy_eq [Inhabited T] (src : List T) (first : Nat) (out : List T) (j : Nat) :
    ∀ n, j + n ≤ out.length →
      std_copy src first n out j
        = out.take j ++ (List.range n).map (fun t => readAt src (first + t))
            ++ out.drop (j + n)
  | 0, _ => by simp [std_copy]
  | n + 1, h => by
    have ih := std_copy_eq src first out j n (by omega)
    unfold std_copy at ih ⊢
    rw [List.range_succ, List.foldl_append, ih]
    simp only [List.foldl_cons, List.foldl_nil, writeAt, List.map_append, List.map_cons,
      List.map_nil]
    have hlen : (List.take j out ++ List.map (fun t => readAt src (first + t)) (List.range n)).length
        = j + n := by
      simp only [List.length_append, List.length_take, List.length_map, List.length_range]
      omega
    rw [List.set_append, if_neg (by omega), hlen, Nat.sub_self,
      List.drop_eq_getElem_cons (show j + n < out.length by omega)]
    simp [Nat.add_assoc]

/-- A run of block copies that appends each block at the running position fills the
destination with the blocks in order. -/
theorem foldl_std_copy [Inhabited T] {ι : Type} (src : ι → List T) (first len : ι → Nat) :
    ∀ (L : List ι) (buf : List T) (j : Nat), j + (L.map len).sum ≤ buf.length →
      L.foldl (fun st t => (std_copy (src t) (first t) (len t) st.1 st.2, st.2 + len t)) (buf, j)
        = (buf.take j
            ++ L.flatMap (fun t => (List.range (len t)).map (fun u => readAt (src t) (first t + u)))
            ++ buf.drop (j + (L.map len).sum),
           j + (L.map len).sum)
  | [], buf, j, _ => by simp
  | t :: L, buf, j, h => by
    simp only [List.map_cons, List.sum_cons] at h
    rw [List.foldl_cons]
    simp only []
    rw [std_copy_eq _ _ _ _ _ (by omega)]
    rw [foldl_std_copy src first len L _ (j + len t) (by
      simp only [List.length_append, List.length_take, List.length_map, List.length_range,
        List.length_drop]
      omega)]
    have hlen : (List.take j buf ++ List.map (fun u => readAt (src t) (first t + u))
        (List.range (len t))).length = j + len t := by
      simp only [List.length_append, List.length_take, List.length_map, List.length_range]
      omega
    congr 1
    · rw [List.take_left' hlen, List.drop_append_eq_append_drop,
        List.drop_of_length_le (by rw [hlen]; omega), hlen, List.drop_drop]
      simp only [List.flatMap_cons, List.map_cons, List.sum_cons, List.nil_append,
        List.append_assoc]
      congr 4
      omega
    · simp only [List.map_cons, List.sum_cons]; omega

theorem sum_map_pairs {α : Type} (x : List α) (len : α → Nat) :
    ∀ l : List Nat,
      ((l.flatMap (fun i => x.map (fun xc => (i, xc)))).map (fun t => len t.2)).sum
        = l.length * (x.map len).sum
  | [] => by simp
  | i :: l => by
    simp only [List.flatMap_cons, List.map_append, List.sum_append, List.map_map,
      sum_map_pairs x len l, List.length_cons]
    have : (fun t : Nat × α => len t.2) ∘ (fun xc => (i, xc)) = len := rfl
    rw [this]
    ring

/-- The storage that the copy loop of `cat_array` leaves in a destination of the right
size: for every index of the sub structure, one block from every input. -/
theorem cat_array_copy_eq [Inhabited T] (k n_super n_sub : Nat) (x : List (BaseArray T))
    (buf : List T)
    (hbuf : buf.length = n_sub * (n_super * (x.map (fun xc => xc.getDim k)).sum)) :
    (cat_array_copy k n_super n_sub x buf).1
      = (List.range n_sub).flatMap (fun i => x.flatMap (fun xc =>
          (List.range (n_super * xc.getDim k)).map
            (fun u => readAt xc.data (i * (n_super * xc.getDim k) + u)))) := by
  have hsum : (((List.range n_sub).flatMap (fun i => x.map (fun xc => (i, xc)))).map
      (fun t => n_super * t.2.getDim k)).sum = buf.length := by
    rw [sum_map_pairs x (fun xc => n_super * xc.getDim k), List.length_range,
      List.sum_map_mul_left, hbuf]
  unfold cat_array_copy
  rw [foldl_nested_pairs (List.range n_sub) x
    (fun st i xc => (std_copy xc.data (i * (n_super * xc.getDim k)) (n_super * xc.getDim k)
      st.1 st.2, st.2 + n_super * xc.getDim k))]
  rw [foldl_std_copy (fun t : Nat × BaseArray T => t.2.data)
    (fun t => t.1 * (n_super * t.2.getDim k)) (fun t => n_super * t.2.getDim k) _ buf 0
    (by rw [hsum]; omega)]
  simp only [List.take_zero, List.nil_append, Nat.zero_add, hsum, List.drop_length,
    List.append_nil, List.flatMap_assoc, List.flatMap_map]

theorem sum_take_add_le {α : Type} (f : α → Nat) :
    ∀ (x : List α) (c : Nat) (hc : c < x.length),
      ((x.take c).map f).sum + f x[c] ≤ (x.map f).sum
  | [], _, hc => by simp at hc
  | a :: x, 0, _ => by simp
  | a :: x, c + 1, hc => by
    have := sum_take_add_le f x c (by simpa using hc)
    simp only [List.take_succ_cons, List.map_cons, List.sum_cons, List.getElem_cons_succ]
    omega

/-- The element of the concatenated storage in block `c` of the sub-structure index
`isub`, `t` places into the block. -/
theorem cat_blocks_getElem? [Inhabited T] (k n_super n_sub : Nat) (x : List (BaseArray T))
    (c : Nat) (hc : c < x.length) (isub t : Nat) (hi : isub < n_sub)
    (ht : t < n_super * x[c].getDim k) :
    ((List.range n_sub).flatMap (fun i => x.flatMap (fun xc =>
        (List.range (n_super * xc.getDim k)).map
          (fun u => readAt xc.data (i * (n_super * xc.getDim k) + u)))))[
      isub * (n_super * (x.map (fun xc => xc.getDim k)).sum)
        + (n_super * ((x.take c).map (fun xc => xc.getDim k)).sum + t)]?
      = some (readAt x[c].data (isub * (n_super * x[c].getDim k) + t)) := by
  have hlen : ∀ i ∈ List.range n_sub, (x.flatMap (fun xc =>
      (List.range (n_super * xc.getDim k)).map
        (fun u => readAt xc.data (i * (n_super * xc.getDim k) + u)))).length
      = n_super * (x.map (fun xc => xc.getDim k)).sum := by
    intro i _
    rw [List.length_flatMap, ← List.sum_map_mul_left]
    congr 1
    apply List.map_congr_left
    intro xc _
    simp
  have hle := sum_take_add_le (fun xc : BaseArray T => xc.getDim k) x c hc
  have hq : n_super * ((x.take c).map (fun xc => xc.getDim k)).sum + t
      < n_super * (x.map (fun xc => xc.getDim k)).sum := by
    calc n_super * ((x.take c).map (fun xc => xc.getDim k)).sum + t
        < n_super * ((x.take c).map (fun xc => xc.getDim k)).sum + n_super * x[c].getDim k :=
          by omega
      _ = n_super * (((x.take c).map (fun xc => xc.getDim k)).sum + x[c].getDim k) := by ring
      _ ≤ n_super * (x.map (fun xc => xc.getDim k)).sum := Nat.mul_le_mul_left _ hle
  have hi2 : isub < (List.range n_sub).length := by simpa using hi
  rw [flatMap_getElem?_uniform _ (List.range n_sub) _ hlen isub hi2 _ hq]
  have hpre : ((x.take c).map (fun xc => ((List.range (n_super * xc.getDim k)).map
      (fun u => readAt xc.data ((List.range n_sub)[isub]
        * (n_super * xc.getDim k) + u))).length)).sum
      = n_super * ((x.take c).map (fun xc => xc.getDim k)).sum := by
    rw [← List.sum_map_mul_left]
    congr 1
    apply List.map_congr_left
    intro xc _
    simp
  rw [← hpre, flatMap_getElem?_block _ x c hc t (by simpa using ht)]
  simp only [List.getElem_range, List.getElem?_map]
  rw [List.getElem?_range ht]
  rfl

/-! ## Concatenation: the result -/

theorem ValidIndex.split3 : ∀ (pre : List Nat) {d : Nat} {post idx : List Nat},
    ValidIndex (pre ++ [d] ++ post) idx →
    ∃ ipre ik ipost, idx = ipre ++ [ik] ++ ipost ∧ ValidIndex pre ipre ∧ 1 ≤ ik ∧ ik ≤ d ∧
      ValidIndex post ipost
  | [], _, _, [], h => absurd h (by simp [ValidIndex])
  | [], _, _, i :: idx, h => by
    simp only [List.nil_append, List.singleton_append, ValidIndex] at h
    exact ⟨[], i, idx, rfl, trivial, h.1, h.2.1, h.2.2⟩
  | _ :: _, _, _, [], h => absurd h (by simp [ValidIndex])
  | p :: pre, d, post, i :: idx, h => by
    simp only [List.cons_append, ValidIndex] at h
    have h2 : ValidIndex (pre ++ [d] ++ post) idx := by simpa using h.2.2
    obtain ⟨ipre, ik, ipost, rfl, hv1, hk1, hk2, hv2⟩ := ValidIndex.split3 pre h2
    exact ⟨i :: ipre, ik, ipost, rfl, ⟨h.1, h.2.1, hv1⟩, hk1, hk2, hv2⟩

/-- C6: for `k >= 1` and a non-empty list of inputs `x0 :: rest` that have the same
number of dimensions (at least `k`) and agree in every dimension other than `k`,
`cat_array(k, x, a)` succeeds; the result has the shape of the first input with
dimension `k` replaced by the sum of the inputs' `k`-sizes, holds one element
per index tuple, and the piece that starts at the sum of the `k`-sizes of the
inputs before `x_c` is `x_c`:
`a(i_1,..,off_c + i_k,..,i_n) = x_c(i_1,..,i_k,..,i_n)`. -/
theorem cat_array_split_recovers_inputs [Inhabited T] (k : Nat) (x0 : BaseArray T)
    (rest : List (BaseArray T)) (a : BaseArray T) (hk1 : 1 ≤ k) (hk : k ≤ x0.getNumDims)
    (hall : ∀ xi ∈ rest, CatCompatible k x0 xi) :
    ∃ res, cat_array k (x0 :: rest) a = Except.ok res ∧
      res.dims = x0.dims.set (k - 1) (((x0 :: rest).map (fun xi => xi.getDim k)).sum) ∧
      res.WF ∧
      ∀ (c : Nat) (hc : c < (x0 :: rest).length) (idx : List Nat),
        ValidIndex ((x0 :: rest)[c]).dims idx →
        res.get (idx.set (k - 1)
            (idx.getD (k - 1) 0 + (((x0 :: rest).take c).map (fun xi => xi.getDim k)).sum))
          = ((x0 :: rest)[c]).get idx := by
  have hallx : ∀ xi ∈ x0 :: rest, CatCompatible k x0 xi := by
    intro xi hxi
    rcases List.mem_cons.1 hxi with rfl | h
    · exact CatCompatible.refl k _
    · exact hall xi h
  have hk' : k ≤ x0.dims.length := hk
  -- the sizes of the super and sub structure
  have hns : (List.range' 1 (k - 1)).foldl (fun acc i => acc * x0.getDim i) 1
      = (x0.dims.take (k - 1)).prod := foldl_mul_leading x0.dims (k - 1) (by omega)
  have hnb : (List.range' (k + 1) (x0.getNumDims - k)).foldl (fun acc i => acc * x0.getDim i) 1
      = (x0.dims.drop k).prod := by
    have := foldl_mul_trailing x0.dims k (x0.dims.length - k) (by omega)
    rw [List.take_of_length_le (by rw [List.length_drop])] at this
    exact this
  have hK : x0.getDim k + (rest.map (fun xi => xi.getDim k)).sum
      = ((x0 :: rest).map (fun xi => xi.getDim k)).sum := by simp
  have hex : ∀ v, x0.dims.set (k - 1) v = x0.dims.take (k - 1) ++ [v] ++ x0.dims.drop k :=
    fun v => set_split x0.dims k v hk1 hk'
  have hbuf : (a.setDims (x0.dims.set (k - 1)
        (((x0 :: rest).map (fun xi => xi.getDim k)).sum))).data.length
      = (x0.dims.drop k).prod * ((x0.dims.take (k - 1)).prod
          * ((x0 :: rest).map (fun xi => xi.getDim k)).sum) := by
    rw [setDims_data_length, hex, List.prod_append, List.prod_append, List.prod_singleton]
    ring
  have e := cat_array_ok_eq k x0 rest a hk hall
  rw [hns, hnb, hK, cat_array_copy_eq k _ _ _ _ hbuf] at e
  refine ⟨_, e, rfl, ?_, ?_⟩
  · -- the storage holds one element per index tuple
    show List.length _ = List.prod _
    rw [hex, List.prod_append, List.prod_append, List.prod_singleton, List.length_flatMap]
    have : ∀ i ∈ List.range (x0.dims.drop k).prod,
        (List.length ∘ fun i => (x0 :: rest).flatMap (fun xc =>
          (List.range ((x0.dims.take (k - 1)).prod * xc.getDim k)).map
            (fun u => readAt xc.data (i * ((x0.dims.take (k - 1)).prod * xc.getDim k) + u)))) i
        = (x0.dims.take (k - 1)).prod * ((x0 :: rest).map (fun xi => xi.getDim k)).sum := by
      intro i _
      simp only [Function.comp, List.length_flatMap, List.length_map, List.length_range]
      rw [← List.sum_map_mul_left]
      congr 1
      apply List.map_congr_left
      intro xc _
      simp
    rw [List.map_congr_left this, List.map_const', List.sum_replicate, List.length_range]
    simp only [smul_eq_mul]
    ring
  · intro c hc idx hv
    have hcm : (x0 :: rest)[c] ∈ x0 :: rest := List.getElem_mem _
    have hdims := (hallx _ hcm).dims_eq hk1 hk
    rw [hdims] at hv
    obtain ⟨ipre, ik, ipost, rfl, hv1, hik1, hik2, hv2⟩ := ValidIndex.split3 _ hv
    have hl1 : ipre.length = k - 1 := by
      rw [hv1.length_eq, List.length_take]; omega
    have hset : ∀ v, (ipre ++ [ik] ++ ipost).set (k - 1) v = ipre ++ [v] ++ ipost := by
      intro v
      rw [List.append_assoc, List.set_append, if_neg (by omega), hl1, Nat.sub_self]
      simp
    have hgetD : (ipre ++ [ik] ++ ipost).getD (k - 1) 0 = ik := by
      rw [List.getD_eq_getElem?_getD, List.append_assoc,
        List.getElem?_append_right (by omega), hl1, Nat.sub_self]
      simp
    rw [hset, hgetD]
    have hl2 : ipre.length = (x0.dims.take (k - 1)).length := hv1.length_eq
    -- the storage offsets on both sides
    have hoff1 : ∀ (d v : Nat), offset (x0.dims.take (k - 1) ++ [d] ++ x0.dims.drop k)
        (ipre ++ [v] ++ ipost)
        = offset (x0.dims.take (k - 1)) ipre
          + (x0.dims.take (k - 1)).prod * ((v - 1) + d * offset (x0.dims.drop k) ipost) := by
      intro d v
      rw [List.append_assoc, List.append_assoc, offset_append _ _ hl2]
      rfl
    unfold BaseArray.get
    rw [hdims, hoff1]
    show readAt _ (offset (x0.dims.set (k - 1) _) _) = _
    rw [hex, hoff1]
    have hlt1 := offset_lt hv1
    have hlt2 := offset_lt hv2
    obtain ⟨ik', rfl⟩ : ∃ ik', ik = ik' + 1 := ⟨ik - 1, by omega⟩
    have hpos : offset (x0.dims.take (k - 1)) ipre
          + (x0.dims.take (k - 1)).prod *
            ((ik' + 1 + (((x0 :: rest).take c).map (fun xi => xi.getDim k)).sum - 1)
              + ((x0 :: rest).map (fun xi => xi.getDim k)).sum * offset (x0.dims.drop k) ipost)
        = offset (x0.dims.drop k) ipost
            * ((x0.dims.take (k - 1)).prod * ((x0 :: rest).map (fun xi => xi.getDim k)).sum)
          + ((x0.dims.take (k - 1)).prod
              * (((x0 :: rest).take c).map (fun xi => xi.getDim k)).sum
            + (offset (x0.dims.take (k - 1)) ipre + (x0.dims.take (k - 1)).prod * ik')) := by
      have : ik' + 1 + (((x0 :: rest).take c).map (fun xi => xi.getDim k)).sum - 1
          = ik' + (((x0 :: rest).take c).map (fun xi => xi.getDim k)).sum := by omega
      rw [this]; ring
    have hsrc : offset (x0.dims.take (k - 1)) ipre
          + (x0.dims.take (k - 1)).prod *
            ((ik' + 1 - 1) + (x0 :: rest)[c].getDim k * offset (x0.dims.drop k) ipost)
        = offset (x0.dims.drop k) ipost
            * ((x0.dims.take (k - 1)).prod * (x0 :: rest)[c].getDim k)
          + (offset (x0.dims.take (k - 1)) ipre + (x0.dims.take (k - 1)).prod * ik') := by
      rw [Nat.add_sub_cancel]; ring
    have ht : offset (x0.dims.take (k - 1)) ipre + (x0.dims.take (k - 1)).prod * ik'
        < (x0.dims.take (k - 1)).prod * (x0 :: rest)[c].getDim k := by
      calc offset (x0.dims.take (k - 1)) ipre + (x0.dims.take (k - 1)).prod * ik'
          < (x0.dims.take (k - 1)).prod + (x0.dims.take (k - 1)).prod * ik' := by omega
        _ = (x0.dims.take (k - 1)).prod * (ik' + 1) := by ring
        _ ≤ _ := Nat.mul_le_mul_left _ hik2
    rw [hpos, hsrc]
    conv_lhs => rw [readAt, List.getD_eq_getElem?_getD,
      cat_blocks_getElem? k _ _ (x0 :: rest) c hc _ _ hlt2 ht]
    rfl

theorem cat_array_split_recovers_inputs_witness :
    1 ≤ 2 ∧ 2 ≤ exA23.getNumDims ∧
    ∃ res, cat_array 2 (exA23 :: [exA21]) exDest = Except.ok res ∧
      res.dims = exA23.dims.set (2 - 1) (((exA23 :: [exA21]).map (fun xi => xi.getDim 2)).sum) ∧
      res.WF ∧
      ∀ (c : Nat) (hc : c < (exA23 :: [exA21]).length) (idx : List Nat),
        ValidIndex ((exA23 :: [exA21])[c]).dims idx →
        res.get (idx.set (2 - 1)
            (idx.getD (2 - 1) 0 + (((exA23 :: [exA21]).take c).map (fun xi => xi.getDim 2)).sum))
          = ((exA23 :: [exA21])[c]).get idx :=
  ⟨by decide, by decide,
    cat_array_split_recovers_inputs 2 exA23 [exA21] exDest (by decide) (by decide) (by
      intro xi hxi
      rw [List.mem_singleton] at hxi
      subst hxi
      refine ⟨rfl, ?_⟩
      intro j h1 h2 h3
      have h4 : j ≤ 2 := h2
      have : j = 1 := by omega
      subst this
      rfl)⟩

/-! ## Dimension promotion -/

theorem foldl_push_one {α : Type} :
    ∀ (l : List α) (ds : List Nat),
      l.foldl (fun ex _ => ex ++ [1]) ds = ds ++ List.replicate l.length 1
  | [], ds => by simp
  | _ :: l, ds => by
    rw [List.foldl_cons, foldl_push_one l, List.length_cons, List.replicate_succ]
    simp

theorem map_readAt_range [Inhabited T] (l : List T) :
    (List.range l.length).map (fun t => readAt l t) = l := by
  apply List.ext_getElem
  · simp
  · intro i h1 h2
    simp only [List.getElem_map, List.getElem_range, readAt]
    exact List.getD_eq_getElem l default h2

/-- C17: for an array `s` with dims `(d_1..d_r)` that holds one element per index,
`promote_array(n, s, d)` gives `d` the dims `(d_1..d_r)` followed by
`max(0, n - r)` dimensions of size 1 and the elements of `s` in the same
storage order; the number of elements is unchanged, and for `n <= r` the result
has exactly the shape of `s`. -/
theorem promote_array_result [Inhabited T] (n : Nat) (s d : BaseArray T) (hs : s.WF) :
    (promote_array n s d).dims = s.dims ++ List.replicate (n - s.getNumDims) 1 ∧
    (promote_array n s d).data = s.data ∧
    (promote_array n s d).getNumElems = s.getNumElems ∧
    (promote_array n s d).WF ∧
    (n ≤ s.getNumDims → (promote_array n s d).dims = s.dims) := by
  have hprod : (s.dims ++ List.replicate (n - s.dims.length) 1).prod = s.dims.prod := by
    simp
  have e : promote_array n s d
      = ⟨s.dims ++ List.replicate (n - s.dims.length) 1, s.data⟩ := by
    unfold promote_array BaseArray.assign
    simp only [foldl_push_one, List.length_range']
    have hlen : (d.setDims (s.dims ++ List.replicate (n - s.dims.length) 1)).data.length
        = 0 + (d.setDims (s.dims ++ List.replicate (n - s.dims.length) 1)).getNumElems :=
      by rw [Nat.zero_add]; exact setDims_data_length _ _
    rw [std_copy_eq _ _ _ _ _ (le_of_eq hlen.symm), ← hlen]
    simp only [List.take_zero, List.nil_append, List.drop_length, List.append_nil,
      Nat.zero_add]
    have hn : (d.setDims (s.dims ++ List.replicate (n - s.dims.length) 1)).getNumElems
        = s.data.length := by
      rw [hs]; exact hprod
    rw [hn, map_readAt_range]
    rfl
  rw [e]
  refine ⟨rfl, rfl, hprod, ?_, ?_⟩
  · show s.data.length = _
    rw [hprod]; exact hs
  · intro hle
    have : n - s.dims.length = 0 := Nat.sub_eq_zero_of_le hle
    simp [this]

theorem promote_array_result_witness :
    exA23.WF ∧
    (promote_array 4 exA23 exDest).dims = exA23.dims ++ List.replicate (4 - exA23.getNumDims) 1 ∧
    (promote_array 4 exA23 exDest).data = exA23.data ∧
    (promote_array 4 exA23 exDest).getNumElems = exA23.getNumElems ∧
    (promote_array 4 exA23 exDest).WF ∧
    (4 ≤ exA23.getNumDims → (promote_array 4 exA23 exDest).dims = exA23.dims) :=
  ⟨by decide, promote_array_result 4 exA23 exDest (by decide)⟩

/-! ## Concatenation: the block copies stay inside the storage -/

theorem foldl_record_blocks {ι : Type} (src : ι → List T) (first len : ι → Nat) :
    ∀ (L : List ι) (B : List (CopyBlock T)) (j : Nat),
      L.foldl
          (fun st t =>
            (st.1 ++ [{ src := src t, first := first t, len := len t, dst := st.2 }],
              st.2 + len t))
          (B, j)
        = (B ++ blocksFrom src first len L j, j + (L.map len).sum)
  | [], B, j => by simp [blocksFrom]
  | t :: L, B, j => by
    rw [List.foldl_cons, foldl_record_blocks src first len L]
    simp [blocksFrom, Nat.add_assoc]

/-- Executing the recorded blocks is the run of the copies. -/
theorem runBlocks_blocksFrom [Inhabited T] {ι : Type} (src : ι → List T)
    (first len : ι → Nat) :
    ∀ (L : List ι) (buf : List T) (j : Nat),
      runBlocks (blocksFrom src first len L j) buf
        = (L.foldl (fun st t => (std_copy (src t) (first t) (len t) st.1 st.2, st.2 + len t))
            (buf, j)).1
  | [], _, _ => rfl
  | t :: L, buf, j => by
    rw [List.foldl_cons]
    simp only [blocksFrom, runBlocks, List.foldl_cons]
    exact runBlocks_blocksFrom src first len L _ _

theorem tiles_blocksFrom {ι : Type} (src : ι → List T) (first len : ι → Nat) :
    ∀ (L : List ι) (j : Nat),
      Tiles ((blocksFrom src first len L j).map (fun blk => (blk.dst, blk.len))) j
        (j + (L.map len).sum)
  | [], j => by simp [blocksFrom, Tiles]
  | t :: L, j => by
    simp only [blocksFrom, List.map_cons, Tiles, List.sum_cons, true_and]
    rw [← Nat.add_assoc]
    exact tiles_blocksFrom src first len L (j + len t)

theorem mem_blocksFrom {ι : Type} (src : ι → List T) (first len : ι → Nat) :
    ∀ (L : List ι) (j : Nat) (blk : CopyBlock T), blk ∈ blocksFrom src first len L j →
      ∃ t ∈ L, blk.src = src t ∧ blk.first = first t ∧ blk.len = len t
  | [], _, _, h => by simp [blocksFrom] at h
  | t :: L, j, blk, h => by
    simp only [blocksFrom, List.mem_cons] at h
    rcases h with rfl | h
    · exact ⟨t, List.mem_cons_self _ _, rfl, rfl, rfl⟩
    · obtain ⟨u, hu, h1⟩ := mem_blocksFrom src first len L _ blk h
      exact ⟨u, List.mem_cons_of_mem _ hu, h1⟩

/-- Ranges that tile the positions from `start` to `stop` lie inside them. -/
theorem Tiles.range_le : ∀ {rs : List (Nat × Nat)} {start stop : Nat}, Tiles rs start stop →
    start ≤ stop ∧ ∀ r ∈ rs, start ≤ r.1 ∧ r.1 + r.2 ≤ stop
  | [], _, _, h => by
    simp only [Tiles] at h
    exact ⟨by omega, fun r hr => by cases hr⟩
  | r :: rs, start, stop, h => by
    simp only [Tiles] at h
    obtain ⟨h1, h2⟩ := Tiles.range_le h.2
    refine ⟨by omega, ?_⟩
    intro r' hr'
    rcases List.mem_cons.1 hr' with rfl | hr'
    · have := h.1
      omega
    · have := h2 r' hr'
      omega

/-- Ranges that tile the positions from `start` to `stop` are disjoint and cover them:
every position belongs to exactly one range. -/
theorem Tiles.exists_unique : ∀ {rs : List (Nat × Nat)} {start stop : Nat},
    Tiles rs start stop → ∀ p, start ≤ p → p < stop →
      ∃ i : Nat, (∃ r : Nat × Nat, rs[i]? = some r ∧ r.1 ≤ p ∧ p < r.1 + r.2) ∧
        ∀ i2 : Nat, (∃ r : Nat × Nat, rs[i2]? = some r ∧ r.1 ≤ p ∧ p < r.1 + r.2) → i2 = i
  | [], start, stop, h, p, h1, h2 => by
    simp only [Tiles] at h
    omega
  | r :: rs, start, stop, h, p, h1, h2 => by
    simp only [Tiles] at h
    obtain ⟨hr, ht⟩ := h
    by_cases hp : p < start + r.2
    · refine ⟨0, ⟨r, List.getElem?_cons_zero, by omega, by omega⟩, ?_⟩
      intro i2 hi2
      cases i2 with
      | zero => rfl
      | succ i2 =>
        obtain ⟨r2, hr2, h3, h4⟩ := hi2
        simp only [List.getElem?_cons_succ] at hr2
        have := (Tiles.range_le ht).2 r2 (List.getElem?_mem hr2)
        omega
    · obtain ⟨i, ⟨r1, hr1, h3, h4⟩, huniq⟩ :=
        Tiles.exists_unique ht p (by omega) h2
      refine ⟨i + 1, ⟨r1, by simpa using hr1, h3, h4⟩, ?_⟩
      intro i2 hi2
      cases i2 with
      | zero =>
        obtain ⟨r2, hr2, h5, h6⟩ := hi2
        simp only [List.getElem?_cons_zero, Option.some.injEq] at hr2
        subst hr2
        omega
      | succ i2 =>
        obtain ⟨r2, hr2, h5, h6⟩ := hi2
        simp only [List.getElem?_cons_succ] at hr2
        rw [huniq i2 ⟨r2, hr2, h5, h6⟩]

/-- The blocks recorded by the copy loop, as the blocks of the pairs of a
sub-structure index and an input. -/
theorem cat_array_blocks_eq (k n_super n_sub : Nat) (x : List (BaseArray T)) :
    cat_array_blocks k n_super n_sub x
      = (blocksFrom (fun t : Nat × BaseArray T => t.2.data)
            (fun t => t.1 * (n_super * t.2.getDim k)) (fun t => n_super * t.2.getDim k)
            ((List.range n_sub).flatMap (fun i => x.map (fun xc => (i, xc)))) 0,
          n_sub * (n_super * (x.map (fun xc => xc.getDim k)).sum)) := by
  unfold cat_array_blocks
  rw [foldl_nested_pairs (List.range n_sub) x
    (fun (st : List (CopyBlock T) × Nat) i xc =>
      (st.1 ++ [CopyBlock.mk xc.data (i * (n_super * xc.getDim k))
                  (n_super * xc.getDim k) st.2],
        st.2 + n_super * xc.getDim k))]
  rw [foldl_record_blocks (fun t : Nat × BaseArray T => t.2.data)
    (fun t => t.1 * (n_super * t.2.getDim k)) (fun t => n_super * t.2.getDim k)]
  rw [sum_map_pairs x (fun xc => n_super * xc.getDim k), List.length_range,
    List.sum_map_mul_left]
  simp

/-- The copy loop executes the recorded blocks. -/
theorem cat_array_copy_eq_runBlocks [Inhabited T] (k n_super n_sub : Nat)
    (x : List (BaseArray T)) (buf : List T) :
    (cat_array_copy k n_super n_sub x buf).1
      = runBlocks (cat_array_blocks k n_super n_sub x).1 buf := by
  rw [cat_array_blocks_eq, runBlocks_blocksFrom]
  unfold cat_array_copy
  rw [foldl_nested_pairs (List.range n_sub) x
    (fun st i xc => (std_copy xc.data (i * (n_super * xc.getDim k)) (n_super * xc.getDim k)
      st.1 st.2, st.2 + n_super * xc.getDim k))]

theorem std_copy_length [Inhabited T] (src : List T) (first n : Nat) (out : List T) (j : Nat) :
    (std_copy src first n out j).length = out.length := by
  unfold std_copy
  induction n with
  | zero => rfl
  | succ n ih =>
    rw [List.range_succ, List.foldl_append]
    simp only [List.foldl_cons, List.foldl_nil, writeAt, List.length_set]
    exact ih

theorem runBlocks_length [Inhabited T] (blocks : List (CopyBlock T)) :
    ∀ out : List T, (runBlocks blocks out).length = out.length := by
  induction blocks with
  | nil => intro out; rfl
  | cons blk blocks ih =>
    intro out
    show (runBlocks blocks _).length = _
    rw [ih, std_copy_length]

/-- The element count of an input that is compatible with the first input. -/
theorem CatCompatible.numElems {k : Nat} {x0 xi : BaseArray T} (h : CatCompatible k x0 xi)
    (hk1 : 1 ≤ k) (hk : k ≤ x0.getNumDims) :
    xi.getNumElems = (x0.dims.drop k).prod * ((x0.dims.take (k - 1)).prod * xi.getDim k) := by
  unfold BaseArray.getNumElems
  rw [h.dims_eq hk1 hk, List.prod_append, List.prod_append, List.prod_singleton]
  ring

/-- C22: for `1 <= k <= rank` and inputs that pass the checks of `cat_array`, the call
succeeds and its result is the run of the recorded block copies on the resized
destination; every block copy reads inside the data of an input and writes
inside the data of the destination; the written ranges lie one after the other
from position 0 to the end of the destination, so that every position of the
destination is written by exactly one block; and the element count of the
destination is the sum of the element counts of the inputs. -/
theorem cat_array_block_copies_safe [Inhabited T] (k : Nat) (x0 : BaseArray T)
    (rest : List (BaseArray T)) (a : BaseArray T) (hk1 : 1 ≤ k) (hk : k ≤ x0.getNumDims)
    (hall : ∀ xi ∈ rest, CatCompatible k x0 xi) (hwf : ∀ xi ∈ x0 :: rest, xi.WF) :
    ∃ res, cat_array k (x0 :: rest) a = Except.ok res ∧
      res.data = runBlocks (cat_array_trace k (x0 :: rest)) (a.setDims res.dims).data ∧
      res.data.length = (a.setDims res.dims).data.length ∧
      (∀ blk ∈ cat_array_trace k (x0 :: rest),
        (∃ xc ∈ x0 :: rest, blk.src = xc.data) ∧
          blk.first + blk.len ≤ blk.src.length ∧
          blk.dst + blk.len ≤ (a.setDims res.dims).data.length) ∧
      Tiles ((cat_array_trace k (x0 :: rest)).map (fun blk => (blk.dst, blk.len))) 0
        res.data.length ∧
      (∀ p, p < res.data.length →
        ∃ i : Nat,
          (∃ blk : CopyBlock T, (cat_array_trace k (x0 :: rest))[i]? = some blk ∧
            blk.dst ≤ p ∧ p < blk.dst + blk.len) ∧
          ∀ i2 : Nat,
            (∃ blk : CopyBlock T, (cat_array_trace k (x0 :: rest))[i2]? = some blk ∧
              blk.dst ≤ p ∧ p < blk.dst + blk.len) → i2 = i) ∧
      res.WF ∧
      res.getNumElems = ((x0 :: rest).map (fun xi => xi.getNumElems)).sum := by
  have hallx : ∀ xi ∈ x0 :: rest, CatCompatible k x0 xi := by
    intro xi hxi
    rcases List.mem_cons.1 hxi with rfl | h
    · exact CatCompatible.refl k _
    · exact hall xi h
  have hk' : k ≤ x0.dims.length := hk
  have hns : (List.range' 1 (k - 1)).foldl (fun acc i => acc * x0.getDim i) 1
      = (x0.dims.take (k - 1)).prod := foldl_mul_leading x0.dims (k - 1) (by omega)
  have hnb : (List.range' (k + 1) (x0.getNumDims - k)).foldl (fun acc i => acc * x0.getDim i) 1
      = (x0.dims.drop k).prod := by
    have := foldl_mul_trailing x0.dims k (x0.dims.length - k) (by omega)
    rw [List.take_of_length_le (by rw [List.length_drop])] at this
    exact this
  have hK : x0.getDim k + (rest.map (fun xi => xi.getDim k)).sum
      = ((x0 :: rest).map (fun xi => xi.getDim k)).sum := by simp
  have hex : ∀ v, x0.dims.set (k - 1) v = x0.dims.take (k - 1) ++ [v] ++ x0.dims.drop k :=
    fun v => set_split x0.dims k v hk1 hk'
  have hbuf : (a.setDims (x0.dims.set (k - 1)
        (((x0 :: rest).map (fun xi => xi.getDim k)).sum))).data.length
      = (x0.dims.drop k).prod * ((x0.dims.take (k - 1)).prod
          * ((x0 :: rest).map (fun xi => xi.getDim k)).sum) := by
    rw [setDims_data_length, hex, List.prod_append, List.prod_append, List.prod_singleton]
    ring
  have htr : cat_array_trace k (x0 :: rest)
      = blocksFrom (fun t : Nat × BaseArray T => t.2.data)
          (fun t => t.1 * ((x0.dims.take (k - 1)).prod * t.2.getDim k))
          (fun t => (x0.dims.take (k - 1)).prod * t.2.getDim k)
          ((List.range (x0.dims.drop k).prod).flatMap
            (fun i => (x0 :: rest).map (fun xc => (i, xc)))) 0 := by
    show (cat_array_blocks k _ _ (x0 :: rest)).1 = _
    rw [hns, hnb, cat_array_blocks_eq]
  have hsum : (((List.range (x0.dims.drop k).prod).flatMap
        (fun i => (x0 :: rest).map (fun xc => (i, xc)))).map
        (fun t => (x0.dims.take (k - 1)).prod * t.2.getDim k)).sum
      = (x0.dims.drop k).prod * ((x0.dims.take (k - 1)).prod
          * ((x0 :: rest).map (fun xi => xi.getDim k)).sum) := by
    rw [sum_map_pairs (x0 :: rest) (fun xc => (x0.dims.take (k - 1)).prod * xc.getDim k),
      List.length_range, List.sum_map_mul_left]
  have htiles := tiles_blocksFrom (fun t : Nat × BaseArray T => t.2.data)
    (fun t => t.1 * ((x0.dims.take (k - 1)).prod * t.2.getDim k))
    (fun t => (x0.dims.take (k - 1)).prod * t.2.getDim k)
    ((List.range (x0.dims.drop k).prod).flatMap
      (fun i => (x0 :: rest).map (fun xc => (i, xc)))) 0
  rw [← htr, hsum, Nat.zero_add, ← hbuf] at htiles
  have e := cat_array_ok_eq k x0 rest a hk hall
  rw [hK, cat_array_copy_eq_runBlocks] at e
  have hlen : (runBlocks (cat_array_blocks k
        ((List.range' 1 (k - 1)).foldl (fun acc i => acc * x0.getDim i) 1)
        ((List.range' (k + 1) (x0.getNumDims - k)).foldl (fun acc i => acc * x0.getDim i) 1)
        (x0 :: rest)).1
      (a.setDims (x0.dims.set (k - 1)
        (((x0 :: rest).map (fun xi => xi.getDim k)).sum))).data).length
      = (a.setDims (x0.dims.set (k - 1)
        (((x0 :: rest).map (fun xi => xi.getDim k)).sum))).data.length := runBlocks_length _ _
  refine ⟨_, e, rfl, hlen, ?_, ?_, ?_, ?_, ?_⟩
  · -- every block reads inside an input and writes inside the destination
    intro blk hblk
    have hr := (Tiles.range_le htiles).2 (blk.dst, blk.len)
      (List.mem_map.2 ⟨blk, hblk, rfl⟩)
    rw [htr] at hblk
    obtain ⟨t, ht, h1, h2, h3⟩ := mem_blocksFrom _ _ _ _ _ blk hblk
    obtain ⟨i, hi, ht⟩ := List.mem_flatMap.1 ht
    obtain ⟨xc, hxc, rfl⟩ := List.mem_map.1 ht
    refine ⟨⟨xc, hxc, h1⟩, ?_, hr.2⟩
    rw [h1, h2, h3]
    have hw : xc.data.length = xc.getNumElems := hwf xc hxc
    rw [hw, (hallx xc hxc).numElems hk1 hk]
    have hi' : i + 1 ≤ (x0.dims.drop k).prod := List.mem_range.1 hi
    calc i * ((x0.dims.take (k - 1)).prod * xc.getDim k)
          + (x0.dims.take (k - 1)).prod * xc.getDim k
        = (i + 1) * ((x0.dims.take (k - 1)).prod * xc.getDim k) := by ring
      _ ≤ (x0.dims.drop k).prod * ((x0.dims.take (k - 1)).prod * xc.getDim k) :=
        Nat.mul_le_mul_right _ hi'
  · -- the written ranges tile the destination
    show Tiles _ 0 (List.length (runBlocks _ _))
    rw [hlen]
    exact htiles
  · -- every position is written by exactly one block
    intro p hp
    have hp' : p < (a.setDims (x0.dims.set (k - 1)
        (((x0 :: rest).map (fun xi => xi.getDim k)).sum))).data.length := by
      rw [← hlen]; exact hp
    obtain ⟨i, ⟨r, hr, h1, h2⟩, huniq⟩ := Tiles.exists_unique htiles p (Nat.zero_le _) hp'
    rw [List.getElem?_map] at hr
    obtain ⟨blk, hb, rfl⟩ := Option.map_eq_some'.1 hr
    refine ⟨i, ⟨blk, hb, h1, h2⟩, ?_⟩
    rintro i2 ⟨blk2, hb2, h3, h4⟩
    apply huniq i2
    exact ⟨(blk2.dst, blk2.len), by rw [List.getElem?_map, hb2]; rfl, h3, h4⟩
  · -- one element per index tuple
    show List.length (runBlocks _ _) = _
    rw [hlen]
    exact setDims_data_length _ _
  · -- the element counts add up
    show List.prod _ = _
    have : ∀ xi ∈ x0 :: rest, xi.getNumElems
        = (x0.dims.drop k).prod * ((x0.dims.take (k - 1)).prod * xi.getDim k) :=
      fun xi hxi => (hallx xi hxi).numElems hk1 hk
    rw [List.map_congr_left this, List.sum_map_mul_left, List.sum_map_mul_left, hex,
      List.prod_append, List.prod_append, List.prod_singleton]
    ring

theorem cat_array_block_copies_safe_witness :
    1 ≤ 1 ∧ 1 ≤ exA23.getNumDims ∧ (∀ xi ∈ [exA13], CatCompatible 1 exA23 xi) ∧
    (∀ xi ∈ exA23 :: [exA13], xi.WF) ∧
    ∃ res, cat_array 1 (exA23 :: [exA13]) exDest = Except.ok res ∧
      res.data = runBlocks (cat_array_trace 1 (exA23 :: [exA13])) (exDest.setDims res.dims).data ∧
      res.data.length = (exDest.setDims res.dims).data.length ∧
      (∀ blk ∈ cat_array_trace 1 (exA23 :: [exA13]),
        (∃ xc ∈ exA23 :: [exA13], blk.src = xc.data) ∧
          blk.first + blk.len ≤ blk.src.length ∧
          blk.dst + blk.len ≤ (exDest.setDims res.dims).data.length) ∧
      Tiles ((cat_array_trace 1 (exA23 :: [exA13])).map (fun blk => (blk.dst, blk.len))) 0
        res.data.length ∧
      (∀ p, p < res.data.length →
        ∃ i : Nat,
          (∃ blk : CopyBlock Int, (cat_array_trace 1 (exA23 :: [exA13]))[i]? = some blk ∧
            blk.dst ≤ p ∧ p < blk.dst + blk.len) ∧
          ∀ i2 : Nat,
            (∃ blk : CopyBlock Int, (cat_array_trace 1 (exA23 :: [exA13]))[i2]? = some blk ∧
              blk.dst ≤ p ∧ p < blk.dst + blk.len) → i2 = i) ∧
      res.WF ∧
      res.getNumElems = ((exA23 :: [exA13]).map (fun xi => xi.getNumElems)).sum :=
  have hc : ∀ xi ∈ [exA13], CatCompatible 1 exA23 xi := by
    intro xi hxi
    rw [List.mem_singleton] at hxi
    subst hxi
    refine ⟨rfl, ?_⟩
    intro j h1 h2 h3
    have h4 : j ≤ 2 := h2
    have : j = 2 := by omega
    subst this
    rfl
  have hw : ∀ xi ∈ exA23 :: [exA13], xi.WF := by
    intro xi hxi
    simp only [List.mem_cons, List.mem_singleton, List.not_mem_nil, or_false] at hxi
    rcases hxi with rfl | rfl <;> decide
  ⟨by decide, by decide, hc, hw,
    cat_array_block_copies_safe 1 exA23 [exA13] exDest (by decide) (by decide) hc hw⟩

/-! ## Transposition -/

/-- A slice vector of whole dimensions selects exactly the valid index tuples. -/
theorem mem_sliceIndices_all : ∀ (ds r : List Nat),
    r ∈ sliceIndices ds (List.replicate ds.length Slice.all) ↔ ValidIndex ds r
  | [], [] => by simp [sliceIndices, ValidIndex]
  | [], _ :: _ => by simp [sliceIndices, ValidIndex]
  | d :: ds, [] => by
    simp only [List.length_cons, List.replicate_succ, sliceIndices, List.mem_flatMap,
      List.mem_map, ValidIndex, iff_false]
    rintro ⟨_, _, _, _, h⟩
    cases h
  | d :: ds, i :: r => by
    simp only [List.length_cons, List.replicate_succ, sliceIndices, List.mem_flatMap,
      List.mem_map, List.mem_range'_1, List.cons.injEq, ValidIndex]
    constructor
    · rintro ⟨r', hr', i', hi', rfl, rfl⟩
      exact ⟨hi'.1, by omega, (mem_sliceIndices_all ds _).1 hr'⟩
    · rintro ⟨h1, h2, h3⟩
      exact ⟨r, (mem_sliceIndices_all ds r).2 h3, i, ⟨h1, by omega⟩, rfl, rfl⟩

/-- The loop of `transpose_array` as one sequence of element assignments
`a(j, i, r) = x(i, j, r)`. -/
theorem transpose_loop_eq [Inhabited T] (x a : BaseArray T) (d1 d2 : Nat) (ds : List Nat)
    (hx : x.dims = d1 :: d2 :: ds) (ha : a.dims = d2 :: d1 :: ds) :
    (List.range' 1 d1).foldl
        (fun a i => sliceAssign a ((List.replicate (ds.length + 2) Slice.all).set 1 (Slice.index i))
          x ((List.replicate (ds.length + 2) Slice.all).set 0 (Slice.index i))) a
      = ((List.range' 1 d1).flatMap (fun i =>
          ((sliceIndices ds (List.replicate ds.length Slice.all)).flatMap
            (fun r => (List.range' 1 d2).map (fun j => (j, r)))).map (fun t => (i, t)))).foldl
          (fun a q => a.put (q.2.1 :: q.1 :: q.2.2) (x.get (q.1 :: q.2.1 :: q.2.2))) a := by
  have hstep : ∀ (b : BaseArray T) (i : Nat), b.dims = d2 :: d1 :: ds →
      sliceAssign b ((List.replicate (ds.length + 2) Slice.all).set 1 (Slice.index i))
          x ((List.replicate (ds.length + 2) Slice.all).set 0 (Slice.index i))
        = ((sliceIndices ds (List.replicate ds.length Slice.all)).flatMap
            (fun r => (List.range' 1 d2).map (fun j => (j, r)))).foldl
          (fun b t => b.put (t.1 :: i :: t.2) (x.get (i :: t.1 :: t.2))) b := by
    intro b i hb
    unfold sliceAssign
    rw [hb, hx]
    simp only [List.replicate_succ, List.set_cons_zero, List.set_cons_succ, sliceIndices]
    have e1 : ((sliceIndices ds (List.replicate ds.length Slice.all)).map
          (fun r => i :: r)).flatMap (fun r => (List.range' 1 d2).map (fun j => j :: r))
        = ((sliceIndices ds (List.replicate ds.length Slice.all)).flatMap
            (fun r => (List.range' 1 d2).map (fun j => (j, r)))).map
          (fun t => t.1 :: i :: t.2) := by
      rw [List.flatMap_map, List.map_flatMap]
      simp only [List.map_map]
      rfl
    have e2 : ((sliceIndices ds (List.replicate ds.length Slice.all)).flatMap
          (fun r => (List.range' 1 d2).map (fun j => j :: r))).map (fun r => i :: r)
        = ((sliceIndices ds (List.replicate ds.length Slice.all)).flatMap
            (fun r => (List.range' 1 d2).map (fun j => (j, r)))).map
          (fun t => i :: t.1 :: t.2) := by
      rw [List.map_flatMap, List.map_flatMap]
      simp only [List.map_map]
      rfl
    rw [e1, e2, List.zip_map', List.foldl_map]
  have hinv : ∀ (l : List Nat) (b : BaseArray T), b.dims = d2 :: d1 :: ds →
      l.foldl
        (fun a i => sliceAssign a ((List.replicate (ds.length + 2) Slice.all).set 1 (Slice.index i))
          x ((List.replicate (ds.length + 2) Slice.all).set 0 (Slice.index i))) b
      = l.foldl (fun b i => ((sliceIndices ds (List.replicate ds.length Slice.all)).flatMap
            (fun r => (List.range' 1 d2).map (fun j => (j, r)))).foldl
          (fun b t => b.put (t.1 :: i :: t.2) (x.get (i :: t.1 :: t.2))) b) b := by
    intro l
    induction l with
    | nil => intro b _; rfl
    | cons i l ih =>
      intro b hb
      rw [List.foldl_cons, List.foldl_cons, hstep b i hb]
      apply ih
      rw [foldl_put_dims]; exact hb
  rw [hinv _ a ha, foldl_nested_pairs]

/-- The result of `transpose_array`: the first two dimensions are exchanged and
`a(j, i, r) = x(i, j, r)` at every valid index tuple. -/
theorem transpose_array_get [Inhabited T] (x a : BaseArray T) (d1 d2 : Nat) (ds : List Nat)
    (hx : x.dims = d1 :: d2 :: ds) (ha : a.getNumDims = x.getNumDims) :
    ∃ res, transpose_array x a = Except.ok res ∧ res.dims = d2 :: d1 :: ds ∧ res.WF ∧
      ∀ i j r, 1 ≤ i → i ≤ d1 → 1 ≤ j → j ≤ d2 → ValidIndex ds r →
        res.get (j :: i :: r) = x.get (i :: j :: r) := by
  have hn : x.getNumDims = ds.length + 2 := by simp [BaseArray.getNumDims, hx]
  have hcond : ¬ (x.getNumDims < 2 ∨ x.getNumDims ≠ a.getNumDims) := by
    rw [ha]; omega
  have hd1 : x.getDim 1 = d1 := by simp [BaseArray.getDim, hx]
  have e : transpose_array x a = Except.ok
      (((List.range' 1 d1).flatMap (fun i =>
          ((sliceIndices ds (List.replicate ds.length Slice.all)).flatMap
            (fun r => (List.range' 1 d2).map (fun j => (j, r)))).map (fun t => (i, t)))).foldl
          (fun a q => a.put (q.2.1 :: q.1 :: q.2.2) (x.get (q.1 :: q.2.1 :: q.2.2)))
          (a.setDims (swapFirstTwo x.dims))) := by
    unfold transpose_array
    simp only []
    rw [if_neg hcond]
    simp only [hn, hd1]
    rw [transpose_loop_eq x _ d1 d2 ds hx (by rw [setDims_dims, hx]; rfl)]
  refine ⟨_, e, ?_, ?_, ?_⟩
  · rw [foldl_put_dims, setDims_dims, hx]; rfl
  · exact foldl_put_WF _ _ _ _ (setDims_WF _ _)
  · intro i j r hi1 hi2 hj1 hj2 hr
    refine foldl_put_get _ (fun q : Nat × Nat × List Nat => q.2.1 :: q.1 :: q.2.2)
      (fun q => x.get (q.1 :: q.2.1 :: q.2.2)) _ (setDims_WF _ _) ?_ (i, j, r) ?_ ?_
    · intro q hq
      simp only [List.mem_flatMap, List.mem_map, List.mem_range'_1] at hq
      obtain ⟨i', hi', t, ⟨r', hr', j', hj', rfl⟩, rfl⟩ := hq
      rw [setDims_dims, hx]
      show ValidIndex (d2 :: d1 :: ds) (j' :: i' :: r')
      exact ⟨hj'.1, by omega, hi'.1, by omega, (mem_sliceIndices_all ds r').1 hr'⟩
    · simp only [List.mem_flatMap, List.mem_map, List.mem_range'_1]
      exact ⟨i, ⟨hi1, by omega⟩, (j, r),
        ⟨r, (mem_sliceIndices_all ds r).2 hr, j, ⟨hj1, by omega⟩, rfl⟩, rfl⟩
    · intro q _ hq
      obtain ⟨qi, qj, qr⟩ := q
      simp only [List.cons.injEq] at hq
      obtain ⟨rfl, rfl, rfl⟩ := hq
      rfl

/-- C4: for an array `x` with at least two dimensions, `transpose_array` applied to `x`
and then to the result, each time into a destination of the same number of
dimensions, succeeds both times and yields an array with the shape and the
elements of `x`. -/
theorem transpose_array_twice [Inhabited T] (x a a2 : BaseArray T) (hwf : x.WF)
    (h2 : 2 ≤ x.getNumDims) (ha : a.getNumDims = x.getNumDims)
    (ha2 : a2.getNumDims = x.getNumDims) :
    ∃ y, transpose_array x a = Except.ok y ∧ transpose_array y a2 = Except.ok x := by
  obtain ⟨d1, d2, ds, hx⟩ : ∃ d1 d2 ds, x.dims = d1 :: d2 :: ds := by
    unfold BaseArray.getNumDims at h2
    match hxd : x.dims, h2 with
    | d1 :: d2 :: ds, _ => exact ⟨d1, d2, ds, rfl⟩
    | [_], h => simp [hxd] at h
    | [], h => simp [hxd] at h
  obtain ⟨y, hy, hyd, hywf, hyget⟩ := transpose_array_get x a d1 d2 ds hx ha
  have hyn : y.getNumDims = x.getNumDims := by
    simp [BaseArray.getNumDims, hyd, hx]
  obtain ⟨z, hz, hzd, hzwf, hzget⟩ := transpose_array_get y a2 d2 d1 ds hyd (by rw [hyn, ha2])
  refine ⟨y, hy, ?_⟩
  rw [hz]
  congr 1
  apply BaseArray.ext_get z x hzwf hwf (by rw [hzd, hx])
  intro idx hidx
  rw [hzd] at hidx
  match idx, hidx with
  | i :: j :: r, hv =>
    simp only [ValidIndex] at hv
    rw [hzget j i r hv.2.2.1 hv.2.2.2.1 hv.1 hv.2.1 hv.2.2.2.2,
      hyget i j r hv.1 hv.2.1 hv.2.2.1 hv.2.2.2.1 hv.2.2.2.2]

theorem transpose_array_twice_witness :
    exA234.WF ∧ 2 ≤ exA234.getNumDims ∧
    ∃ y, transpose_array exA234 exDest3 = Except.ok y ∧
      transpose_array y exDest3 = Except.ok exA234 :=
  ⟨by decide, by decide, transpose_array_twice exA234 exDest3 exDest3 (by decide) (by decide)
    rfl rfl⟩

/-- C20: `transpose_array(x, a)` fails with an error exactly when `x` has fewer than two
dimensions or the destination `a` has another number of dimensions than `x`;
otherwise `a` gets the dimensions of `x` with the first two exchanged, holds
one element per index, and `a(j, i, r_3..r_n) = x(i, j, r_3..r_n)` at every
valid index, the trailing dimensions being carried along unchanged. -/
theorem transpose_array_spec [Inhabited T] (x a : BaseArray T) :
    (Failed (transpose_array x a) ↔ (x.getNumDims < 2 ∨ a.getNumDims ≠ x.getNumDims)) ∧
    (∀ d1 d2 ds, x.dims = d1 :: d2 :: ds → a.getNumDims = x.getNumDims →
      ∃ res, transpose_array x a = Except.ok res ∧ res.dims = d2 :: d1 :: ds ∧ res.WF ∧
        ∀ i j r, 1 ≤ i → i ≤ d1 → 1 ≤ j → j ≤ d2 → ValidIndex ds r →
          res.get (j :: i :: r) = x.get (i :: j :: r)) := by
  refine ⟨?_, fun d1 d2 ds hx ha => transpose_array_get x a d1 d2 ds hx ha⟩
  unfold transpose_array
  simp only []
  split_ifs with h
  · refine ⟨fun _ => ?_, fun _ => failed_error _⟩
    rcases h with h | h
    · exact Or.inl h
    · exact Or.inr (fun e => h e.symm)
  · refine ⟨fun hf => absurd hf (not_failed_ok _), fun hc => absurd ?_ h⟩
    rcases hc with hc | hc
    · exact Or.inl hc
    · exact Or.inr (fun e => hc e.symm)

theorem transpose_array_spec_witness :
    Failed (transpose_array exV3 exDest) ∧
    ∃ res, transpose_array exA23 exDest2 = Except.ok res ∧ res.dims = [3, 2] ∧ res.WF ∧
      ∀ i j r, 1 ≤ i → i ≤ 2 → 1 ≤ j → j ≤ 3 → ValidIndex [] r →
        res.get (j :: i :: r) = exA23.get (i :: j :: r) :=
  ⟨(transpose_array_spec exV3 exDest).1.2 (Or.inl (by decide)),
    (transpose_array_spec exA23 exDest2).2 2 3 [] rfl rfl⟩

/-! ## Layout conversion -/

theorem ValidIndex.reverse : ∀ {ds idx : List Nat}, ValidIndex ds idx →
    ValidIndex ds.reverse idx.reverse
  | [], [], _ => trivial
  | [], _ :: _, h => absurd h (by simp [ValidIndex])
  | _ :: _, [], h => absurd h (by simp [ValidIndex])
  | d :: ds, i :: idx, h => by
    simp only [ValidIndex] at h
    rw [List.reverse_cons, List.reverse_cons]
    exact ValidIndex.append (ValidIndex.reverse h.2.2) ⟨h.1, h.2.1, trivial⟩

/-- The dimension vector that `convertArrayLayout` builds for the destination is the
reversed dimension vector of the source. -/
theorem ddims_eq_reverse (sdims : List Nat) :
    (List.range' 1 sdims.length).foldl
        (fun ddims dim => ddims.set (sdims.length - dim) (sdims.getD (dim - 1) 0))
        (List.replicate sdims.length 0)
      = sdims.reverse := by
  have e : (List.range' 1 sdims.length).foldl
        (fun ddims dim => ddims.set (sdims.length - dim) (sdims.getD (dim - 1) 0))
        (List.replicate sdims.length 0)
      = scatter (List.replicate sdims.length 0)
          ((List.range' 1 sdims.length).map
            (fun dim => (sdims.length - dim, sdims.getD (dim - 1) 0))) := by
    unfold scatter writeAt
    rw [List.foldl_map]
  rw [e]
  apply List.ext_getElem
  · rw [scatter_length, List.length_replicate, List.length_reverse]
  · intro p h1 h2
    rw [List.length_reverse] at h2
    have hget : (scatter (List.replicate sdims.length 0)
          ((List.range' 1 sdims.length).map
            (fun dim => (sdims.length - dim, sdims.getD (dim - 1) 0))))[p]?
        = some (sdims.getD (sdims.length - p - 1) 0) := by
      apply scatter_getElem?_of_mem
      · rw [List.length_replicate]; exact h2
      · refine List.mem_map.2 ⟨sdims.length - p, List.mem_range'_1.2 ⟨by omega, by omega⟩, ?_⟩
        simp only [Prod.mk.injEq, and_true]
        omega
      · intro w hw hwp
        obtain ⟨dim, hdim, rfl⟩ := List.mem_map.1 hw
        have hd := List.mem_range'_1.1 hdim
        simp only at hwp ⊢
        congr 1
        omega
    rw [List.getElem?_eq_getElem h1, List.getD_eq_getElem sdims 0 (by omega)] at hget
    rw [List.getElem_reverse, Option.some.inj hget]
    congr 1
    omega

theorem IdxInv.step {n m : Nat} {pre sidx didx : List Nat} (h : IdxInv n m pre sidx didx)
    (hm : m < n) (i : Nat) :
    IdxInv n (m + 1) (pre ++ [i]) (sidx.set m i) (didx.set (n - (m + 1)) i) := by
  obtain ⟨h1, h2, h3, h4, h5⟩ := h
  refine ⟨by simp [h1], by simp [h2], ?_, ?_, by simp [h5]⟩
  · rw [List.set_eq_take_cons_drop i (by omega), List.take_append_eq_append_take,
      List.take_take, List.length_take]
    have e1 : min (m + 1) m = m := by omega
    have e2 : m + 1 - min m sidx.length = 1 := by omega
    rw [e1, e2, h3]
    rfl
  · have e : n - m = n - (m + 1) + 1 := by omega
    rw [e] at h4
    rw [List.drop_set, if_neg (by omega), Nat.sub_self,
      List.drop_eq_getElem_cons (show n - (m + 1) < didx.length by omega), h4]
    simp

theorem IdxInv.back {n m : Nat} {pre sidx didx : List Nat} {i : Nat}
    (h : IdxInv n (m + 1) (pre ++ [i]) sidx didx) (hm : m < n) :
    IdxInv n m pre sidx didx := by
  obtain ⟨h1, h2, h3, h4, h5⟩ := h
  have h5' : pre.length = m := by simpa using h5
  refine ⟨h1, h2, ?_, ?_, h5'⟩
  · have : sidx.take m = (sidx.take (m + 1)).take m := by
      rw [List.take_take]; congr 1; omega
    rw [this, h3, List.take_append_of_le_length (by omega), List.take_of_length_le (by omega)]
  · have : didx.drop (n - m) = (didx.drop (n - (m + 1))).drop 1 := by
      rw [List.drop_drop]; congr 1; omega
    rw [this, h4]
    simp

theorem IdxInv.full {n : Nat} {pre sidx didx : List Nat} (h : IdxInv n n pre sidx didx) :
    sidx = pre ∧ didx = pre.reverse := by
  obtain ⟨h1, h2, h3, h4, _⟩ := h
  rw [List.take_of_length_le (by omega)] at h3
  rw [Nat.sub_self, List.drop_zero] at h4
  exact ⟨h3, h4⟩

/-- The recursion of `convertArrayDim` with the first `m` source indices fixed to `pre`
performs the assignments `d(reverse t) = s(t)` for the index tuples `t` that
extend `pre` by a valid index tuple of the remaining dimensions, and restores
the fixed part of the index vectors. -/
theorem convertArrayDim_spec {S : Type} [Inhabited S] (cast : S → T) (s : BaseArray S) :
    ∀ (depth m : Nat) (pre sidx : List Nat) (d : BaseArray T) (didx : List Nat),
      depth + m = s.dims.length → 1 ≤ depth → IdxInv s.dims.length m pre sidx didx →
      ∃ (L : List (List Nat)) (sidx2 didx2 : List Nat),
        convertArrayDim cast depth (m + 1) s sidx d didx
          = (sidx2, L.foldl (fun a t => a.put t.reverse (cast (s.get t))) d, didx2) ∧
        IdxInv s.dims.length m pre sidx2 didx2 ∧
        ∀ t, t ∈ L ↔ ∃ c, ValidIndex (s.dims.drop m) c ∧ t = pre ++ c := by
  intro depth
  induction depth with
  | zero => intro m pre sidx d didx _ h; omega
  | succ depth ih =>
    intro m pre sidx d didx hsum _ hinv
    have hm : m < s.dims.length := by omega
    -- one pass of the loop body
    have hbody : ∀ (i : Nat) (sidx1 : List Nat) (d1 : BaseArray T) (didx1 : List Nat),
        IdxInv s.dims.length m pre sidx1 didx1 →
        ∃ (L : List (List Nat)) (sidx2 didx2 : List Nat),
          (if m + 1 < (sidx1.set m i).length then
              convertArrayDim cast depth (m + 1 + 1) s (sidx1.set m i) d1
                (didx1.set (s.dims.length - (m + 1)) i)
            else
              (sidx1.set m i,
                d1.put (didx1.set (s.dims.length - (m + 1)) i) (cast (s.get (sidx1.set m i))),
                didx1.set (s.dims.length - (m + 1)) i))
            = (sidx2, L.foldl (fun a t => a.put t.reverse (cast (s.get t))) d1, didx2) ∧
          IdxInv s.dims.length m pre sidx2 didx2 ∧
          ∀ t, t ∈ L ↔ ∃ c, ValidIndex (s.dims.drop (m + 1)) c ∧ t = pre ++ i :: c := by
      intro i sidx1 d1 didx1 hinv1
      have hstep := hinv1.step hm i
      by_cases hlt : m + 1 < s.dims.length
      · rw [if_pos (by rw [List.length_set, hinv1.1]; exact hlt)]
        obtain ⟨L, sidx2, didx2, he, hinv2, hmem⟩ :=
          ih (m + 1) (pre ++ [i]) (sidx1.set m i) d1 (didx1.set (s.dims.length - (m + 1)) i)
            (by omega) (by omega) hstep
        refine ⟨L, sidx2, didx2, he, hinv2.back hm, ?_⟩
        intro t
        rw [hmem t]
        simp only [List.append_assoc, List.singleton_append]
      · rw [if_neg (by rw [List.length_set, hinv1.1]; exact hlt)]
        have hmn : m + 1 = s.dims.length := by omega
        have hfull : IdxInv s.dims.length s.dims.length (pre ++ [i]) (sidx1.set m i)
            (didx1.set (s.dims.length - (m + 1)) i) := by
          have := hstep
          rw [hmn] at this
          rw [hmn]
          exact this
        obtain ⟨e1, e2⟩ := hfull.full
        refine ⟨[pre ++ [i]], sidx1.set m i, didx1.set (s.dims.length - (m + 1)) i, ?_,
          hstep.back hm, ?_⟩
        · simp only [List.foldl_cons, List.foldl_nil]
          rw [e2, e1]
        · intro t
          rw [hmn, List.drop_length]
          simp only [List.mem_singleton]
          constructor
          · rintro rfl
            exact ⟨[], trivial, rfl⟩
          · rintro ⟨c, hc, rfl⟩
            match c, hc with
            | [], _ => rfl
    -- the loop over a list of indices
    have hloop : ∀ (l : List Nat) (sidx1 : List Nat) (d1 : BaseArray T) (didx1 : List Nat),
        IdxInv s.dims.length m pre sidx1 didx1 →
        ∃ (L : List (List Nat)) (sidx2 didx2 : List Nat),
          l.foldl
              (fun st i =>
                if m + 1 < (st.1.set m i).length then
                  convertArrayDim cast depth (m + 1 + 1) s (st.1.set m i) st.2.1
                    (st.2.2.set (s.dims.length - (m + 1)) i)
                else
                  (st.1.set m i,
                    st.2.1.put (st.2.2.set (s.dims.length - (m + 1)) i)
                      (cast (s.get (st.1.set m i))),
                    st.2.2.set (s.dims.length - (m + 1)) i))
              (sidx1, d1, didx1)
            = (sidx2, L.foldl (fun a t => a.put t.reverse (cast (s.get t))) d1, didx2) ∧
          IdxInv s.dims.length m pre sidx2 didx2 ∧
          ∀ t, t ∈ L ↔ ∃ i ∈ l, ∃ c, ValidIndex (s.dims.drop (m + 1)) c ∧ t = pre ++ i :: c := by
      intro l
      induction l with
      | nil =>
        intro sidx1 d1 didx1 hinv1
        exact ⟨[], sidx1, didx1, rfl, hinv1, by simp⟩
      | cons i l ihl =>
        intro sidx1 d1 didx1 hinv1
        obtain ⟨L1, sidx2, didx2, he1, hinv2, hmem1⟩ := hbody i sidx1 d1 didx1 hinv1
        obtain ⟨L2, sidx3, didx3, he2, hinv3, hmem2⟩ :=
          ihl sidx2 (L1.foldl (fun a t => a.put t.reverse (cast (s.get t))) d1) didx2 hinv2
        refine ⟨L1 ++ L2, sidx3, didx3, ?_, hinv3, ?_⟩
        · rw [List.foldl_cons]
          simp only []
          rw [he1, he2, List.foldl_append]
        · intro t
          rw [List.mem_append, hmem1 t, hmem2 t]
          simp only [List.mem_cons, exists_eq_or_imp]
    obtain ⟨L, sidx2, didx2, he, hinv2, hmem⟩ :=
      hloop (List.range' 1 (s.getDim (m + 1))) sidx d didx hinv
    refine ⟨L, sidx2, didx2, ?_, hinv2, ?_⟩
    · rw [convertArrayDim]
      simp only [Nat.add_sub_cancel, BaseArray.getNumDims]
      exact he
    · intro t
      rw [hmem t, List.drop_eq_getElem_cons hm, getDim_succ s m hm]
      constructor
      · rintro ⟨i, hi, c, hc, rfl⟩
        have := List.mem_range'_1.1 hi
        exact ⟨i :: c, ⟨this.1, by omega, hc⟩, rfl⟩
      · rintro ⟨c, hc, rfl⟩
        match c, hc with
        | i :: c, hv =>
          exact ⟨i, List.mem_range'_1.2 ⟨hv.1, by have := hv.2.1; omega⟩, c, hv.2.2, rfl⟩

/-- The result of `convertArrayLayout`: the dimension vector is reversed and
`d(i_n,..,i_1) = s(i_1,..,i_n)` at every valid index tuple. -/
theorem convertArrayLayout_get {S : Type} [Inhabited S] [Inhabited T] (cast : S → T)
    (s : BaseArray S) (d : BaseArray T) (h1 : 1 ≤ s.getNumDims)
    (hd : d.getNumDims = s.getNumDims) :
    ∃ res, convertArrayLayout cast s d = Except.ok res ∧ res.dims = s.dims.reverse ∧ res.WF ∧
      ∀ t, ValidIndex s.dims t → res.get t.reverse = cast (s.get t) := by
  have hinv : IdxInv s.dims.length 0 [] s.dims s.dims.reverse :=
    ⟨rfl, List.length_reverse _, rfl, by simp, rfl⟩
  obtain ⟨L, sidx2, didx2, he, _, hmem⟩ :=
    convertArrayDim_spec cast s s.dims.length 0 [] s.dims (d.setDims s.dims.reverse)
      s.dims.reverse rfl h1 hinv
  have e : convertArrayLayout cast s d
      = Except.ok (L.foldl (fun a t => a.put t.reverse (cast (s.get t)))
          (d.setDims s.dims.reverse)) := by
    unfold convertArrayLayout
    simp only []
    rw [if_neg (by rw [hd]; simp)]
    simp only [BaseArray.getNumDims, ddims_eq_reverse]
    rw [he]
  refine ⟨_, e, ?_, ?_, ?_⟩
  · rw [foldl_put_dims]; rfl
  · exact foldl_put_WF _ _ _ _ (setDims_WF _ _)
  · intro t ht
    have hmem2 : ∀ u, u ∈ L ↔ ValidIndex s.dims u := by
      intro u
      rw [hmem u]
      simp only [List.drop_zero, List.nil_append]
      constructor
      · rintro ⟨c, hc, rfl⟩; exact hc
      · intro hu; exact ⟨u, hu, rfl⟩
    refine foldl_put_get L (fun u => u.reverse) (fun u => cast (s.get u)) _ (setDims_WF _ _)
      ?_ t ((hmem2 t).2 ht) ?_
    · intro u hu
      rw [setDims_dims]
      exact ((hmem2 u).1 hu).reverse
    · intro u _ hu
      rw [List.reverse_inj.1 hu]

/-- C5: for an array `s` with at least one dimension and one element type for source
and destination, `convertArrayLayout` applied to `s` and then to the result
succeeds both times and yields an array with the shape and the elements
of `s`. -/
theorem convertArrayLayout_twice [Inhabited T] (s d d2 : BaseArray T) (hwf : s.WF)
    (h1 : 1 ≤ s.getNumDims) (hd : d.getNumDims = s.getNumDims)
    (hd2 : d2.getNumDims = s.getNumDims) :
    ∃ y, convertArrayLayout id s d = Except.ok y ∧ convertArrayLayout id y d2 = Except.ok s := by
  obtain ⟨y, hy, hyd, _, hyget⟩ := convertArrayLayout_get id s d h1 hd
  have hyn : y.getNumDims = s.getNumDims := by
    simp [BaseArray.getNumDims, hyd]
  obtain ⟨z, hz, hzd, hzwf, hzget⟩ :=
    convertArrayLayout_get id y d2 (by rw [hyn]; exact h1) (by rw [hyn, hd2])
  refine ⟨y, hy, ?_⟩
  rw [hz]
  congr 1
  have hzd2 : z.dims = s.dims := by rw [hzd, hyd, List.reverse_reverse]
  apply BaseArray.ext_get z s hzwf hwf hzd2
  intro idx hidx
  rw [hzd2] at hidx
  have hrev : ValidIndex y.dims idx.reverse := by rw [hyd]; exact hidx.reverse
  have h3 := hzget idx.reverse hrev
  rw [List.reverse_reverse] at h3
  rw [h3]
  exact hyget idx hidx

theorem convertArrayLayout_twice_witness :
    exA234.WF ∧ 1 ≤ exA234.getNumDims ∧
    ∃ y, convertArrayLayout id exA234 exDest3 = Except.ok y ∧
      convertArrayLayout id y exDest3 = Except.ok exA234 :=
  ⟨by decide, by decide, convertArrayLayout_twice exA234 exDest3 exDest3 (by decide) (by decide)
    rfl rfl⟩

/-- C14 (as stated, refuted): the layout conversion of a 2x3 array yields a 3x2 array, so
the dimension list of the destination differs from that of the source. -/
theorem convertArrayLayout_changes_shape :
    convertArrayLayout id exA23 exDest2 = Except.ok ⟨[3, 2], [1, 3, 5, 2, 4, 6]⟩ ∧
    exA23.dims = [2, 3] := by
  refine ⟨rfl, rfl⟩

/-- C14 (amended): for every source array `s` and every destination with the same number
of dimensions, `convertArrayLayout(s, d)` succeeds and the destination gets the
dimension list of `s` in reversed order; the number of dimensions and the
number of elements are those of `s`. -/
theorem convertArrayLayout_reverses_dims {S : Type} [Inhabited S] [Inhabited T]
    (cast : S → T) (s : BaseArray S) (d : BaseArray T) (hd : d.getNumDims = s.getNumDims) :
    ∃ res, convertArrayLayout cast s d = Except.ok res ∧ res.dims = s.dims.reverse ∧
      res.getNumDims = s.getNumDims ∧ res.getNumElems = s.getNumElems := by
  have hfin : ∀ res : BaseArray T, res.dims = s.dims.reverse →
      res.getNumDims = s.getNumDims ∧ res.getNumElems = s.getNumElems := by
    intro res h
    simp [BaseArray.getNumDims, BaseArray.getNumElems, h, List.prod_reverse]
  by_cases h0 : s.getNumDims = 0
  · have hs : s.dims = [] := List.length_eq_zero.1 h0
    refine ⟨d.setDims [], ?_, by rw [hs]; rfl, hfin _ (by rw [hs]; rfl)⟩
    unfold convertArrayLayout
    simp only []
    rw [if_neg (by rw [hd]; simp)]
    simp [BaseArray.getNumDims, hs, convertArrayDim]
  · obtain ⟨res, h1, h2, _, _⟩ := convertArrayLayout_get cast s d (by omega) hd
    exact ⟨res, h1, h2, hfin res h2⟩

theorem convertArrayLayout_reverses_dims_witness :
    exDest3.getNumDims = exA234.getNumDims ∧
    ∃ res, convertArrayLayout id exA234 exDest3 = Except.ok res ∧
      res.dims = exA234.dims.reverse ∧
      res.getNumDims = exA234.getNumDims ∧ res.getNumElems = exA234.getNumElems :=
  ⟨rfl, convertArrayLayout_reverses_dims id exA234 exDest3 rfl⟩

/-- C21: for every source array `s` with at least one dimension, `convertArrayLayout`
reverses the whole index order: the destination has the dims of `s` in reversed
order and `d(i_n,..,i_1) = s(i_1,..,i_n)` at every valid index; and for every
two-dimensional array `convertArrayLayout` and `transpose_array` produce the
same result, shape and elements. -/
theorem convertArrayLayout_reverses_index_order [Inhabited T] (s d a : BaseArray T) :
    (1 ≤ s.getNumDims → d.getNumDims = s.getNumDims →
      ∃ res, convertArrayLayout id s d = Except.ok res ∧ res.dims = s.dims.reverse ∧
        res.WF ∧ ∀ t, ValidIndex s.dims t → res.get t.reverse = s.get t) ∧
    (∀ d1 d2, s.dims = [d1, d2] → d.getNumDims = 2 → a.getNumDims = 2 →
      ∃ res, convertArrayLayout id s d = Except.ok res ∧
        transpose_array s a = Except.ok res) := by
  constructor
  · intro h1 hd
    exact convertArrayLayout_get id s d h1 hd
  · intro d1 d2 hs hd ha
    have hn : s.getNumDims = 2 := by simp [BaseArray.getNumDims, hs]
    obtain ⟨r1, e1, hd1, hw1, hg1⟩ :=
      convertArrayLayout_get id s d (by omega) (by rw [hd, hn])
    obtain ⟨r2, e2, hd2, hw2, hg2⟩ := transpose_array_get s a d1 d2 [] hs (by rw [ha, hn])
    have hdims : r1.dims = r2.dims := by rw [hd1, hd2, hs]; rfl
    refine ⟨r1, e1, ?_⟩
    rw [e2]
    congr 1
    apply BaseArray.ext_get r2 r1 hw2 hw1 hdims.symm
    intro idx hidx
    rw [hd2] at hidx
    match idx, hidx with
    | [j, i], hv =>
      simp only [ValidIndex] at hv
      have hval : ValidIndex s.dims [i, j] := by
        rw [hs]; exact ⟨hv.2.2.1, hv.2.2.2.1, hv.1, hv.2.1, trivial⟩
      rw [hg2 i j [] hv.2.2.1 hv.2.2.2.1 hv.1 hv.2.1 trivial]
      have := hg1 [i, j] hval
      simp only [List.reverse_cons, List.reverse_nil, List.nil_append, List.singleton_append,
        id] at this
      rw [this]

theorem convertArrayLayout_reverses_index_order_witness :
    (∃ res, convertArrayLayout id exA234 exDest3 = Except.ok res ∧
        res.dims = exA234.dims.reverse ∧ res.WF ∧
        ∀ t, ValidIndex exA234.dims t → res.get t.reverse = exA234.get t) ∧
    (∃ res, convertArrayLayout id exA23 exDest2 = Except.ok res ∧
        transpose_array exA23 exDest2 = Except.ok res) :=
  ⟨(convertArrayLayout_reverses_index_order exA234 exDest3 exDest3).1 (by decide) rfl,
    (convertArrayLayout_reverses_index_order exA23 exDest2 exDest2).2 2 3 rfl rfl rfl⟩

/-! ## Assignment of row-major data -/

theorem rowMajorOffsetFrom_acc : ∀ (ds c : List Nat) (acc : Nat), c.length = ds.length →
    rowMajorOffsetFrom acc ds c = acc * ds.prod + rowMajorOffsetFrom 0 ds c
  | [], [], acc, _ => by simp [rowMajorOffsetFrom]
  | [], _ :: _, _, h => by simp at h
  | _ :: _, [], _, h => by simp at h
  | d :: ds, i :: c, acc, h => by
    have hl : c.length = ds.length := by simpa using h
    simp only [rowMajorOffsetFrom, List.prod_cons]
    rw [rowMajorOffsetFrom_acc ds c (acc * d + (i - 1)) hl,
      rowMajorOffsetFrom_acc ds c (0 * d + (i - 1)) hl]
    ring

theorem rowMajorOffset_cons (d : Nat) (ds : List Nat) (i : Nat) (c : List Nat)
    (h : c.length = ds.length) :
    rowMajorOffset (d :: ds) (i :: c) = (i - 1) * ds.prod + rowMajorOffset ds c := by
  unfold rowMajorOffset
  rw [rowMajorOffsetFrom, rowMajorOffsetFrom_acc ds c _ h]
  simp

/-- The row-major offset of an index tuple is the column-major offset of the reversed
tuple in the reversed dimensions. -/
theorem rowMajorOffset_eq_offset_reverse : ∀ (ds c : List Nat), c.length = ds.length →
    rowMajorOffset ds c = offset ds.reverse c.reverse
  | [], [], _ => rfl
  | [], _ :: _, h => by simp at h
  | _ :: _, [], h => by simp at h
  | d :: ds, i :: c, h => by
    have hl : c.length = ds.length := by simpa using h
    rw [rowMajorOffset_cons d ds i c hl, rowMajorOffset_eq_offset_reverse ds c hl,
      List.reverse_cons, List.reverse_cons,
      offset_append ds.reverse c.reverse (by simp [hl]) [d] [i], List.prod_reverse]
    simp only [offset, Nat.mul_zero, Nat.add_zero]
    ring

theorem rowMajorOffset_lt {ds c : List Nat} (h : ValidIndex ds c) :
    rowMajorOffset ds c < ds.prod := by
  rw [rowMajorOffset_eq_offset_reverse ds c h.length_eq, ← List.prod_reverse]
  exact offset_lt h.reverse

theorem take_set_self (idx : List Nat) (m i : Nat) : (idx.set m i).take m = idx.take m := by
  apply List.ext_getElem?
  intro p
  by_cases hp : p < m
  · rw [List.getElem?_take_of_lt hp, List.getElem?_take_of_lt hp,
      List.getElem?_set_ne (by omega)]
  · rw [List.getElem?_take_eq_none (by omega), List.getElem?_take_eq_none (by omega)]

theorem take_succ_set (idx : List Nat) (m i : Nat) (hm : m < idx.length) :
    (idx.set m i).take (m + 1) = idx.take m ++ [i] := by
  rw [List.take_succ, take_set_self, List.getElem?_set_self hm]
  rfl

theorem take_of_take_succ {idx pre : List Nat} {m i : Nat} (h : idx.take (m + 1) = pre ++ [i])
    (hp : pre.length = m) : idx.take m = pre := by
  have : idx.take m = (idx.take (m + 1)).take m := by
    rw [List.take_take]; congr 1; omega
  rw [this, h, List.take_append_of_le_length (by omega), List.take_of_length_le (by omega)]

/-- The recursion of `assignRowMajorDim` with the first `m` indices fixed to `pre`
processes as many values as the remaining dimensions have index tuples and
assigns to every index tuple that extends `pre` the value at the position that
lies the row-major offset of the extension after `start`. -/
theorem assignRowMajorDim_spec [Inhabited T] (data : List T) (ds : List Nat) :
    ∀ (depth m : Nat) (pre idx : List Nat) (start : Nat) (A : BaseArray T),
      depth + m = ds.length → 1 ≤ depth → A.dims = ds →
      idx.length = ds.length → idx.take m = pre → pre.length = m →
      ∃ (L : List (List Nat × Nat)) (idx2 : List Nat),
        assignRowMajorDim depth (m + 1) data start A idx
          = ((ds.drop m).prod, L.foldl (fun a w => a.put w.1 (readAt data w.2)) A, idx2) ∧
        idx2.length = ds.length ∧ idx2.take m = pre ∧
        ∀ w, w ∈ L ↔ ∃ c, ValidIndex (ds.drop m) c ∧
          w = (pre ++ c, start + rowMajorOffset (ds.drop m) c) := by
  intro depth
  induction depth with
  | zero => intro m pre idx start A _ h; omega
  | succ depth ih =>
    intro m pre idx start A hsum _ hA hlen hpre hprelen
    have hm : m < ds.length := by omega
    -- one pass of the loop body
    have hbody : ∀ (i p : Nat) (A1 : BaseArray T) (idx1 : List Nat),
        A1.dims = ds → idx1.length = ds.length → idx1.take m = pre →
        ∃ (L : List (List Nat × Nat)) (idx2 : List Nat),
          (if m + 1 < (idx1.set m i).length then
              (p + (assignRowMajorDim depth (m + 1 + 1) data (start + p) A1 (idx1.set m i)).1,
                (assignRowMajorDim depth (m + 1 + 1) data (start + p) A1 (idx1.set m i)).2.1,
                (assignRowMajorDim depth (m + 1 + 1) data (start + p) A1 (idx1.set m i)).2.2)
            else
              (p + 1, A1.put (idx1.set m i) (readAt data (start + p)), idx1.set m i))
            = (p + (ds.drop (m + 1)).prod,
                L.foldl (fun a w => a.put w.1 (readAt data w.2)) A1, idx2) ∧
          idx2.length = ds.length ∧ idx2.take m = pre ∧
          ∀ w, w ∈ L ↔ ∃ c, ValidIndex (ds.drop (m + 1)) c ∧
            w = (pre ++ i :: c, start + p + rowMajorOffset (ds.drop (m + 1)) c) := by
      intro i p A1 idx1 hA1 hlen1 hpre1
      have hstep : (idx1.set m i).take (m + 1) = pre ++ [i] := by
        rw [take_succ_set idx1 m i (by omega), hpre1]
      by_cases hlt : m + 1 < ds.length
      · rw [if_pos (by rw [List.length_set, hlen1]; exact hlt)]
        obtain ⟨L, idx2, he, hl2, hp2, hmem⟩ :=
          ih (m + 1) (pre ++ [i]) (idx1.set m i) (start + p) A1 (by omega) (by omega) hA1
            (by rw [List.length_set, hlen1]) hstep (by simp [hprelen])
        refine ⟨L, idx2, ?_, hl2, take_of_take_succ hp2 hprelen, ?_⟩
        · rw [he]
        · intro w
          rw [hmem w]
          simp only [List.append_assoc, List.singleton_append]
      · rw [if_neg (by rw [List.length_set, hlen1]; exact hlt)]
        have hmn : m + 1 = ds.length := by omega
        have hfull : idx1.set m i = pre ++ [i] := by
          rw [← hstep, List.take_of_length_le (by rw [List.length_set]; omega)]
        refine ⟨[(pre ++ [i], start + p)], idx1.set m i, ?_,
          by rw [List.length_set, hlen1], by rw [take_set_self, hpre1], ?_⟩
        · simp only [List.foldl_cons, List.foldl_nil]
          rw [hfull, hmn, List.drop_length, List.prod_nil]
        · intro w
          rw [hmn, List.drop_length]
          simp only [List.mem_singleton]
          constructor
          · rintro rfl
            exact ⟨[], trivial, rfl⟩
          · rintro ⟨c, hc, rfl⟩
            match c, hc with
            | [], _ => rfl
    -- the loop over the indices `s, .., s + len - 1`
    have hloop : ∀ (len s p : Nat) (A1 : BaseArray T) (idx1 : List Nat),
        A1.dims = ds → idx1.length = ds.length → idx1.take m = pre →
        ∃ (L : List (List Nat × Nat)) (idx2 : List Nat),
          (List.range' s len).foldl
              (fun st i =>
                if m + 1 < (st.2.2.set m i).length then
                  (st.1 + (assignRowMajorDim depth (m + 1 + 1) data (start + st.1) st.2.1
                      (st.2.2.set m i)).1,
                    (assignRowMajorDim depth (m + 1 + 1) data (start + st.1) st.2.1
                      (st.2.2.set m i)).2.1,
                    (assignRowMajorDim depth (m + 1 + 1) data (start + st.1) st.2.1
                      (st.2.2.set m i)).2.2)
                else
                  (st.1 + 1, st.2.1.put (st.2.2.set m i) (readAt data (start + st.1)),
                    st.2.2.set m i))
              (p, A1, idx1)
            = (p + len * (ds.drop (m + 1)).prod,
                L.foldl (fun a w => a.put w.1 (readAt data w.2)) A1, idx2) ∧
          idx2.length = ds.length ∧ idx2.take m = pre ∧
          ∀ w, w ∈ L ↔ ∃ j, j < len ∧ ∃ c, ValidIndex (ds.drop (m + 1)) c ∧
            w = (pre ++ (s + j) :: c,
              start + p + j * (ds.drop (m + 1)).prod + rowMajorOffset (ds.drop (m + 1)) c) := by
      intro len
      induction len with
      | zero =>
        intro s p A1 idx1 _ hlen1 hpre1
        exact ⟨[], idx1, by simp, hlen1, hpre1, by simp⟩
      | succ len ihl =>
        intro s p A1 idx1 hA1 hlen1 hpre1
        obtain ⟨L1, idx2, he1, hl2, hp2, hmem1⟩ := hbody s p A1 idx1 hA1 hlen1 hpre1
        obtain ⟨L2, idx3, he2, hl3, hp3, hmem2⟩ :=
          ihl (s + 1) (p + (ds.drop (m + 1)).prod)
            (L1.foldl (fun a w => a.put w.1 (readAt data w.2)) A1) idx2
            (by rw [foldl_put_dims]; exact hA1) hl2 hp2
        refine ⟨L1 ++ L2, idx3, ?_, hl3, hp3, ?_⟩
        · rw [List.range'_succ, List.foldl_cons]
          simp only []
          rw [he1, he2, List.foldl_append]
          congr 1
          ring
        · intro w
          rw [List.mem_append, hmem1 w, hmem2 w]
          constructor
          · rintro (⟨c, hc, rfl⟩ | ⟨j, hj, c, hc, rfl⟩)
            · exact ⟨0, by omega, c, hc, by simp⟩
            · refine ⟨j + 1, by omega, c, hc, ?_⟩
              rw [Prod.mk.injEq]
              refine ⟨by rw [show s + 1 + j = s + (j + 1) by omega], ?_⟩
              ring
          · rintro ⟨j, hj, c, hc, rfl⟩
            cases j with
            | zero => exact Or.inl ⟨c, hc, by simp⟩
            | succ j =>
              refine Or.inr ⟨j, by omega, c, hc, ?_⟩
              rw [Prod.mk.injEq]
              refine ⟨by rw [show s + 1 + j = s + (j + 1) by omega], ?_⟩
              ring
    obtain ⟨L, idx2, he, hl2, hp2, hmem⟩ := hloop (A.getDim (m + 1)) 1 0 A idx hA hlen hpre
    have hd : A.getDim (m + 1) = ds[m] := by
      rw [getDim_succ A m (by rw [hA]; exact hm)]
      simp only [hA]
    refine ⟨L, idx2, ?_, hl2, hp2, ?_⟩
    · rw [assignRowMajorDim]
      simp only [Nat.add_sub_cancel]
      rw [he, List.drop_eq_getElem_cons hm, List.prod_cons, hd, Nat.zero_add]
    · intro w
      rw [hmem w, List.drop_eq_getElem_cons hm, hd]
      constructor
      · rintro ⟨j, hj, c, hc, rfl⟩
        refine ⟨(1 + j) :: c, ⟨by omega, by omega, hc⟩, ?_⟩
        rw [rowMajorOffset_cons _ _ _ _ hc.length_eq]
        simp only [Nat.add_zero, Nat.add_sub_cancel_left, Nat.add_assoc]
      · rintro ⟨c, hc, rfl⟩
        match c, hc with
        | i :: c, hv =>
          refine ⟨i - 1, by have := hv.2.1; have := hv.1; omega, c, hv.2.2, ?_⟩
          rw [rowMajorOffset_cons _ _ _ _ hv.2.2.length_eq]
          have : 1 + (i - 1) = i := by have := hv.1; omega
          simp only [this, Nat.add_zero, Nat.add_assoc]

/-- The result of `assignRowMajorData` on an array with at least one dimension. -/
theorem assignRowMajorData_eq [Inhabited T] (data : List T) (A : BaseArray T)
    (h1 : 1 ≤ A.getNumDims) :
    ∃ L : List (List Nat × Nat),
      assignRowMajorData data A
        = (A.dims.prod, L.foldl (fun a w => a.put w.1 (readAt data w.2)) A) ∧
      ∀ w, w ∈ L ↔ ∃ c, ValidIndex A.dims c ∧ w = (c, rowMajorOffset A.dims c) := by
  obtain ⟨L, idx2, he, _, _, hmem⟩ :=
    assignRowMajorDim_spec data A.dims A.dims.length 0 [] (List.replicate A.dims.length 0) 0 A
      rfl h1 rfl (List.length_replicate _ _) rfl rfl
  refine ⟨L, ?_, ?_⟩
  · unfold assignRowMajorData
    simp only [BaseArray.getNumDims]
    rw [he]
    rfl
  · intro w
    rw [hmem w]
    simp only [List.drop_zero, List.nil_append, Nat.zero_add]

/-- C24: for an array `A` with at least one dimension and a data sequence of as many
values as `A` has elements, `assignRowMajorData(data, A)` processes exactly that
many values, every position of the data is the row-major offset of a valid
index tuple, and afterwards `A(i_1,..,i_n)` is the value at the row-major offset
`(((i_1-1)*d_2 + (i_2-1))*d_3 + ...) + (i_n-1)`; the result is the result of
`convertArrayLayout` on the array with the reversed dims whose column-major
storage is the data. -/
theorem assignRowMajorData_row_major [Inhabited T] (data : List T) (A dest : BaseArray T)
    (hwf : A.WF) (h1 : 1 ≤ A.getNumDims) (hdata : data.length = A.dims.prod)
    (hdest : dest.getNumDims = A.getNumDims) :
    (assignRowMajorData data A).1 = data.length ∧
    (∀ p, p < data.length → ∃ idx, ValidIndex A.dims idx ∧ rowMajorOffset A.dims idx = p) ∧
    (assignRowMajorData data A).2.dims = A.dims ∧
    (assignRowMajorData data A).2.WF ∧
    (∀ idx, ValidIndex A.dims idx →
      rowMajorOffset A.dims idx < data.length ∧
      (assignRowMajorData data A).2.get idx = readAt data (rowMajorOffset A.dims idx)) ∧
    convertArrayLayout id { dims := A.dims.reverse, data := data } dest
      = Except.ok (assignRowMajorData data A).2 := by
  obtain ⟨L, he, hmem⟩ := assignRowMajorData_eq data A h1
  have hget : ∀ idx, ValidIndex A.dims idx →
      (assignRowMajorData data A).2.get idx = readAt data (rowMajorOffset A.dims idx) := by
    intro idx hidx
    rw [he]
    refine foldl_put_get L (fun w => w.1) (fun w => readAt data w.2) A hwf ?_
      (idx, rowMajorOffset A.dims idx) ((hmem _).2 ⟨idx, hidx, rfl⟩) ?_
    · intro w hw
      obtain ⟨c, hc, rfl⟩ := (hmem w).1 hw
      exact hc
    · intro w hw hidx2
      obtain ⟨c, hc, rfl⟩ := (hmem w).1 hw
      simp only at hidx2
      subst hidx2
      rfl
  have hdims : (assignRowMajorData data A).2.dims = A.dims := by
    rw [he]; exact foldl_put_dims L _ _ A
  have hres : (assignRowMajorData data A).2.WF := by
    rw [he]; exact foldl_put_WF L _ _ A hwf
  refine ⟨by rw [he, hdata], ?_, hdims, hres, ?_, ?_⟩
  · intro p hp
    rw [hdata, ← List.prod_reverse] at hp
    obtain ⟨jdx, hj, hoff⟩ := offset_surj A.dims.reverse p hp
    refine ⟨jdx.reverse, by simpa using hj.reverse, ?_⟩
    have hl : jdx.reverse.length = A.dims.length := by
      rw [List.length_reverse, hj.length_eq, List.length_reverse]
    rw [rowMajorOffset_eq_offset_reverse A.dims jdx.reverse hl, List.reverse_reverse]
    exact hoff
  · intro idx hidx
    exact ⟨by rw [hdata]; exact rowMajorOffset_lt hidx, hget idx hidx⟩
  · obtain ⟨res, hr, hrd, hrw, hrg⟩ :=
      convertArrayLayout_get id ({ dims := A.dims.reverse, data := data } : BaseArray T) dest
        (by simpa [BaseArray.getNumDims] using h1)
        (by simpa [BaseArray.getNumDims] using hdest)
    rw [hr]
    congr 1
    have hrd2 : res.dims = A.dims := by rw [hrd]; exact List.reverse_reverse _
    apply BaseArray.ext_get res _ hrw hres (by rw [hrd2, hdims])
    intro idx hidx
    rw [hrd2] at hidx
    have := hrg idx.reverse (by simpa using hidx.reverse)
    rw [List.reverse_reverse] at this
    rw [this, hget idx hidx, rowMajorOffset_eq_offset_reverse A.dims idx hidx.length_eq]
    rfl

theorem assignRowMajorData_row_major_witness :
    exA23.WF ∧ 1 ≤ exA23.getNumDims ∧ exData6.length = exA23.dims.prod ∧
    exDest2.getNumDims = exA23.getNumDims ∧
    (assignRowMajorData exData6 exA23).1 = exData6.length ∧
    (∀ p, p < exData6.length →
      ∃ idx, ValidIndex exA23.dims idx ∧ rowMajorOffset exA23.dims idx = p) ∧
    (assignRowMajorData exData6 exA23).2.dims = exA23.dims ∧
    (assignRowMajorData exData6 exA23).2.WF ∧
    (∀ idx, ValidIndex exA23.dims idx →
      rowMajorOffset exA23.dims idx < exData6.length ∧
      (assignRowMajorData exData6 exA23).2.get idx
        = readAt exData6 (rowMajorOffset exA23.dims idx)) ∧
    convertArrayLayout id { dims := exA23.dims.reverse, data := exData6 } exDest2
      = Except.ok (assignRowMajorData exData6 exA23).2 :=
  ⟨by decide, by decide, by decide, by decide,
    assignRowMajorData_row_major exData6 exA23 exDest2 (by decide) (by decide) (by decide)
      (by decide)⟩

end ArrayOperations

/-! # The homotopy solver: failure leaves the iterate at the last accepted one -/

namespace NonlinearSolverHomotopy

variable {X J : Type}

end NonlinearSolverHomotopy
